import Mathlib

/-!
# Verification of the fsck.ubifs check/rebuild engine (mtd-utils)

Shallow embedding of the core data structures and algorithms of the
`fsck.ubifs` consistency checker from mtd-utils, together with theorems
settling the specified properties of:

* the problem/policy engine (`problem.c`),
* the node parsers (`extract_files.c`),
* the file-graph builder (`extract_files.c`),
* the reachability pass (`extract_files.c`, `check_files.c`),
* the metadata reconciler (`extract_files.c`),
* the rebuild tombstone application (`rebuild_fs.c`),
* the space accounting pass (`check_space.c`).

Machine integers are modelled as `Nat`/`Int`; the C code at hand performs
no wrapping arithmetic on the paths modelled here.  Red-black trees keyed
by a totally ordered key are modelled as association lists with the same
insert-or-update semantics; the in-order iteration of a tree of dentries
ordered by sequence number is modelled as a sorted list.
-/

namespace Fsck

/-! ## Constants from fsck.ubifs.h, ubifs.h and the on-flash media layout -/

/-- Exit code bit: file system errors corrected (fsck.ubifs.h). -/
def FSCK_NONDESTRUCT : Nat := 1

/-- Exit code bit: file system errors left uncorrected (fsck.ubifs.h). -/
def FSCK_UNCORRECTED : Nat := 4

/-- Exit code bit: operational error (fsck.ubifs.h). -/
def FSCK_ERROR : Nat := 8

/-- Largest inode number permitted for scanned nodes (ubifs.h). -/
def INUM_WATERMARK : Nat := 0xFFFFFF00

/-- Inode number of the root directory. -/
def UBIFS_ROOT_INO : Nat := 1

/-- Maximal directory entry name length. -/
def UBIFS_MAX_NLEN : Nat := 255

/-- Number of directory entry types. -/
def UBIFS_ITYPES_CNT : Nat := 8

/-- Number of compression types. -/
def UBIFS_COMPR_TYPES_CNT : Nat := 4

/-- Data block size. -/
def UBIFS_BLOCK_SIZE : Nat := 4096

/-- Maximal data payload attached to an inode node. -/
def UBIFS_MAX_INO_DATA : Nat := 4096

/-- Size of the fixed part of an inode node on flash. -/
def UBIFS_INO_NODE_SZ : Nat := 160

/-- Size of the fixed part of a directory-entry node on flash. -/
def UBIFS_DENT_NODE_SZ : Nat := 56

/-- Maximal total size of the extended attribute list of one inode. -/
def XATTR_LIST_MAX : Nat := 65536

/-- On-flash node type tags. -/
def UBIFS_INO_NODE : Nat := 0
def UBIFS_DATA_NODE : Nat := 1
def UBIFS_DENT_NODE : Nat := 2
def UBIFS_XENT_NODE : Nat := 3
def UBIFS_TRUN_NODE : Nat := 4

/-- Key type tags. -/
def UBIFS_INO_KEY : Nat := 0
def UBIFS_DATA_KEY : Nat := 1
def UBIFS_DENT_KEY : Nat := 2
def UBIFS_XENT_KEY : Nat := 3
def UBIFS_TRUN_KEY : Nat := 4

/-- Inode flag bits (on-flash `ino->flags`). -/
def UBIFS_XATTR_FL : Nat := 32
def UBIFS_CRYPT_FL : Nat := 2048

/-- POSIX file type bits (`sys/stat.h`). -/
def S_IFMT : Nat := 0o170000
def S_IFSOCK : Nat := 0o140000
def S_IFLNK : Nat := 0o120000
def S_IFREG : Nat := 0o100000
def S_IFBLK : Nat := 0o060000
def S_IFDIR : Nat := 0o040000
def S_IFCHR : Nat := 0o020000
def S_IFIFO : Nat := 0o010000

/-- `S_ISREG` and friends. -/
def S_ISREG (m : Nat) : Bool := m &&& S_IFMT == S_IFREG
def S_ISDIR (m : Nat) : Bool := m &&& S_IFMT == S_IFDIR
def S_ISLNK (m : Nat) : Bool := m &&& S_IFMT == S_IFLNK

/-! ## Problem / policy engine (problem.c)

Every detectable inconsistency is a `FsckProblem` carrying four flags, and
`fix_problem` decides fix vs skip vs abort from the flags and the active
operating mode, accumulating exit-status bits. -/

/-- The six working modes of fsck (fsck.ubifs.h). -/
inductive Mode
  | NORMAL_MODE
  | SAFE_MODE
  | DANGER_MODE0
  | DANGER_MODE1
  | REBUILD_MODE
  | CHECK_MODE
deriving DecidableEq, Repr, Fintype

/-- Flags of one entry of `problem_table` (problem.c).  `fixable` is
`PROBLEM_FIXABLE`, `mustFix` is `PROBLEM_MUST_FIX`, `dropData` is
`PROBLEM_DROP_DATA`, `needRebuild` is `PROBLEM_NEED_REBUILD`. -/
structure FsckProblem where
  fixable : Bool
  mustFix : Bool
  dropData : Bool
  needRebuild : Bool
deriving DecidableEq, Repr, Fintype

/-- The closed problem taxonomy (`problem_table` in problem.c), in order:
SB_CORRUPTED, MST_CORRUPTED, LOG_CORRUPTED, BUD_CORRUPTED, TNC_CORRUPTED,
TNC_DATA_CORRUPTED, ORPHAN_CORRUPTED, INVALID_INO_NODE, INVALID_DENT_NODE,
INVALID_DATA_NODE, SCAN_CORRUPTED, FILE_HAS_NO_INODE, FILE_HAS_0_NLINK_INODE,
FILE_HAS_INCONSIST_TYPE, FILE_HAS_TOO_MANY_DENT, FILE_SHOULDNT_HAVE_DATA,
FILE_HAS_NO_DENT, XATTR_HAS_NO_HOST, XATTR_HAS_WRONG_HOST,
FILE_HAS_NO_ENCRYPT, FILE_IS_DISCONNECTED, FILE_ROOT_HAS_DENT,
DENTRY_IS_UNREACHABLE, FILE_IS_INCONSISTENT, EMPTY_TNC, LPT_CORRUPTED,
NNODE_INCORRECT, PNODE_INCORRECT, LP_INCORRECT, SPACE_STAT_INCORRECT,
LTAB_INCORRECT, INCORRECT_IDX_SZ, ROOT_DIR_NOT_FOUND,
DISCONNECTED_FILE_CANNOT_BE_RECOVERED. -/
def problem_table : List FsckProblem :=
  [ ⟨false, false, false, false⟩   -- SB_CORRUPTED
  , ⟨true,  true,  true,  true⟩   -- MST_CORRUPTED
  , ⟨true,  true,  true,  true⟩   -- LOG_CORRUPTED
  , ⟨true,  true,  true,  false⟩  -- BUD_CORRUPTED
  , ⟨true,  true,  true,  true⟩   -- TNC_CORRUPTED
  , ⟨true,  true,  true,  false⟩  -- TNC_DATA_CORRUPTED
  , ⟨true,  true,  true,  false⟩  -- ORPHAN_CORRUPTED
  , ⟨true,  true,  true,  false⟩  -- INVALID_INO_NODE
  , ⟨true,  true,  true,  false⟩  -- INVALID_DENT_NODE
  , ⟨true,  true,  true,  false⟩  -- INVALID_DATA_NODE
  , ⟨true,  true,  true,  false⟩  -- SCAN_CORRUPTED
  , ⟨true,  true,  true,  false⟩  -- FILE_HAS_NO_INODE
  , ⟨true,  true,  true,  false⟩  -- FILE_HAS_0_NLINK_INODE
  , ⟨true,  true,  true,  false⟩  -- FILE_HAS_INCONSIST_TYPE
  , ⟨true,  true,  true,  false⟩  -- FILE_HAS_TOO_MANY_DENT
  , ⟨true,  true,  true,  false⟩  -- FILE_SHOULDNT_HAVE_DATA
  , ⟨true,  true,  true,  false⟩  -- FILE_HAS_NO_DENT
  , ⟨true,  true,  true,  false⟩  -- XATTR_HAS_NO_HOST
  , ⟨true,  true,  true,  false⟩  -- XATTR_HAS_WRONG_HOST
  , ⟨true,  true,  true,  false⟩  -- FILE_HAS_NO_ENCRYPT
  , ⟨true,  true,  false, false⟩  -- FILE_IS_DISCONNECTED
  , ⟨true,  true,  true,  false⟩  -- FILE_ROOT_HAS_DENT
  , ⟨true,  true,  true,  false⟩  -- DENTRY_IS_UNREACHABLE
  , ⟨true,  true,  false, false⟩  -- FILE_IS_INCONSISTENT
  , ⟨true,  true,  true,  true⟩   -- EMPTY_TNC
  , ⟨true,  true,  false, false⟩  -- LPT_CORRUPTED
  , ⟨true,  true,  false, false⟩  -- NNODE_INCORRECT
  , ⟨true,  true,  false, false⟩  -- PNODE_INCORRECT
  , ⟨true,  true,  false, false⟩  -- LP_INCORRECT
  , ⟨true,  true,  false, false⟩  -- SPACE_STAT_INCORRECT
  , ⟨true,  true,  false, false⟩  -- LTAB_INCORRECT
  , ⟨true,  true,  false, false⟩  -- INCORRECT_IDX_SZ
  , ⟨true,  true,  false, false⟩  -- ROOT_DIR_NOT_FOUND
  , ⟨true,  false, true,  false⟩  -- DISCONNECTED_FILE_CANNOT_BE_RECOVERED
  ]

/-- Outcome of `fix_problem`: either the process aborts (`fatal_error`,
which calls `exit`), or the function returns an answer; in both cases the
exit-status bits OR-ed into the global `exit_code` are recorded. -/
inductive FixOutcome
  | aborted (exitBits : Nat)
  | returned (ans : Bool) (exitBits : Nat)
deriving DecidableEq, Repr

/-- `fix_problem` (problem.c, lines 331-377).  `promptAns` is the answer
given by the interactive prompt, consulted only in `NORMAL_MODE`. -/
def fix_problem (mode : Mode) (problem : FsckProblem) (promptAns : Bool) :
    FixOutcome :=
  if problem.fixable = false then
    FixOutcome.aborted FSCK_UNCORRECTED
  else
    let def_y : Bool :=
      ¬ (mode = Mode.CHECK_MODE ∨
         (problem.dropData = true ∧ mode = Mode.SAFE_MODE) ∨
         (problem.needRebuild = true ∧
          (mode = Mode.SAFE_MODE ∨ mode = Mode.DANGER_MODE0)))
    let ans : Bool := if mode = Mode.NORMAL_MODE then promptAns else def_y
    if ans = false then
      if problem.mustFix = true then FixOutcome.aborted FSCK_UNCORRECTED
      else FixOutcome.returned false FSCK_UNCORRECTED
    else
      FixOutcome.returned true FSCK_NONDESTRUCT

/-- Whether an outcome is "the problem gets fixed" (`fix_problem` returned
`true`). -/
def FixOutcome.isFixed : FixOutcome → Bool
  | FixOutcome.returned true _ => true
  | _ => false

/-- Claim C2: the problem/policy engine's decision matches the
operating-mode table: in check-only mode `fix_problem` never returns true;
in safe mode it returns true for a fixable problem exactly when the problem
is flagged neither data-loss nor rebuild-requiring, and aborts on a
declined must-fix problem; in plain danger mode it declines (and, the table
flagging all rebuild-requiring problems must-fix, aborts on)
rebuild-requiring problems while the danger+rebuild variant accepts them;
every accepted fix sets the FSCK_NONDESTRUCT exit bit and every declined
fix sets the FSCK_UNCORRECTED exit bit. -/
theorem C2_fix_problem_mode_table :
    (∀ p pa, (fix_problem Mode.CHECK_MODE p pa).isFixed = false) ∧
    (∀ p pa, p.fixable = true →
      ((fix_problem Mode.SAFE_MODE p pa =
          FixOutcome.returned true FSCK_NONDESTRUCT) ↔
        (p.dropData = false ∧ p.needRebuild = false))) ∧
    (∀ p pa, p.fixable = true → p.mustFix = true →
      (fix_problem Mode.SAFE_MODE p pa).isFixed = false →
      fix_problem Mode.SAFE_MODE p pa = FixOutcome.aborted FSCK_UNCORRECTED) ∧
    (∀ p ∈ problem_table, p.needRebuild = true → ∀ pa,
      fix_problem Mode.DANGER_MODE0 p pa =
        FixOutcome.aborted FSCK_UNCORRECTED ∧
      fix_problem Mode.DANGER_MODE1 p pa =
        FixOutcome.returned true FSCK_NONDESTRUCT) ∧
    (∀ m p pa,
      fix_problem m p pa = FixOutcome.returned true FSCK_NONDESTRUCT ∨
      fix_problem m p pa = FixOutcome.returned false FSCK_UNCORRECTED ∨
      fix_problem m p pa = FixOutcome.aborted FSCK_UNCORRECTED) := by
  refine ⟨?_, ?_, ?_, ?_, ?_⟩ <;> decide

/-- Witness for C2 at concrete inputs: a safe-mode fix of a fixable problem
with no data loss and no rebuild requirement is accepted, and the
must-fix + data-loss problem `MST_CORRUPTED` aborts under plain danger
mode while being fixed under danger+rebuild. -/
theorem C2_fix_problem_mode_table_witness :
    fix_problem Mode.SAFE_MODE ⟨true, true, false, false⟩ false =
      FixOutcome.returned true FSCK_NONDESTRUCT ∧
    fix_problem Mode.DANGER_MODE0 ⟨true, true, true, true⟩ false =
      FixOutcome.aborted FSCK_UNCORRECTED ∧
    fix_problem Mode.DANGER_MODE1 ⟨true, true, true, true⟩ false =
      FixOutcome.returned true FSCK_NONDESTRUCT := by
  refine ⟨?_, ?_, ?_⟩
  · exact (C2_fix_problem_mode_table.2.1 ⟨true, true, false, false⟩ false
      rfl).mpr ⟨rfl, rfl⟩
  · exact (C2_fix_problem_mode_table.2.2.2.1 ⟨true, true, true, true⟩
      (by decide) rfl false).1
  · exact (C2_fix_problem_mode_table.2.2.2.1 ⟨true, true, true, true⟩
      (by decide) rfl false).2

/-! ## Node parser & validator (extract_files.c)

Raw on-flash nodes are modelled as records of their already byte-decoded
fields (the `le32_to_cpu`/`le64_to_cpu` reads of the C code); the parse
functions reproduce the validation chains of `parse_ino_node`,
`parse_dent_node`, `parse_data_node` and `parse_trun_node` and fill in the
corresponding `scanned_*_node` structures. -/

/-- The composite key `(object-number, type, sub-key)` (`union ubifs_key`):
`idx` is the block index for data keys and the name hash for entry keys. -/
structure UbifsKey where
  inum : Nat
  ktype : Nat
  idx : Nat := 0
deriving DecidableEq, Repr

/-- `struct scanned_node`: common header recorded for every valid node. -/
structure ScannedNodeHeader where
  exist : Bool := false
  lnum : Nat := 0
  offs : Nat := 0
  len : Int := 0
  sqnum : Nat := 0
deriving DecidableEq, Repr

/-- `parse_node_header` (extract_files.c, lines 24-33). -/
def parse_node_header (lnum offs : Nat) (len : Int) (sqnum : Nat) :
    ScannedNodeHeader :=
  ⟨true, lnum, offs, len, sqnum⟩

/-- `struct scanned_ino_node` (fsck.ubifs.h), without the intrusive
rb-node. -/
structure ScannedIno where
  header : ScannedNodeHeader := {}
  key : UbifsKey := ⟨0, UBIFS_INO_KEY, 0⟩
  is_xattr : Bool := false
  is_encrypted : Bool := false
  mode : Nat := 0
  nlink : Nat := 0
  xcnt : Nat := 0
  xsz : Nat := 0
  xnms : Nat := 0
  size : Nat := 0
deriving DecidableEq, Repr

/-- `struct scanned_dent_node` (fsck.ubifs.h), without the intrusive
links; the target file pointer is re-established from the containing
file during graph construction. -/
structure ScannedDent where
  header : ScannedNodeHeader := {}
  key : UbifsKey := ⟨0, UBIFS_DENT_KEY, 0⟩
  can_be_found : Bool := false
  dtype : Nat := 0
  nlen : Nat := 0
  name : List Nat := []
  inum : Nat := 0
deriving DecidableEq, Repr

/-- `struct scanned_data_node` (fsck.ubifs.h). -/
structure ScannedData where
  header : ScannedNodeHeader := {}
  key : UbifsKey := ⟨0, UBIFS_DATA_KEY, 0⟩
  size : Nat := 0
deriving DecidableEq, Repr

/-- `struct scanned_trun_node` (fsck.ubifs.h). -/
structure ScannedTrun where
  header : ScannedNodeHeader := {}
  new_size : Int := 0
deriving DecidableEq, Repr

/-- Byte-decoded fields of a raw inode node (`struct ubifs_ino_node`
together with its common header `struct ubifs_ch`). -/
structure RawInoNode where
  node_type : Nat
  len : Int
  sqnum : Nat
  flags : Nat
  data_len : Int
  mode : Nat
  nlink : Nat
  xattr_cnt : Nat
  xattr_size : Nat
  xattr_names : Nat
  size : Nat
  compr_type : Nat
deriving DecidableEq, Repr

/-- `inode_can_be_encrypted` (extract_files.c, lines 35-50). -/
def inode_can_be_encrypted (encrypted : Bool) (ino_node : ScannedIno) :
    Bool :=
  if encrypted = false then false
  else if ino_node.is_xattr then false
  else S_ISREG ino_node.mode || S_ISDIR ino_node.mode ||
       S_ISLNK ino_node.mode

/-- The per-file-type `data_len` domain checks of `parse_ino_node`
(the `switch (ino_node->mode & S_IFMT)`, lines 212-299): returns `false`
when the node must be rejected. -/
def ino_type_data_len_ok (is_xattr : Bool) (mode : Nat) (data_len : Int) :
    Bool :=
  let fmt := mode &&& S_IFMT
  if fmt = S_IFREG then is_xattr || data_len == 0
  else if fmt = S_IFDIR then data_len == 0
  else if fmt = S_IFLNK then data_len != 0
  else if fmt = S_IFBLK ∨ fmt = S_IFCHR then data_len == 4 || data_len == 8
  else if fmt = S_IFSOCK ∨ fmt = S_IFIFO then data_len == 0
  else false

/-- `parse_ino_node` (extract_files.c, lines 65-318): validation chain for
a raw inode node; on success the scanned inode node is filled and its
header recorded. -/
def parse_ino_node (encrypted : Bool) (max_inode_sz : Nat)
    (lnum offs : Nat) (node : RawInoNode) (key : UbifsKey)
    (ino_node : ScannedIno) : Bool × ScannedIno :=
  let inum := key.inum
  if inum = 0 ∨ inum > INUM_WATERMARK then (false, ino_node)
  else if node.node_type ≠ key.ktype then (false, ino_node)
  else
    let st : ScannedIno := { ino_node with
      key := key
      is_xattr := node.flags &&& UBIFS_XATTR_FL != 0
      is_encrypted := node.flags &&& UBIFS_CRYPT_FL != 0
      mode := node.mode
      nlink := node.nlink
      xcnt := node.xattr_cnt
      xsz := node.xattr_size
      xnms := node.xattr_names
      size := node.size }
    if inum = UBIFS_ROOT_INO ∧ S_ISDIR st.mode = false then (false, st)
    else if st.size > max_inode_sz then (false, st)
    else if node.compr_type ≥ UBIFS_COMPR_TYPES_CNT then (false, st)
    else if st.xnms + st.xcnt > XATTR_LIST_MAX then (false, st)
    else if node.data_len < 0 ∨ node.data_len > (UBIFS_MAX_INO_DATA : Int)
      then (false, st)
    else if (UBIFS_INO_NODE_SZ : Int) + node.data_len ≠ node.len
      then (false, st)
    else if st.is_xattr ∧ S_ISREG st.mode = false then (false, st)
    else if st.is_xattr ∧ node.data_len ≠ (st.size : Int) then (false, st)
    else if st.is_xattr ∧ (st.xcnt ≠ 0 ∨ st.xsz ≠ 0 ∨ st.xnms ≠ 0)
      then (false, st)
    else if ino_type_data_len_ok st.is_xattr st.mode node.data_len = false
      then (false, st)
    else if st.is_encrypted ∧ inode_can_be_encrypted encrypted st = false
      then (false, st)
    else
      (true, { st with header := parse_node_header lnum offs node.len
                         node.sqnum })

/-- Byte-decoded fields of a raw directory-entry / extended-attribute-entry
node (`struct ubifs_dent_node`); `key_flash_type` is
`key_type_flash(c, dent->key)` and `name` is the raw name byte array. -/
structure RawDentNode where
  node_type : Nat
  len : Int
  sqnum : Nat
  key_flash_type : Nat
  inum : Nat
  dtype : Nat
  nlen : Nat
  name : Nat → Nat

/-- `parse_dent_node` (extract_files.c, lines 333-381): validation of a
raw entry node; `strnlen(name, nlen) != nlen` holds exactly when a zero
byte occurs among the first `nlen` name bytes. -/
def parse_dent_node (lnum offs : Nat) (node : RawDentNode) (key : UbifsKey)
    (dent_node : ScannedDent) : Bool × ScannedDent :=
  if node.len ≠ (node.nlen : Int) + (UBIFS_DENT_NODE_SZ : Int) + 1 ∨
     node.dtype ≥ UBIFS_ITYPES_CNT ∨
     node.nlen > UBIFS_MAX_NLEN ∨
     node.name node.nlen ≠ 0 ∨
     (node.key_flash_type = UBIFS_XENT_KEY ∧
       ((List.range node.nlen).any fun i => node.name i == 0) = true) ∨
     node.inum > INUM_WATERMARK ∨
     node.key_flash_type ≠ node.node_type
  then (false, dent_node)
  else
    (true, { dent_node with
      key := key
      can_be_found := false
      dtype := node.dtype
      nlen := node.nlen
      name := (List.range node.nlen).map node.name
      inum := node.inum
      header := parse_node_header lnum offs node.len node.sqnum })

/-- Byte-decoded fields of a raw data node (`struct ubifs_data_node`). -/
structure RawDataNode where
  node_type : Nat
  len : Int
  sqnum : Nat
  size : Nat
  compr_type : Nat
deriving DecidableEq, Repr

/-- `parse_data_node` (extract_files.c, lines 396-457). -/
def parse_data_node (lnum offs : Nat) (node : RawDataNode) (key : UbifsKey)
    (data_node : ScannedData) : Bool × ScannedData :=
  if node.node_type ≠ key.ktype then (false, data_node)
  else if key.inum = 0 ∨ key.inum > INUM_WATERMARK then (false, data_node)
  else
    let st : ScannedData := { data_node with key := key, size := node.size }
    if st.size = 0 ∨ st.size > UBIFS_BLOCK_SIZE then (false, st)
    else if node.compr_type ≥ UBIFS_COMPR_TYPES_CNT then (false, st)
    else
      (true, { st with header := parse_node_header lnum offs node.len
                         node.sqnum })

/-- Byte-decoded fields of a raw truncation node
(`struct ubifs_trun_node`); `old_size` and `new_size` are signed
(`loff_t`). -/
structure RawTrunNode where
  len : Int
  sqnum : Nat
  inum : Nat
  old_size : Int
  new_size : Int
deriving DecidableEq, Repr

/-- `parse_trun_node` (extract_files.c, lines 472-508).  Note that
`trun_node->new_size` is assigned before the size checks, but the node
header is recorded only for a valid node. -/
def parse_trun_node (max_inode_sz : Int) (lnum offs : Nat)
    (node : RawTrunNode) (trun_node : ScannedTrun) : Bool × ScannedTrun :=
  if node.inum = 0 ∨ node.inum > INUM_WATERMARK then (false, trun_node)
  else
    let st : ScannedTrun := { trun_node with new_size := node.new_size }
    if node.old_size < 0 ∨ node.old_size > max_inode_sz ∨
       node.new_size < 0 ∨ node.new_size > max_inode_sz ∨
       node.old_size ≤ node.new_size
    then (false, st)
    else
      (true, { st with header := parse_node_header lnum offs node.len
                         node.sqnum })

/-- Claim C9: the truncation-node parser accepts a raw truncation node iff
its inode number is non-zero and at most the watermark, both old size and
new size lie in `[0, max_inode_sz]`, and the new size is strictly smaller
than the old size; otherwise it returns invalid without recording a node
header. -/
theorem C9_parse_trun_node_validity (max_inode_sz : Int) (lnum offs : Nat)
    (node : RawTrunNode) (trun_node : ScannedTrun) :
    ((parse_trun_node max_inode_sz lnum offs node trun_node).1 = true ↔
      (node.inum ≠ 0 ∧ node.inum ≤ INUM_WATERMARK ∧
       0 ≤ node.old_size ∧ node.old_size ≤ max_inode_sz ∧
       0 ≤ node.new_size ∧ node.new_size ≤ max_inode_sz ∧
       node.new_size < node.old_size)) ∧
    ((parse_trun_node max_inode_sz lnum offs node trun_node).1 = false →
      (parse_trun_node max_inode_sz lnum offs node trun_node).2.header =
        trun_node.header) := by
  unfold parse_trun_node
  constructor
  · constructor
    · intro h
      by_cases h1 : node.inum = 0 ∨ node.inum > INUM_WATERMARK
      · simp [h1] at h
      · simp only [h1, if_false] at h
        by_cases h2 : node.old_size < 0 ∨ node.old_size > max_inode_sz ∨
            node.new_size < 0 ∨ node.new_size > max_inode_sz ∨
            node.old_size ≤ node.new_size
        · simp [h2] at h
        · push_neg at h1 h2
          exact ⟨h1.1, h1.2, h2.1, h2.2.1, h2.2.2.1, h2.2.2.2.1,
            h2.2.2.2.2⟩
    · rintro ⟨h1, h2, h3, h4, h5, h6, h7⟩
      have hc1 : ¬ (node.inum = 0 ∨ node.inum > INUM_WATERMARK) := by
        push_neg; exact ⟨h1, h2⟩
      have hc2 : ¬ (node.old_size < 0 ∨ node.old_size > max_inode_sz ∨
          node.new_size < 0 ∨ node.new_size > max_inode_sz ∨
          node.old_size ≤ node.new_size) := by
        push_neg; exact ⟨h3, h4, h5, h6, h7⟩
      simp [hc1, hc2]
  · intro h
    by_cases h1 : node.inum = 0 ∨ node.inum > INUM_WATERMARK
    · simp [h1]
    · simp only [h1, if_false] at h ⊢
      by_cases h2 : node.old_size < 0 ∨ node.old_size > max_inode_sz ∨
          node.new_size < 0 ∨ node.new_size > max_inode_sz ∨
          node.old_size ≤ node.new_size
      · simp [h2]
      · simp [h2] at h

/-- Witness for C9 at a concrete input: a truncation node shrinking inode 5
from size 100 to size 10 is accepted, and one with `new_size = old_size`
is rejected leaving the header unrecorded. -/
theorem C9_parse_trun_node_validity_witness :
    (parse_trun_node 1000000 3 64 ⟨56, 7, 5, 100, 10⟩ {}).1 = true ∧
    (parse_trun_node 1000000 3 64 ⟨56, 7, 5, 100, 100⟩ {}).1 = false ∧
    (parse_trun_node 1000000 3 64
        ⟨56, 7, 5, 100, 100⟩ {}).2.header = ({} : ScannedTrun).header := by
  refine ⟨?_, by decide, ?_⟩
  · exact (C9_parse_trun_node_validity 1000000 3 64 ⟨56, 7, 5, 100, 10⟩
      {}).1.mpr (by decide)
  · exact (C9_parse_trun_node_validity 1000000 3 64 ⟨56, 7, 5, 100, 100⟩
      {}).2 (by decide)

/-- Counterexample for C8 as stated ("every node accepted as valid by the
node parser has an object number that is non-zero and below the configured
watermark"): a directory-entry node whose target object number is zero (a
deletion entry) is accepted by `parse_dent_node`, and an inode node whose
object number equals the watermark is accepted by `parse_ino_node`. -/
theorem C8_objnum_range_counterexample :
    (parse_dent_node 0 0
        ⟨2, 58, 9, UBIFS_DENT_KEY, 0, 0, 1, fun i => if i = 0 then 65 else 0⟩
        ⟨7, UBIFS_DENT_KEY, 123⟩ {}).1 = true ∧
    (parse_dent_node 0 0
        ⟨2, 58, 9, UBIFS_DENT_KEY, 0, 0, 1, fun i => if i = 0 then 65 else 0⟩
        ⟨7, UBIFS_DENT_KEY, 123⟩ {}).2.inum = 0 ∧
    (parse_ino_node false 1000000 0 0 ⟨0, 160, 11, 0, 0, S_IFDIR, 1, 0, 0, 0, 0, 0⟩
        ⟨INUM_WATERMARK, UBIFS_INO_KEY, 0⟩ {}).1 = true ∧
    ¬ (⟨INUM_WATERMARK, UBIFS_INO_KEY, 0⟩ : UbifsKey).inum <
        INUM_WATERMARK := by
  refine ⟨by decide, by decide, by decide, by decide⟩

/-- Claim C8 (amended): every node accepted as valid by the node parser
has an object number at most the configured watermark; for inode and data
nodes the object number is additionally non-zero (a directory-entry node
with target object number zero — a deletion entry — is accepted). -/
theorem C8_objnum_range :
    (∀ (encrypted : Bool) (max_inode_sz lnum offs : Nat)
       (node : RawInoNode) (key : UbifsKey) (st : ScannedIno),
      (parse_ino_node encrypted max_inode_sz lnum offs node key st).1 = true →
      key.inum ≠ 0 ∧ key.inum ≤ INUM_WATERMARK) ∧
    (∀ (lnum offs : Nat) (node : RawDataNode) (key : UbifsKey)
       (st : ScannedData),
      (parse_data_node lnum offs node key st).1 = true →
      key.inum ≠ 0 ∧ key.inum ≤ INUM_WATERMARK) ∧
    (∀ (lnum offs : Nat) (node : RawDentNode) (key : UbifsKey)
       (st : ScannedDent),
      (parse_dent_node lnum offs node key st).1 = true →
      node.inum ≤ INUM_WATERMARK) := by
  refine ⟨?_, ?_, ?_⟩
  · intro encrypted max_inode_sz lnum offs node key st h
    by_cases h1 : key.inum = 0 ∨ key.inum > INUM_WATERMARK
    · simp [parse_ino_node, h1] at h
    · push_neg at h1; exact h1
  · intro lnum offs node key st h
    by_cases h1 : key.inum = 0 ∨ key.inum > INUM_WATERMARK
    · simp [parse_data_node, h1] at h
    · push_neg at h1; exact h1
  · intro lnum offs node key st h
    by_cases h1 : node.inum > INUM_WATERMARK
    · have : (parse_dent_node lnum offs node key st).1 = false := by
        unfold parse_dent_node
        rw [if_pos]
        exact Or.inr (Or.inr (Or.inr (Or.inr (Or.inr (Or.inl h1)))))
      rw [this] at h; exact absurd h (by decide)
    · exact not_lt.mp h1

/-- Witness for C8 at concrete inputs: the three parsers accept concrete
valid nodes, so the bound on the object number is attained. -/
theorem C8_objnum_range_witness :
    ((5 : Nat) ≠ 0 ∧ (5 : Nat) ≤ INUM_WATERMARK) ∧
    ((6 : Nat) ≠ 0 ∧ (6 : Nat) ≤ INUM_WATERMARK) ∧
    (9 : Nat) ≤ INUM_WATERMARK := by
  refine ⟨?_, ?_, ?_⟩
  · exact C8_objnum_range.1 false 1000000 0 0
      ⟨0, 160, 11, 0, 0, S_IFDIR, 1, 0, 0, 0, 0, 0⟩
      ⟨5, UBIFS_INO_KEY, 0⟩ {} (by decide)
  · exact C8_objnum_range.2.1 0 0 ⟨1, 100, 12, 50, 0⟩
      ⟨6, UBIFS_DATA_KEY, 0⟩ {} (by decide)
  · exact C8_objnum_range.2.2 0 0
      ⟨2, 58, 9, UBIFS_DENT_KEY, 9, 0, 1, fun i => if i = 0 then 65 else 0⟩
      ⟨7, UBIFS_DENT_KEY, 123⟩ {} (by decide)

/-! ## File graph builder (extract_files.c)

`struct scanned_file` aggregates all nodes of one object number.  The
rb-tree of dentry nodes ordered by sequence number is modelled as a
sorted list (in-order traversal), the rb-tree of data nodes keyed by key
as an association list, and the rb-tree of xattr sub-files as an
association list of flat files (xattr files never host further xattr
files). -/

/-- An extended-attribute sub-file attached to a host file (a
`struct scanned_file` whose `xattr_files` tree is empty). -/
structure XattrFile where
  calc_nlink : Nat := 0
  calc_size : Nat := 0
  inum : Nat := 0
  ino : ScannedIno := {}
  dent_nodes : List ScannedDent := []
deriving DecidableEq, Repr

/-- `struct scanned_file` (fsck.ubifs.h), without the intrusive links. -/
structure ScannedFile where
  calc_nlink : Nat := 0
  calc_xcnt : Nat := 0
  calc_xsz : Nat := 0
  calc_xnms : Nat := 0
  calc_size : Nat := 0
  has_encrypted_info : Bool := false
  inum : Nat := 0
  ino : ScannedIno := {}
  trun : ScannedTrun := {}
  dent_nodes : List ScannedDent := []
  data_nodes : List ScannedData := []
  xattr_files : List XattrFile := []
deriving DecidableEq, Repr

/-- A typed scanned node handed to `update_file` (in the C code a
`struct scanned_node *` cast according to the key type). -/
inductive ScannedNodeVal
  | ino (n : ScannedIno)
  | dent (n : ScannedDent)
  | data (n : ScannedData)
  | trun (n : ScannedTrun)
deriving DecidableEq, Repr

/-- `insert_file_dentry` (extract_files.c, lines 518-543): insert a dentry
into the per-file tree ordered by sequence number; an equal sequence
number goes to the right, so the in-order list places it after. -/
def insert_file_dentry (dents : List ScannedDent) (n_dent : ScannedDent) :
    List ScannedDent :=
  match dents with
  | [] => [n_dent]
  | d :: ds =>
    if n_dent.header.sqnum < d.header.sqnum then n_dent :: d :: ds
    else d :: insert_file_dentry ds n_dent

/-- `update_file_data` (extract_files.c, lines 554-596): insert a data
node, or, when a data node with the same key (same block number) exists,
overwrite its header and size exactly when the new node has a strictly
higher sequence number. -/
def update_file_data (dns : List ScannedData) (n_dn : ScannedData) :
    List ScannedData :=
  match dns with
  | [] => [n_dn]
  | d :: ds =>
    if n_dn.key = d.key then
      (if d.header.sqnum < n_dn.header.sqnum then
        { d with header := n_dn.header, size := n_dn.size } :: ds
       else d :: ds)
    else d :: update_file_data ds n_dn

/-- `update_file` (extract_files.c, lines 608-661): fold one scanned node
into a reconstructed file.  An inode or truncation record is kept when it
exists and has a strictly higher sequence number than the incoming node,
and overwritten otherwise. -/
def update_file (file : ScannedFile) (sn : ScannedNodeVal) : ScannedFile :=
  match sn with
  | ScannedNodeVal.ino n =>
    if file.ino.header.exist = true ∧ file.ino.header.sqnum > n.header.sqnum
    then file
    else { file with ino := n }
  | ScannedNodeVal.dent n =>
    { file with dent_nodes := insert_file_dentry file.dent_nodes n }
  | ScannedNodeVal.data n =>
    { file with data_nodes := update_file_data file.data_nodes n }
  | ScannedNodeVal.trun n =>
    if file.trun.header.exist = true ∧
       file.trun.header.sqnum > n.header.sqnum
    then file
    else { file with trun := n }

/-- `insert_or_update_file` (extract_files.c, lines 675-716): find the
file with the given inode number in the file tree (creating a fresh
zero-initialized one if absent) and apply `update_file`. -/
def insert_or_update_file (tree : List ScannedFile) (sn : ScannedNodeVal)
    (inum : Nat) : List ScannedFile :=
  match tree with
  | [] => [update_file { inum := inum } sn]
  | f :: fs =>
    if f.inum = inum then update_file f sn :: fs
    else f :: insert_or_update_file fs sn inum

/-- Unfolding equation for `update_file` on an inode node. -/
theorem update_file_ino_eq (file : ScannedFile) (n : ScannedIno) :
    update_file file (ScannedNodeVal.ino n) =
      if file.ino.header.exist = true ∧
         file.ino.header.sqnum > n.header.sqnum
      then file else { file with ino := n } := rfl

/-- Unfolding equation for `update_file` on a truncation node. -/
theorem update_file_trun_eq (file : ScannedFile) (n : ScannedTrun) :
    update_file file (ScannedNodeVal.trun n) =
      if file.trun.header.exist = true ∧
         file.trun.header.sqnum > n.header.sqnum
      then file else { file with trun := n } := rfl

/-- Unfolding equation for `update_file` on a data node. -/
theorem update_file_data_eq (file : ScannedFile) (n : ScannedData) :
    update_file file (ScannedNodeVal.data n) =
      { file with data_nodes := update_file_data file.data_nodes n } := rfl

/-- Counterexample for C1 as stated ("an existing inode or truncation
record is replaced only by a same-key record with a strictly higher
sequence number"): an inode record with the same sequence number as the
stored one overwrites it. -/
theorem C1_seqnum_precedence_counterexample :
    (update_file
        { inum := 2, ino := { header := ⟨true, 0, 0, 160, 5⟩, nlink := 1 } }
        (ScannedNodeVal.ino { header := ⟨true, 1, 0, 160, 5⟩, nlink := 2 })).ino
      ≠ ({ header := ⟨true, 0, 0, 160, 5⟩, nlink := 1 } : ScannedIno) ∧
    ¬ (5 : Nat) > 5 := by
  refine ⟨by decide, by decide⟩

/-- Claim C1 (amended): for two same-key records folded into a
reconstructed file, the record with the strictly higher sequence number is
retained regardless of processing order; an existing inode or truncation
record is replaced only by a record whose sequence number is at least as
high (on equal sequence numbers the later-processed record overwrites),
and an existing data record with the same block index is replaced only by
a record with a strictly higher sequence number. -/
theorem C1_seqnum_precedence :
    (∀ (file : ScannedFile) (n : ScannedIno),
      file.ino.header.exist = true →
      (update_file file (ScannedNodeVal.ino n)).ino ≠ file.ino →
      n.header.sqnum ≥ file.ino.header.sqnum) ∧
    (∀ (file : ScannedFile) (n : ScannedTrun),
      file.trun.header.exist = true →
      (update_file file (ScannedNodeVal.trun n)).trun ≠ file.trun →
      n.header.sqnum ≥ file.trun.header.sqnum) ∧
    (∀ (dns : List ScannedData) (n d : ScannedData),
      d ∈ dns → d.key = n.key → d ∉ update_file_data dns n →
      n.header.sqnum > d.header.sqnum) ∧
    (∀ (file : ScannedFile) (r1 r2 : ScannedIno),
      file.ino.header.exist = false →
      r1.header.exist = true → r2.header.exist = true →
      r1.header.sqnum < r2.header.sqnum →
      (update_file (update_file file (ScannedNodeVal.ino r1))
        (ScannedNodeVal.ino r2)).ino = r2 ∧
      (update_file (update_file file (ScannedNodeVal.ino r2))
        (ScannedNodeVal.ino r1)).ino = r2) ∧
    (∀ (file : ScannedFile) (r1 r2 : ScannedTrun),
      file.trun.header.exist = false →
      r1.header.exist = true → r2.header.exist = true →
      r1.header.sqnum < r2.header.sqnum →
      (update_file (update_file file (ScannedNodeVal.trun r1))
        (ScannedNodeVal.trun r2)).trun = r2 ∧
      (update_file (update_file file (ScannedNodeVal.trun r2))
        (ScannedNodeVal.trun r1)).trun = r2) ∧
    (∀ (file : ScannedFile) (r1 r2 : ScannedData),
      file.data_nodes = [] → r1.key = r2.key →
      r1.header.sqnum < r2.header.sqnum →
      (update_file (update_file file (ScannedNodeVal.data r1))
        (ScannedNodeVal.data r2)).data_nodes = [r2] ∧
      (update_file (update_file file (ScannedNodeVal.data r2))
        (ScannedNodeVal.data r1)).data_nodes = [r2]) := by
  refine ⟨?_, ?_, ?_, ?_, ?_, ?_⟩
  · intro file n hex hne
    rw [update_file_ino_eq] at hne
    by_cases hk : file.ino.header.exist = true ∧
        file.ino.header.sqnum > n.header.sqnum
    · rw [if_pos hk] at hne; exact absurd rfl hne
    · rcases not_and_or.mp hk with h | h
      · exact absurd hex h
      · exact le_of_not_lt h
  · intro file n hex hne
    rw [update_file_trun_eq] at hne
    by_cases hk : file.trun.header.exist = true ∧
        file.trun.header.sqnum > n.header.sqnum
    · rw [if_pos hk] at hne; exact absurd rfl hne
    · rcases not_and_or.mp hk with h | h
      · exact absurd hex h
      · exact le_of_not_lt h
  · intro dns n
    induction dns with
    | nil => intro d hd; simp at hd
    | cons x xs ih =>
      intro d hd hkey hout
      simp only [update_file_data] at hout
      by_cases hx : n.key = x.key
      · rw [if_pos hx] at hout
        by_cases hs : x.header.sqnum < n.header.sqnum
        · rw [if_pos hs] at hout
          rcases List.mem_cons.mp hd with hd | hd
          · subst hd; exact hs
          · exact absurd (List.mem_cons_of_mem _ hd) hout
        · rw [if_neg hs] at hout
          exact absurd hd hout
      · rw [if_neg hx] at hout
        rcases List.mem_cons.mp hd with hd | hd
        · exact absurd hkey.symm (by subst hd; exact hx)
        · exact ih d hd hkey fun hmem => hout (List.mem_cons_of_mem _ hmem)
  · intro file r1 r2 hex h1 h2 hlt
    have e1 : update_file file (ScannedNodeVal.ino r1) =
        { file with ino := r1 } := by
      rw [update_file_ino_eq, if_neg]
      rintro ⟨ha, _⟩; rw [hex] at ha; exact Bool.false_ne_true ha
    have e2 : update_file file (ScannedNodeVal.ino r2) =
        { file with ino := r2 } := by
      rw [update_file_ino_eq, if_neg]
      rintro ⟨ha, _⟩; rw [hex] at ha; exact Bool.false_ne_true ha
    constructor
    · rw [e1, update_file_ino_eq, if_neg]
      rintro ⟨_, hgt⟩
      exact absurd hgt (not_lt.mpr hlt.le)
    · rw [e2, update_file_ino_eq, if_pos ⟨h2, hlt⟩]
  · intro file r1 r2 hex h1 h2 hlt
    have e1 : update_file file (ScannedNodeVal.trun r1) =
        { file with trun := r1 } := by
      rw [update_file_trun_eq, if_neg]
      rintro ⟨ha, _⟩; rw [hex] at ha; exact Bool.false_ne_true ha
    have e2 : update_file file (ScannedNodeVal.trun r2) =
        { file with trun := r2 } := by
      rw [update_file_trun_eq, if_neg]
      rintro ⟨ha, _⟩; rw [hex] at ha; exact Bool.false_ne_true ha
    constructor
    · rw [e1, update_file_trun_eq, if_neg]
      rintro ⟨_, hgt⟩
      exact absurd hgt (not_lt.mpr hlt.le)
    · rw [e2, update_file_trun_eq, if_pos ⟨h2, hlt⟩]
  · intro file r1 r2 hempty hkey hlt
    have e1 : update_file file (ScannedNodeVal.data r1) =
        { file with data_nodes := [r1] } := by
      rw [update_file_data_eq, hempty]; rfl
    have e2 : update_file file (ScannedNodeVal.data r2) =
        { file with data_nodes := [r2] } := by
      rw [update_file_data_eq, hempty]; rfl
    constructor
    · rw [e1, update_file_data_eq]
      show update_file_data [r1] r2 = [r2]
      simp only [update_file_data]
      rw [if_pos hkey.symm, if_pos hlt]
      rcases r1 with ⟨h1', k1, s1⟩
      rcases r2 with ⟨h2', k2, s2⟩
      rw [show k1 = k2 from hkey]
    · rw [e2, update_file_data_eq]
      show update_file_data [r2] r1 = [r2]
      simp only [update_file_data]
      rw [if_pos hkey, if_neg (not_lt.mpr hlt.le)]

/-- Witness for C1 at concrete inputs: a strictly newer inode record
overwrites in both orders of arrival, and a same-block stale data node is
superseded in both orders. -/
theorem C1_seqnum_precedence_witness :
    ((update_file (update_file ({ inum := 2 } : ScannedFile)
        (ScannedNodeVal.ino { header := ⟨true, 0, 0, 160, 5⟩, nlink := 1 }))
        (ScannedNodeVal.ino { header := ⟨true, 1, 0, 160, 8⟩, nlink := 2 })).ino
      = { header := ⟨true, 1, 0, 160, 8⟩, nlink := 2 } ∧
     (update_file (update_file ({ inum := 2 } : ScannedFile)
        (ScannedNodeVal.ino { header := ⟨true, 1, 0, 160, 8⟩, nlink := 2 }))
        (ScannedNodeVal.ino { header := ⟨true, 0, 0, 160, 5⟩, nlink := 1 })).ino
      = { header := ⟨true, 1, 0, 160, 8⟩, nlink := 2 }) ∧
    ((update_file (update_file ({ inum := 2 } : ScannedFile)
        (ScannedNodeVal.data ⟨⟨true, 0, 0, 100, 5⟩, ⟨2, UBIFS_DATA_KEY, 0⟩, 10⟩))
        (ScannedNodeVal.data ⟨⟨true, 1, 0, 100, 8⟩, ⟨2, UBIFS_DATA_KEY, 0⟩, 20⟩)).data_nodes
      = [⟨⟨true, 1, 0, 100, 8⟩, ⟨2, UBIFS_DATA_KEY, 0⟩, 20⟩] ∧
     (update_file (update_file ({ inum := 2 } : ScannedFile)
        (ScannedNodeVal.data ⟨⟨true, 1, 0, 100, 8⟩, ⟨2, UBIFS_DATA_KEY, 0⟩, 20⟩))
        (ScannedNodeVal.data ⟨⟨true, 0, 0, 100, 5⟩, ⟨2, UBIFS_DATA_KEY, 0⟩, 10⟩)).data_nodes
      = [⟨⟨true, 1, 0, 100, 8⟩, ⟨2, UBIFS_DATA_KEY, 0⟩, 20⟩]) := by
  constructor
  · exact C1_seqnum_precedence.2.2.2.1 { inum := 2 }
      { header := ⟨true, 0, 0, 160, 5⟩, nlink := 1 }
      { header := ⟨true, 1, 0, 160, 8⟩, nlink := 2 }
      (by decide) (by decide) (by decide) (by decide)
  · exact C1_seqnum_precedence.2.2.2.2.2 { inum := 2 }
      ⟨⟨true, 0, 0, 100, 5⟩, ⟨2, UBIFS_DATA_KEY, 0⟩, 10⟩
      ⟨⟨true, 1, 0, 100, 8⟩, ⟨2, UBIFS_DATA_KEY, 0⟩, 20⟩
      (by decide) (by decide) (by decide)

/-! ## Free-LEB allocation (check_space.c)

`FSCK(c)->used_lebs` is a bitmap with one bit per main-area LEB, modelled
as a list of booleans of length `c->main_lebs`. -/

/-- `find_next_zero_bit(addr, size, 0)` (bitops): the index of the first
clear bit, or the bitmap size if every bit is set. -/
def find_next_zero_bit : List Bool → Nat
  | [] => 0
  | true :: bs => find_next_zero_bit bs + 1
  | false :: _ => 0

/-- `get_free_leb` (check_space.c, lines 28-41): find the first clear bit
of the used-LEB bitmap; if there is none, fail with `-ENOSPC` (modelled as
`none`); otherwise mark the bit used and return the LEB number offset by
`main_first`. -/
def get_free_leb (main_first : Nat) (used_lebs : List Bool) :
    Option Nat × List Bool :=
  if find_next_zero_bit used_lebs ≥ used_lebs.length then
    (none, used_lebs)
  else
    (some (find_next_zero_bit used_lebs + main_first),
     used_lebs.set (find_next_zero_bit used_lebs) true)

/-- A sequence of `n` successive `get_free_leb` calls within one run. -/
def get_free_leb_run (main_first : Nat) :
    Nat → List Bool → List (Option Nat) × List Bool
  | 0, bits => ([], bits)
  | n + 1, bits =>
    let r := get_free_leb main_first bits
    let rest := get_free_leb_run main_first n r.2
    (r.1 :: rest.1, rest.2)

theorem getD_set_self (l : List Bool) (i : Nat) (h : i < l.length) :
    (l.set i true).getD i false = true := by
  induction l generalizing i with
  | nil => simp at h
  | cons x xs ih =>
    cases i with
    | zero => rfl
    | succ j =>
      have := ih j (by simpa using h)
      simpa [List.set, List.getD] using this

theorem getD_set_ne (l : List Bool) (i j : Nat) (v : Bool) (h : i ≠ j) :
    (l.set i v).getD j false = l.getD j false := by
  induction l generalizing i j with
  | nil => rfl
  | cons x xs ih =>
    cases i with
    | zero =>
      cases j with
      | zero => exact absurd rfl h
      | succ k => rfl
    | succ i' =>
      cases j with
      | zero => rfl
      | succ k =>
        have := ih i' k fun he => h (by rw [he])
        simpa [List.set, List.getD] using this

/-- The first clear bit is indeed clear when it lies inside the bitmap. -/
theorem find_next_zero_bit_clear : ∀ (l : List Bool),
    find_next_zero_bit l < l.length →
    l.getD (find_next_zero_bit l) false = false
  | [], h => by simp [find_next_zero_bit] at h
  | true :: bs, h => by
    have h' : find_next_zero_bit bs < bs.length := by
      simpa [find_next_zero_bit] using h
    simpa [find_next_zero_bit, List.getD] using
      find_next_zero_bit_clear bs h'
  | false :: bs, _ => by simp [find_next_zero_bit, List.getD]

/-- The first clear bit lies outside the bitmap exactly when every bit is
set. -/
theorem find_next_zero_bit_full : ∀ (l : List Bool),
    l.length ≤ find_next_zero_bit l ↔
      ∀ i, i < l.length → l.getD i false = true
  | [] => by simp
  | true :: bs => by
    constructor
    · intro h i hi
      cases i with
      | zero => rfl
      | succ j =>
        have h' : bs.length ≤ find_next_zero_bit bs := by
          simpa [find_next_zero_bit] using h
        have := (find_next_zero_bit_full bs).mp h' j (by simpa using hi)
        simpa [List.getD] using this
    · intro h
      have h' : ∀ j, j < bs.length → bs.getD j false = true := by
        intro j hj
        have := h (j + 1) (by simpa using hj)
        simpa [List.getD] using this
      have := (find_next_zero_bit_full bs).mpr h'
      simpa [find_next_zero_bit] using this
  | false :: bs => by
    constructor
    · intro h
      exfalso
      simp [find_next_zero_bit] at h
    · intro h
      have h0 := h 0 (by simp)
      simp [List.getD] at h0

/-- Set bits stay set across a `get_free_leb` call. -/
theorem get_free_leb_preserves_set (main_first : Nat) (bits : List Bool)
    (i : Nat) (h : bits.getD i false = true) :
    (get_free_leb main_first bits).2.getD i false = true := by
  unfold get_free_leb
  by_cases hfull : find_next_zero_bit bits ≥ bits.length
  · rw [if_pos hfull]; exact h
  · rw [if_neg hfull]
    have hne : find_next_zero_bit bits ≠ i := by
      intro he
      have hc := find_next_zero_bit_clear bits (by omega)
      rw [he] at hc
      rw [hc] at h
      exact Bool.false_ne_true h
    rw [getD_set_ne bits _ i true hne]
    exact h

/-- A LEB whose bit is set is never returned by any later call in a run. -/
theorem get_free_leb_run_no_reuse (main_first : Nat) (n : Nat)
    (bits : List Bool) (i : Nat) (h : bits.getD i false = true) :
    some (i + main_first) ∉ (get_free_leb_run main_first n bits).1 := by
  induction n generalizing bits with
  | zero => simp [get_free_leb_run]
  | succ m ih =>
    simp only [get_free_leb_run, List.mem_cons]
    rintro (hc | hc)
    · unfold get_free_leb at hc
      by_cases hfull : find_next_zero_bit bits ≥ bits.length
      · rw [if_pos hfull] at hc
        exact Option.noConfusion hc
      · rw [if_neg hfull] at hc
        have heq : find_next_zero_bit bits = i := by
          have := Option.some.inj hc
          omega
        have hclear := find_next_zero_bit_clear bits (by omega)
        rw [heq] at hclear
        rw [hclear] at h
        exact Bool.false_ne_true h
    · exact ih (get_free_leb main_first bits).2
        (get_free_leb_preserves_set main_first bits i h) hc

/-- Claim C10: each successful `get_free_leb` call returns a main-area LEB
whose bit in the used-LEB bitmap was clear and sets exactly that bit;
the call fails (with `-ENOSPC`) exactly when every main-area bit is
already set, and in that failure case the bitmap is unchanged; and across
any sequence of calls within one run no LEB number is returned twice. -/
theorem C10_get_free_leb :
    (∀ (main_first : Nat) (bits : List Bool) (l : Nat),
      (get_free_leb main_first bits).1 = some l →
      ∃ i, l = i + main_first ∧ i < bits.length ∧
        bits.getD i false = false ∧
        (get_free_leb main_first bits).2 = bits.set i true) ∧
    (∀ (main_first : Nat) (bits : List Bool),
      ((get_free_leb main_first bits).1 = none ↔
        ∀ i, i < bits.length → bits.getD i false = true)) ∧
    (∀ (main_first : Nat) (bits : List Bool),
      (get_free_leb main_first bits).1 = none →
      (get_free_leb main_first bits).2 = bits) ∧
    (∀ (main_first n : Nat) (bits : List Bool),
      ((get_free_leb_run main_first n bits).1.filterMap id).Nodup) := by
  refine ⟨?_, ?_, ?_, ?_⟩
  · intro main_first bits l h
    unfold get_free_leb at h ⊢
    by_cases hfull : find_next_zero_bit bits ≥ bits.length
    · rw [if_pos hfull] at h
      exact Option.noConfusion h
    · rw [if_neg hfull] at h ⊢
      refine ⟨find_next_zero_bit bits, (Option.some.inj h).symm, by omega,
        find_next_zero_bit_clear bits (by omega), rfl⟩
  · intro main_first bits
    unfold get_free_leb
    by_cases hfull : find_next_zero_bit bits ≥ bits.length
    · rw [if_pos hfull]
      simp only [true_iff, eq_self_iff_true]
      exact (find_next_zero_bit_full bits).mp hfull
    · rw [if_neg hfull]
      constructor
      · intro h; exact Option.noConfusion h
      · intro h
        exact absurd ((find_next_zero_bit_full bits).mpr h) hfull
  · intro main_first bits h
    unfold get_free_leb at h ⊢
    by_cases hfull : find_next_zero_bit bits ≥ bits.length
    · rw [if_pos hfull]
    · rw [if_neg hfull] at h
      exact Option.noConfusion h
  · intro main_first n
    induction n with
    | zero => intro bits; simp [get_free_leb_run]
    | succ m ih =>
      intro bits
      simp only [get_free_leb_run]
      rcases hr : (get_free_leb main_first bits).1 with _ | l
      · simpa using ih (get_free_leb main_first bits).2
      · simp only [List.filterMap_cons, id]
        refine List.Nodup.cons ?_ (ih (get_free_leb main_first bits).2)
        intro hmem
        unfold get_free_leb at hr
        by_cases hfull : find_next_zero_bit bits ≥ bits.length
        · rw [if_pos hfull] at hr
          exact Option.noConfusion hr
        · rw [if_neg hfull] at hr
          have hl : l = find_next_zero_bit bits + main_first :=
            (Option.some.inj hr).symm
          have hset : (get_free_leb main_first bits).2.getD
              (find_next_zero_bit bits) false = true := by
            unfold get_free_leb
            rw [if_neg hfull]
            exact getD_set_self bits _ (by omega)
          have hno := get_free_leb_run_no_reuse main_first m
            (get_free_leb main_first bits).2 (find_next_zero_bit bits) hset
          apply hno
          rw [← hl]
          have : some l ∈ (get_free_leb_run main_first m
              (get_free_leb main_first bits).2).1 := by
            rcases List.mem_filterMap.mp hmem with ⟨o, hmo, hid⟩
            simp only [id] at hid
            rw [hid] at hmo
            exact hmo
          exact this

/-- Witness for C10 at a concrete input: on the bitmap `[true, false]` the
successful call returns LEB `1 + 10` after finding bit 1 clear, and on the
full bitmap `[true, true]` the call fails leaving the bitmap unchanged. -/
theorem C10_get_free_leb_witness :
    (∃ i, 11 = i + 10 ∧ i < [true, false].length ∧
      [true, false].getD i false = false ∧
      (get_free_leb 10 [true, false]).2 = [true, false].set i true) ∧
    (get_free_leb 10 [true, true]).2 = [true, true] := by
  refine ⟨?_, ?_⟩
  · exact C10_get_free_leb.1 10 [true, false] 11 (by decide)
  · exact C10_get_free_leb.2.2.1 10 [true, true] (by decide)

/-! ## Rebuild: scanned-node splitting and tombstone application
(rebuild_fs.c)

`insert_or_update_ino_node` and `insert_or_update_dent_node` maintain
rb-trees of records keyed respectively by the node key and by the pair
(key, name) — `keys_cmp` with the `namecmp` tie-break — with the
higher-sequence-number record winning on an exact match.  Both are
instances of one keyed insert-or-update scheme over association lists. -/

/-- Keyed insert-or-update (the shared shape of
`insert_or_update_ino_node` and `insert_or_update_dent_node`,
rebuild_fs.c lines 130-170 and 193-241): if a record with the same key
exists it is overwritten exactly when the new record has a strictly
higher sequence number, otherwise the new record is inserted. -/
def insert_or_update_node {α κ : Type} [DecidableEq κ] (keyOf : α → κ)
    (sq : α → Nat) : List α → α → List α
  | [], n => [n]
  | x :: xs, n =>
    if keyOf n = keyOf x then
      (if sq x < sq n then n :: xs else x :: xs)
    else x :: insert_or_update_node keyOf sq xs n

/-- Keyed lookup of a valid record superseded by a deletion record (the
shared shape of `lookup_valid_ino_node` and `lookup_valid_dent_node`,
rebuild_fs.c lines 429-490): the same-key record is returned exactly when
the target (deletion) record has a strictly higher sequence number. -/
def lookup_valid_node {α κ : Type} [DecidableEq κ] (keyOf : α → κ)
    (sq : α → Nat) : List α → α → Option α
  | [], _ => none
  | x :: xs, t =>
    if keyOf t = keyOf x then
      (if sq t > sq x then some x else none)
    else lookup_valid_node keyOf sq xs t

/-- One step of `remove_del_nodes` (rebuild_fs.c, lines 517-554): if the
deletion record supersedes a valid record, erase that valid record. -/
def remove_del_step {α κ : Type} [DecidableEq κ] (keyOf : α → κ)
    (sq : α → Nat) (valid : List α) (d : α) : List α :=
  match lookup_valid_node keyOf sq valid d with
  | some _ => valid.eraseP fun x => decide (keyOf x = keyOf d)
  | none => valid

/-- The full deletion pass of `remove_del_nodes` over one valid tree. -/
def remove_del_from_valid {α κ : Type} [DecidableEq κ] (keyOf : α → κ)
    (sq : α → Nat) (valid dels : List α) : List α :=
  dels.foldl (remove_del_step keyOf sq) valid

/-- Key of a scanned inode node as used by `keys_cmp`. -/
def inoKeyOf (x : ScannedIno) : UbifsKey := x.key

/-- Key of a scanned dentry node as used by `keys_cmp` with the `namecmp`
tie-break: colliding keys are distinguished by the raw name. -/
def dentKeyOf (x : ScannedDent) : UbifsKey × List Nat := (x.key, x.name)

/-- `insert_or_update_ino_node` (rebuild_fs.c, lines 130-170). -/
def insert_or_update_ino_node (tree : List ScannedIno) (n : ScannedIno) :
    List ScannedIno :=
  insert_or_update_node inoKeyOf (fun x => x.header.sqnum) tree n

/-- `insert_or_update_dent_node` (rebuild_fs.c, lines 193-241). -/
def insert_or_update_dent_node (tree : List ScannedDent) (n : ScannedDent) :
    List ScannedDent :=
  insert_or_update_node dentKeyOf (fun x => x.header.sqnum) tree n

/-- `struct scanned_info` (rebuild_fs.c, lines 30-35). -/
structure ScannedInfo where
  valid_inos : List ScannedIno := []
  del_inos : List ScannedIno := []
  valid_dents : List ScannedDent := []
  del_dents : List ScannedDent := []
deriving DecidableEq, Repr

/-- The inode case of `process_scanned_node` (rebuild_fs.c, lines
271-280): a parsed inode node goes to the deleted tree when its link
count is zero and to the valid tree otherwise. -/
def process_scanned_ino_node (si : ScannedInfo) (ino_node : ScannedIno) :
    ScannedInfo :=
  if ino_node.nlink ≠ 0 then
    { si with valid_inos := insert_or_update_ino_node si.valid_inos ino_node }
  else
    { si with del_inos := insert_or_update_ino_node si.del_inos ino_node }

/-- The dentry case of `process_scanned_node` (rebuild_fs.c, lines
281-291): a parsed entry node goes to the deleted tree when its target
inode number is zero and to the valid tree otherwise. -/
def process_scanned_dent_node (si : ScannedInfo) (dent_node : ScannedDent) :
    ScannedInfo :=
  if dent_node.inum ≠ 0 then
    { si with valid_dents := insert_or_update_dent_node si.valid_dents dent_node }
  else
    { si with del_dents := insert_or_update_dent_node si.del_dents dent_node }

/-- `remove_del_nodes` (rebuild_fs.c, lines 517-554): apply every deletion
record to the corresponding valid tree and drop the deletion trees. -/
def remove_del_nodes (si : ScannedInfo) : ScannedInfo :=
  { si with
    valid_inos := remove_del_from_valid inoKeyOf (fun x => x.header.sqnum)
      si.valid_inos si.del_inos
    del_inos := []
    valid_dents := remove_del_from_valid dentKeyOf (fun x => x.header.sqnum)
      si.valid_dents si.del_dents
    del_dents := [] }

/-- Folding a stream of scanned inode nodes (`scan_nodes`). -/
def scan_ino_nodes (ns : List ScannedIno) : ScannedInfo :=
  ns.foldl process_scanned_ino_node {}

/-- Folding a stream of scanned dentry nodes (`scan_nodes`). -/
def scan_dent_nodes (ns : List ScannedDent) : ScannedInfo :=
  ns.foldl process_scanned_dent_node {}

theorem mem_insert_or_update {α κ : Type} [DecidableEq κ] (keyOf : α → κ)
    (sq : α → Nat) (l : List α) (n x : α)
    (h : x ∈ insert_or_update_node keyOf sq l n) : x ∈ l ∨ x = n := by
  induction l with
  | nil =>
    simp only [insert_or_update_node, List.mem_singleton] at h
    exact Or.inr h
  | cons y ys ih =>
    simp only [insert_or_update_node] at h
    by_cases hk : keyOf n = keyOf y
    · rw [if_pos hk] at h
      by_cases hs : sq y < sq n
      · rw [if_pos hs] at h
        rcases List.mem_cons.mp h with h | h
        · exact Or.inr h
        · exact Or.inl (List.mem_cons_of_mem _ h)
      · rw [if_neg hs] at h
        exact Or.inl h
    · rw [if_neg hk] at h
      rcases List.mem_cons.mp h with h | h
      · exact Or.inl (h ▸ List.mem_cons_self y ys)
      · rcases ih h with h | h
        · exact Or.inl (List.mem_cons_of_mem _ h)
        · exact Or.inr h

theorem insert_or_update_self_ge {α κ : Type} [DecidableEq κ]
    (keyOf : α → κ) (sq : α → Nat) (l : List α) (n : α) :
    ∃ e ∈ insert_or_update_node keyOf sq l n,
      keyOf e = keyOf n ∧ sq n ≤ sq e := by
  induction l with
  | nil => exact ⟨n, by simp [insert_or_update_node], rfl, le_refl _⟩
  | cons y ys ih =>
    simp only [insert_or_update_node]
    by_cases hk : keyOf n = keyOf y
    · rw [if_pos hk]
      by_cases hs : sq y < sq n
      · rw [if_pos hs]
        exact ⟨n, List.mem_cons_self _ _, rfl, le_refl _⟩
      · rw [if_neg hs]
        exact ⟨y, List.mem_cons_self _ _, hk.symm, le_of_not_lt hs⟩
    · rw [if_neg hk]
      rcases ih with ⟨e, hmem, hke, hse⟩
      exact ⟨e, List.mem_cons_of_mem _ hmem, hke, hse⟩

theorem insert_or_update_preserves_ge {α κ : Type} [DecidableEq κ]
    (keyOf : α → κ) (sq : α → Nat) (l : List α) (n : α) (k : κ) (s : Nat)
    (h : ∃ e ∈ l, keyOf e = k ∧ s ≤ sq e) :
    ∃ e ∈ insert_or_update_node keyOf sq l n,
      keyOf e = k ∧ s ≤ sq e := by
  induction l with
  | nil => rcases h with ⟨e, he, _⟩; simp at he
  | cons y ys ih =>
    rcases h with ⟨e, hmem, hke, hse⟩
    simp only [insert_or_update_node]
    by_cases hk : keyOf n = keyOf y
    · rw [if_pos hk]
      by_cases hs : sq y < sq n
      · rw [if_pos hs]
        rcases List.mem_cons.mp hmem with he | he
        · subst he
          exact ⟨n, List.mem_cons_self _ _, hk.trans hke, le_trans hse
            (le_of_lt hs)⟩
        · exact ⟨e, List.mem_cons_of_mem _ he, hke, hse⟩
      · rw [if_neg hs]
        exact ⟨e, hmem, hke, hse⟩
    · rw [if_neg hk]
      rcases List.mem_cons.mp hmem with he | he
      · subst he
        exact ⟨e, List.mem_cons_self _ _, hke, hse⟩
      · rcases ih ⟨e, he, hke, hse⟩ with ⟨e', hmem', hke', hse'⟩
        exact ⟨e', List.mem_cons_of_mem _ hmem', hke', hse'⟩

theorem insert_or_update_nodup_keys {α κ : Type} [DecidableEq κ]
    (keyOf : α → κ) (sq : α → Nat) (l : List α) (n : α)
    (h : (l.map keyOf).Nodup) :
    ((insert_or_update_node keyOf sq l n).map keyOf).Nodup := by
  induction l with
  | nil => simp [insert_or_update_node]
  | cons y ys ih =>
    simp only [List.map_cons, List.nodup_cons] at h
    simp only [insert_or_update_node]
    by_cases hk : keyOf n = keyOf y
    · rw [if_pos hk]
      by_cases hs : sq y < sq n
      · rw [if_pos hs]
        simp only [List.map_cons, List.nodup_cons]
        exact ⟨by rw [hk]; exact h.1, h.2⟩
      · rw [if_neg hs]
        simp only [List.map_cons, List.nodup_cons]
        exact h
    · rw [if_neg hk]
      simp only [List.map_cons, List.nodup_cons]
      refine ⟨?_, ih h.2⟩
      intro hmem
      rcases List.mem_map.mp hmem with ⟨e, hmem', hke⟩
      rcases mem_insert_or_update keyOf sq ys n e hmem' with he | he
      · exact h.1 (hke ▸ List.mem_map_of_mem keyOf he)
      · exact hk (by rw [he] at hke; exact hke)

theorem lookup_valid_node_none {α κ : Type} [DecidableEq κ]
    (keyOf : α → κ) (sq : α → Nat) (valid : List α) (d : α)
    (hnd : (valid.map keyOf).Nodup)
    (h : lookup_valid_node keyOf sq valid d = none) :
    ∀ v ∈ valid, keyOf v = keyOf d → sq d ≤ sq v := by
  induction valid with
  | nil => intro v hv; simp at hv
  | cons x xs ih =>
    simp only [List.map_cons, List.nodup_cons] at hnd
    simp only [lookup_valid_node] at h
    intro v hv hkv
    by_cases hk : keyOf d = keyOf x
    · rw [if_pos hk] at h
      by_cases hs : sq d > sq x
      · rw [if_pos hs] at h; exact Option.noConfusion h
      · rcases List.mem_cons.mp hv with he | he
        · subst he; exact le_of_not_lt hs
        · exfalso
          apply hnd.1
          rw [← hk, ← hkv]
          exact List.mem_map_of_mem keyOf he
    · rw [if_neg hk] at h
      rcases List.mem_cons.mp hv with he | he
      · subst he; exact absurd hkv.symm hk
      · exact ih hnd.2 h v he hkv

theorem eraseP_kills_key {α κ : Type} [DecidableEq κ]
    (keyOf : α → κ) (valid : List α) (k : κ)
    (hnd : (valid.map keyOf).Nodup) :
    ∀ x ∈ valid.eraseP (fun y => decide (keyOf y = k)),
      keyOf x = k → False := by
  induction valid with
  | nil => intro x hx; simp at hx
  | cons y ys ih =>
    simp only [List.map_cons, List.nodup_cons] at hnd
    intro x hx hkx
    by_cases hk : keyOf y = k
    · rw [List.eraseP_cons_of_pos (by simpa using hk)] at hx
      apply hnd.1
      rw [hk, ← hkx]
      exact List.mem_map_of_mem keyOf hx
    · rw [List.eraseP_cons_of_neg (by simpa using hk)] at hx
      rcases List.mem_cons.mp hx with he | he
      · subst he; exact hk hkx
      · exact ih hnd.2 x he hkx

theorem remove_del_step_subset {α κ : Type} [DecidableEq κ]
    (keyOf : α → κ) (sq : α → Nat) (valid : List α) (d : α) :
    remove_del_step keyOf sq valid d ⊆ valid := by
  unfold remove_del_step
  rcases h : lookup_valid_node keyOf sq valid d with _ | v
  · exact fun x hx => hx
  · exact (List.eraseP_sublist valid).subset

theorem remove_del_from_valid_subset {α κ : Type} [DecidableEq κ]
    (keyOf : α → κ) (sq : α → Nat) (dels valid : List α) :
    remove_del_from_valid keyOf sq valid dels ⊆ valid := by
  induction dels generalizing valid with
  | nil => exact fun x hx => hx
  | cons d ds ih =>
    intro x hx
    exact remove_del_step_subset keyOf sq valid d
      (ih (remove_del_step keyOf sq valid d) hx)

theorem remove_del_step_nodup {α κ : Type} [DecidableEq κ]
    (keyOf : α → κ) (sq : α → Nat) (valid : List α) (d : α)
    (hnd : (valid.map keyOf).Nodup) :
    ((remove_del_step keyOf sq valid d).map keyOf).Nodup := by
  unfold remove_del_step
  rcases h : lookup_valid_node keyOf sq valid d with _ | v
  · exact hnd
  · exact hnd.sublist ((List.eraseP_sublist valid).map keyOf)

theorem remove_del_step_kills_key {α κ : Type} [DecidableEq κ]
    (keyOf : α → κ) (sq : α → Nat) (valid : List α) (d : α)
    (hnd : (valid.map keyOf).Nodup)
    (hall : ∀ v ∈ valid, keyOf v = keyOf d → sq d > sq v) :
    ∀ x ∈ remove_del_step keyOf sq valid d, keyOf x ≠ keyOf d := by
  unfold remove_del_step
  rcases h : lookup_valid_node keyOf sq valid d with _ | v
  · intro x hx hkx
    have := lookup_valid_node_none keyOf sq valid d hnd h x hx hkx
    exact absurd (hall x hx hkx) (not_lt.mpr this)
  · intro x hx hkx
    exact eraseP_kills_key keyOf valid (keyOf d) hnd x hx hkx

theorem remove_del_from_valid_kills_key {α κ : Type} [DecidableEq κ]
    (keyOf : α → κ) (sq : α → Nat) (dels valid : List α) (t : α)
    (hnd : (valid.map keyOf).Nodup) (ht : t ∈ dels)
    (hall : ∀ v ∈ valid, keyOf v = keyOf t → sq t > sq v) :
    ∀ x ∈ remove_del_from_valid keyOf sq valid dels,
      keyOf x ≠ keyOf t := by
  induction dels generalizing valid with
  | nil => simp at ht
  | cons d ds ih =>
    rcases List.mem_cons.mp ht with he | he
    · subst he
      intro x hx hkx
      have hsub : remove_del_from_valid keyOf sq
          (remove_del_step keyOf sq valid t) ds ⊆
          remove_del_step keyOf sq valid t :=
        remove_del_from_valid_subset keyOf sq ds _
      exact remove_del_step_kills_key keyOf sq valid t hnd hall x
        (hsub hx) hkx
    · intro x hx hkx
      refine ih (remove_del_step keyOf sq valid d)
        (remove_del_step_nodup keyOf sq valid d hnd) he
        (fun v hv hkv => hall v (remove_del_step_subset keyOf sq valid d hv)
          hkv) x hx hkx

theorem scan_ino_valid_provenance (ns : List ScannedIno)
    (si : ScannedInfo) (x : ScannedIno)
    (h : x ∈ (ns.foldl process_scanned_ino_node si).valid_inos) :
    x ∈ si.valid_inos ∨ (x ∈ ns ∧ x.nlink ≠ 0) := by
  induction ns generalizing si with
  | nil => exact Or.inl h
  | cons n ns' ih =>
    rcases ih (process_scanned_ino_node si n) h with hmem | hmem
    · unfold process_scanned_ino_node at hmem
      by_cases hn : n.nlink ≠ 0
      · rw [if_pos hn] at hmem
        rcases mem_insert_or_update inoKeyOf (fun r => r.header.sqnum)
            si.valid_inos n x hmem with hm | hm
        · exact Or.inl hm
        · exact Or.inr ⟨hm ▸ List.mem_cons_self n ns', hm ▸ hn⟩
      · rw [if_neg hn] at hmem
        exact Or.inl hmem
    · exact Or.inr ⟨List.mem_cons_of_mem _ hmem.1, hmem.2⟩

theorem scan_ino_del_provenance (ns : List ScannedIno)
    (si : ScannedInfo) (x : ScannedIno)
    (h : x ∈ (ns.foldl process_scanned_ino_node si).del_inos) :
    x ∈ si.del_inos ∨ (x ∈ ns ∧ x.nlink = 0) := by
  induction ns generalizing si with
  | nil => exact Or.inl h
  | cons n ns' ih =>
    rcases ih (process_scanned_ino_node si n) h with hmem | hmem
    · unfold process_scanned_ino_node at hmem
      by_cases hn : n.nlink ≠ 0
      · rw [if_pos hn] at hmem
        exact Or.inl hmem
      · rw [if_neg hn] at hmem
        rcases mem_insert_or_update inoKeyOf (fun r => r.header.sqnum)
            si.del_inos n x hmem with hm | hm
        · exact Or.inl hm
        · exact Or.inr ⟨hm ▸ List.mem_cons_self n ns',
            hm ▸ not_not.mp hn⟩
    · exact Or.inr ⟨List.mem_cons_of_mem _ hmem.1, hmem.2⟩

theorem scan_dent_valid_provenance (ns : List ScannedDent)
    (si : ScannedInfo) (x : ScannedDent)
    (h : x ∈ (ns.foldl process_scanned_dent_node si).valid_dents) :
    x ∈ si.valid_dents ∨ (x ∈ ns ∧ x.inum ≠ 0) := by
  induction ns generalizing si with
  | nil => exact Or.inl h
  | cons n ns' ih =>
    rcases ih (process_scanned_dent_node si n) h with hmem | hmem
    · unfold process_scanned_dent_node at hmem
      by_cases hn : n.inum ≠ 0
      · rw [if_pos hn] at hmem
        rcases mem_insert_or_update dentKeyOf (fun r => r.header.sqnum)
            si.valid_dents n x hmem with hm | hm
        · exact Or.inl hm
        · exact Or.inr ⟨hm ▸ List.mem_cons_self n ns', hm ▸ hn⟩
      · rw [if_neg hn] at hmem
        exact Or.inl hmem
    · exact Or.inr ⟨List.mem_cons_of_mem _ hmem.1, hmem.2⟩

theorem scan_dent_del_provenance (ns : List ScannedDent)
    (si : ScannedInfo) (x : ScannedDent)
    (h : x ∈ (ns.foldl process_scanned_dent_node si).del_dents) :
    x ∈ si.del_dents ∨ (x ∈ ns ∧ x.inum = 0) := by
  induction ns generalizing si with
  | nil => exact Or.inl h
  | cons n ns' ih =>
    rcases ih (process_scanned_dent_node si n) h with hmem | hmem
    · unfold process_scanned_dent_node at hmem
      by_cases hn : n.inum ≠ 0
      · rw [if_pos hn] at hmem
        exact Or.inl hmem
      · rw [if_neg hn] at hmem
        rcases mem_insert_or_update dentKeyOf (fun r => r.header.sqnum)
            si.del_dents n x hmem with hm | hm
        · exact Or.inl hm
        · exact Or.inr ⟨hm ▸ List.mem_cons_self n ns',
            hm ▸ not_not.mp hn⟩
    · exact Or.inr ⟨List.mem_cons_of_mem _ hmem.1, hmem.2⟩

theorem scan_ino_del_preserves_ge (ns : List ScannedIno)
    (si : ScannedInfo) (k : UbifsKey) (s : Nat)
    (h : ∃ d ∈ si.del_inos, inoKeyOf d = k ∧ s ≤ d.header.sqnum) :
    ∃ d ∈ (ns.foldl process_scanned_ino_node si).del_inos,
      inoKeyOf d = k ∧ s ≤ d.header.sqnum := by
  induction ns generalizing si with
  | nil => exact h
  | cons n ns' ih =>
    apply ih
    unfold process_scanned_ino_node
    by_cases hn : n.nlink ≠ 0
    · rw [if_pos hn]; exact h
    · rw [if_neg hn]
      exact insert_or_update_preserves_ge inoKeyOf (fun r => r.header.sqnum)
        si.del_inos n k s h

theorem scan_ino_del_tombstone (ns : List ScannedIno) (t : ScannedIno)
    (hnl : t.nlink = 0) :
    ∀ si : ScannedInfo, t ∈ ns →
    ∃ d ∈ (ns.foldl process_scanned_ino_node si).del_inos,
      inoKeyOf d = inoKeyOf t ∧ t.header.sqnum ≤ d.header.sqnum := by
  induction ns with
  | nil => intro si ht; simp at ht
  | cons n ns' ih =>
    intro si ht
    rw [List.foldl_cons]
    rcases List.mem_cons.mp ht with he | he
    · subst he
      apply scan_ino_del_preserves_ge
      unfold process_scanned_ino_node
      rw [if_neg (by simp [hnl])]
      exact insert_or_update_self_ge inoKeyOf (fun r => r.header.sqnum)
        si.del_inos t
    · exact ih (process_scanned_ino_node si n) he

theorem scan_ino_valid_nodup (ns : List ScannedIno) (si : ScannedInfo)
    (h : (si.valid_inos.map inoKeyOf).Nodup) :
    (((ns.foldl process_scanned_ino_node si).valid_inos).map inoKeyOf).Nodup := by
  induction ns generalizing si with
  | nil => exact h
  | cons n ns' ih =>
    apply ih
    unfold process_scanned_ino_node
    by_cases hn : n.nlink ≠ 0
    · rw [if_pos hn]
      exact insert_or_update_nodup_keys inoKeyOf (fun r => r.header.sqnum)
        si.valid_inos n h
    · rw [if_neg hn]; exact h

/-- Claim C5: during the raw-scan rebuild, scanned inode records are split
by link count (positive = valid, zero = tombstone) and entry records by
target object number (non-zero = valid, zero = tombstone); a tombstone with
a strictly higher sequence number than the same-key (and, for entries,
same-name) valid record causes that valid record to be discarded by
`remove_del_nodes`; consequently an object whose newest same-key inode
record has link count zero is excluded entirely from the rebuilt valid
tree. -/
theorem C5_rebuild_tombstones :
    (∀ ns : List ScannedIno,
      (∀ x ∈ (scan_ino_nodes ns).valid_inos, x.nlink ≠ 0) ∧
      (∀ x ∈ (scan_ino_nodes ns).del_inos, x.nlink = 0)) ∧
    (∀ ns : List ScannedDent,
      (∀ x ∈ (scan_dent_nodes ns).valid_dents, x.inum ≠ 0) ∧
      (∀ x ∈ (scan_dent_nodes ns).del_dents, x.inum = 0)) ∧
    (∀ si : ScannedInfo, (si.valid_inos.map inoKeyOf).Nodup →
      ∀ t ∈ si.del_inos,
      (∀ v ∈ si.valid_inos, v.key = t.key →
        t.header.sqnum > v.header.sqnum) →
      ∀ x ∈ (remove_del_nodes si).valid_inos, x.key ≠ t.key) ∧
    (∀ si : ScannedInfo, (si.valid_dents.map dentKeyOf).Nodup →
      ∀ t ∈ si.del_dents,
      (∀ v ∈ si.valid_dents, v.key = t.key → v.name = t.name →
        t.header.sqnum > v.header.sqnum) →
      ∀ x ∈ (remove_del_nodes si).valid_dents,
        ¬ (x.key = t.key ∧ x.name = t.name)) ∧
    (∀ (ns : List ScannedIno) (k : UbifsKey),
      (∃ t ∈ ns, t.key = k ∧ t.nlink = 0 ∧
        ∀ r ∈ ns, r.key = k → r.nlink ≠ 0 →
          r.header.sqnum < t.header.sqnum) →
      ∀ x ∈ (remove_del_nodes (scan_ino_nodes ns)).valid_inos,
        x.key ≠ k) := by
  refine ⟨?_, ?_, ?_, ?_, ?_⟩
  · intro ns
    constructor
    · intro x hx
      rcases scan_ino_valid_provenance ns {} x hx with hm | hm
      · simp [ScannedInfo.valid_inos] at hm
      · exact hm.2
    · intro x hx
      rcases scan_ino_del_provenance ns {} x hx with hm | hm
      · simp [ScannedInfo.del_inos] at hm
      · exact hm.2
  · intro ns
    constructor
    · intro x hx
      rcases scan_dent_valid_provenance ns {} x hx with hm | hm
      · simp [ScannedInfo.valid_dents] at hm
      · exact hm.2
    · intro x hx
      rcases scan_dent_del_provenance ns {} x hx with hm | hm
      · simp [ScannedInfo.del_dents] at hm
      · exact hm.2
  · intro si hnd t ht hall x hx hkx
    have := remove_del_from_valid_kills_key inoKeyOf
      (fun r => r.header.sqnum) si.del_inos si.valid_inos t hnd ht
      (fun v hv hkv => hall v hv hkv) x hx
    exact this hkx
  · intro si hnd t ht hall x hx hkx
    have := remove_del_from_valid_kills_key dentKeyOf
      (fun r => r.header.sqnum) si.del_dents si.valid_dents t hnd ht
      (fun v hv hkv => hall v hv
        (congrArg Prod.fst hkv) (congrArg Prod.snd hkv)) x hx
    apply this
    show (x.key, x.name) = (t.key, t.name)
    rw [hkx.1, hkx.2]
  · intro ns k hyp x hx hkx
    rcases hyp with ⟨t, htmem, htk, htnl, hmax⟩
    have hnd : ((scan_ino_nodes ns).valid_inos.map inoKeyOf).Nodup :=
      scan_ino_valid_nodup ns {} (by simp [ScannedInfo.valid_inos])
    rcases scan_ino_del_tombstone ns t htnl {} htmem with ⟨d, hdmem, hdk, hds⟩
    have hall : ∀ v ∈ (scan_ino_nodes ns).valid_inos,
        inoKeyOf v = inoKeyOf d → d.header.sqnum > v.header.sqnum := by
      intro v hv hkv
      rcases scan_ino_valid_provenance ns {} v hv with hm | hm
      · simp [ScannedInfo.valid_inos] at hm
      · have hvk : v.key = k := by
          have : inoKeyOf v = inoKeyOf t := by rw [hkv, hdk]
          rw [show inoKeyOf v = v.key from rfl,
            show inoKeyOf t = t.key from rfl] at this
          rw [this, htk]
        have := hmax v hm.1 hvk hm.2
        omega
    have := remove_del_from_valid_kills_key inoKeyOf
      (fun r => r.header.sqnum) (scan_ino_nodes ns).del_inos
      (scan_ino_nodes ns).valid_inos d hnd hdmem hall x hx
    apply this
    show x.key = d.key
    rw [hkx]
    have : inoKeyOf d = inoKeyOf t := hdk
    rw [show inoKeyOf d = d.key from rfl,
      show inoKeyOf t = t.key from rfl] at this
    rw [this, htk]

/-- Witness for C5 at a concrete input: a stream with an inode-creation
record (nlink 1, sqnum 1) followed by a same-key tombstone (nlink 0,
sqnum 2) leaves no record of that key in the rebuilt valid tree. -/
theorem C5_rebuild_tombstones_witness :
    ∀ x ∈ (remove_del_nodes (scan_ino_nodes
        [⟨⟨true, 0, 0, 160, 1⟩, ⟨5, UBIFS_INO_KEY, 0⟩, false, false, 0, 1, 0, 0, 0, 0⟩,
         ⟨⟨true, 0, 64, 160, 2⟩, ⟨5, UBIFS_INO_KEY, 0⟩, false, false, 0, 0, 0, 0, 0, 0⟩])).valid_inos,
      x.key ≠ ⟨5, UBIFS_INO_KEY, 0⟩ := by
  apply C5_rebuild_tombstones.2.2.2.2
  exact ⟨⟨⟨true, 0, 64, 160, 2⟩, ⟨5, UBIFS_INO_KEY, 0⟩, false, false, 0, 0, 0, 0, 0, 0⟩,
    by decide, by decide, by decide, by decide⟩

/-! ## Space accounting (check_space.c)

`scan_get_lp` derives per-LEB properties `{free, dirty, is_idx}` from a
raw LEB scan and the TNC referenced-query, and the identical accumulation
loops of `build_lpt` (lines 67-97) and `check_and_correct_pnode` (lines
339-423) aggregate them into `struct ubifs_lp_stats`. -/

/-- The aggregated space statistics (`struct ubifs_lp_stats`). -/
structure LpStats where
  empty_lebs : Nat := 0
  idx_lebs : Nat := 0
  total_free : Nat := 0
  total_dirty : Nat := 0
  total_used : Nat := 0
  total_dead : Nat := 0
  total_dark : Nat := 0
deriving DecidableEq, Repr

/-- Per-LEB properties as computed by `scan_get_lp`. -/
structure LebProps where
  free : Nat
  dirty : Nat
  is_idx : Bool
deriving DecidableEq, Repr

/-- `ALIGN(len, 8)`. -/
def ALIGN8 (n : Nat) : Nat := (n + 7) / 8 * 8

/-- A raw scan of one LEB (`struct ubifs_scan_leb`): the end of the last
node (`endpt`) and, per node, its length together with the answer of the
`ubifs_tnc_has_node` query (whether this exact location is still the
authoritative one). -/
structure ScanLeb where
  endpt : Nat
  nodes : List (Nat × Bool)
deriving DecidableEq, Repr

/-- The `used` accumulation of `scan_get_lp` (check_space.c, lines
132-168): the summed 8-aligned length of the still-referenced nodes. -/
def scan_leb_used (sleb : ScanLeb) : Nat :=
  sleb.nodes.foldl (fun used nd => if nd.2 then used + ALIGN8 nd.1 else used) 0

/-- The free/dirty derivation of `scan_get_lp` (check_space.c, lines
170-182): `free = leb_size - endpt` and `dirty = endpt - used`; the
index flag comes from the node types seen in the LEB. -/
def scan_get_lp (leb_size : Nat) (sleb : ScanLeb) (is_idx : Bool) :
    LebProps :=
  { free := leb_size - sleb.endpt
    dirty := sleb.endpt - scan_leb_used sleb
    is_idx := is_idx }

/-- The per-LEB statistics accumulation shared by `build_lpt`
(check_space.c, lines 74-91) and `check_and_correct_pnode` (lines
405-422): free and dirty are summed for every LEB, an all-free LEB counts
as empty, an index LEB only bumps `idx_lebs`, and a non-index LEB
contributes its occupied bytes to `total_used` and its reclaimable space
to dead or dark space around the `dead_wm` watermark. -/
def lp_stats_accumulate (leb_size dead_wm : Nat) (calc_dark : Nat → Nat)
    (lst : LpStats) (lp : LebProps) : LpStats :=
  let lst1 := { lst with total_free := lst.total_free + lp.free,
                         total_dirty := lst.total_dirty + lp.dirty }
  let lst2 := if lp.free = leb_size then
                { lst1 with empty_lebs := lst1.empty_lebs + 1 }
              else lst1
  if lp.is_idx then { lst2 with idx_lebs := lst2.idx_lebs + 1 }
  else
    let spc := lp.free + lp.dirty
    if spc < dead_wm then
      { lst2 with total_dead := lst2.total_dead + spc,
                  total_used := lst2.total_used + (leb_size - spc) }
    else
      { lst2 with total_dark := lst2.total_dark + calc_dark spc,
                  total_used := lst2.total_used + (leb_size - spc) }

/-- The statistics loop of `build_lpt` / `check_and_correct_pnode` over
all main-area LEBs, starting from the zeroed statistics
(`memset(&lst, 0, ...)`). -/
def build_lpt_stats (leb_size dead_wm : Nat) (calc_dark : Nat → Nat)
    (lps : List LebProps) : LpStats :=
  lps.foldl (lp_stats_accumulate leb_size dead_wm calc_dark) {}

theorem lp_accumulate_total_free (leb_size dead_wm : Nat)
    (calc_dark : Nat → Nat) (lst : LpStats) (lp : LebProps) :
    (lp_stats_accumulate leb_size dead_wm calc_dark lst lp).total_free =
      lst.total_free + lp.free := by
  simp only [lp_stats_accumulate]
  split_ifs <;> rfl

theorem lp_accumulate_total_dirty (leb_size dead_wm : Nat)
    (calc_dark : Nat → Nat) (lst : LpStats) (lp : LebProps) :
    (lp_stats_accumulate leb_size dead_wm calc_dark lst lp).total_dirty =
      lst.total_dirty + lp.dirty := by
  simp only [lp_stats_accumulate]
  split_ifs <;> rfl

theorem lp_accumulate_total_used (leb_size dead_wm : Nat)
    (calc_dark : Nat → Nat) (lst : LpStats) (lp : LebProps) :
    (lp_stats_accumulate leb_size dead_wm calc_dark lst lp).total_used =
      lst.total_used +
        (if lp.is_idx then 0 else leb_size - (lp.free + lp.dirty)) := by
  simp only [lp_stats_accumulate]
  split_ifs <;> simp_all

theorem build_lpt_stats_fold (leb_size dead_wm : Nat)
    (calc_dark : Nat → Nat) : ∀ (lps : List LebProps) (init : LpStats),
    (lps.foldl (lp_stats_accumulate leb_size dead_wm calc_dark)
        init).total_free =
      init.total_free + (lps.map (fun lp => lp.free)).sum ∧
    (lps.foldl (lp_stats_accumulate leb_size dead_wm calc_dark)
        init).total_dirty =
      init.total_dirty + (lps.map (fun lp => lp.dirty)).sum ∧
    (lps.foldl (lp_stats_accumulate leb_size dead_wm calc_dark)
        init).total_used =
      init.total_used +
        ((lps.filter (fun lp => lp.is_idx = false)).map
          (fun lp => leb_size - (lp.free + lp.dirty))).sum := by
  intro lps
  induction lps with
  | nil => intro init; refine ⟨by simp, by simp, by simp⟩
  | cons lp lps' ih =>
    intro init
    rw [List.foldl_cons]
    rcases ih (lp_stats_accumulate leb_size dead_wm calc_dark init lp) with
      ⟨hf, hd, hu⟩
    refine ⟨?_, ?_, ?_⟩
    · rw [hf, lp_accumulate_total_free]
      simp [Nat.add_assoc]
    · rw [hd, lp_accumulate_total_dirty]
      simp [Nat.add_assoc]
    · rw [hu, lp_accumulate_total_used]
      by_cases hi : lp.is_idx = false
      · rw [List.filter_cons_of_pos (by simp [hi])]
        rw [hi, if_neg (by simp)]
        simp only [List.map_cons, List.sum_cons]
        omega
      · rw [List.filter_cons_of_neg (by simp [hi])]
        simp only [Bool.not_eq_false] at hi
        rw [hi, if_pos rfl]
        omega

/-- Counterexample for C6 as stated ("each global aggregate statistic
equals the sum of the corresponding per-unit values"): with an index LEB
holding 8 referenced bytes (derived used = unit size - free - dirty = 8)
and one empty non-index LEB, `total_used` stays 0 while the per-unit used
values sum to 8 — the accumulation skips index LEBs for `total_used`. -/
theorem C6_space_conservation_counterexample :
    (build_lpt_stats 16 8 (fun _ => 0)
        [scan_get_lp 16 ⟨8, [(8, true)]⟩ true,
         scan_get_lp 16 ⟨0, []⟩ false]).total_used ≠
      (([scan_get_lp 16 ⟨8, [(8, true)]⟩ true,
         scan_get_lp 16 ⟨0, []⟩ false]).map
        (fun lp => 16 - (lp.free + lp.dirty))).sum := by
  decide

/-- Claim C6 (amended): for every main-area storage unit the derived free
plus dirty plus used bytes equal the unit size, and the aggregate
statistics satisfy `total_free = sum of per-unit free` and `total_dirty =
sum of per-unit dirty` over all units, while `total_used` equals the sum
of per-unit used bytes over the non-index units only (index units are
accounted in `idx_lebs`, not `total_used`). -/
theorem C6_space_conservation :
    (∀ (leb_size : Nat) (sleb : ScanLeb) (is_idx : Bool),
      scan_leb_used sleb ≤ sleb.endpt → sleb.endpt ≤ leb_size →
      (scan_get_lp leb_size sleb is_idx).free +
        (scan_get_lp leb_size sleb is_idx).dirty +
        scan_leb_used sleb = leb_size) ∧
    (∀ (leb_size dead_wm : Nat) (calc_dark : Nat → Nat)
       (lps : List LebProps),
      (build_lpt_stats leb_size dead_wm calc_dark lps).total_free =
        (lps.map (fun lp => lp.free)).sum ∧
      (build_lpt_stats leb_size dead_wm calc_dark lps).total_dirty =
        (lps.map (fun lp => lp.dirty)).sum ∧
      (build_lpt_stats leb_size dead_wm calc_dark lps).total_used =
        ((lps.filter (fun lp => lp.is_idx = false)).map
          (fun lp => leb_size - (lp.free + lp.dirty))).sum) := by
  constructor
  · intro leb_size sleb is_idx h1 h2
    unfold scan_get_lp
    simp only
    omega
  · intro leb_size dead_wm calc_dark lps
    rcases build_lpt_stats_fold leb_size dead_wm calc_dark lps {} with
      ⟨hf, hd, hu⟩
    exact ⟨by simpa using hf, by simpa using hd, by simpa using hu⟩

/-- Witness for C6 at a concrete input: a LEB of size 16 with end of data
at 8 and one still-referenced 8-byte node satisfies
`free + dirty + used = 16`. -/
theorem C6_space_conservation_witness :
    (scan_get_lp 16 ⟨8, [(8, true)]⟩ false).free +
      (scan_get_lp 16 ⟨8, [(8, true)]⟩ false).dirty +
      scan_leb_used ⟨8, [(8, true)]⟩ = 16 :=
  C6_space_conservation.1 16 ⟨8, [(8, true)]⟩ false (by decide) (by decide)

/-! ## Metadata reconciler (extract_files.c)

`calculate_file_info` recomputes the canonical link count, xattr
accounting and content size of every file; parent files are updated
through the file tree, which is modelled as an association list keyed by
inode number and updated in place. -/

/-- `CALC_DENT_SIZE(name_len)` (ubifs.h). -/
def CALC_DENT_SIZE (name_len : Nat) : Nat :=
  ALIGN8 (UBIFS_DENT_NODE_SZ + name_len + 1)

/-- `CALC_XATTR_BYTES(data_len)` (ubifs.h). -/
def CALC_XATTR_BYTES (data_len : Nat) : Nat :=
  ALIGN8 (UBIFS_INO_NODE_SZ + data_len + 1)

/-- `lookup_file` (extract_files.c, lines 813-831): find a file in the
file tree by inode number. -/
def lookup_file (tree : List ScannedFile) (inum : Nat) :
    Option ScannedFile :=
  tree.find? fun f => f.inum = inum

/-- Update the file with the given inode number in place (the C code
mutates the tree node through a pointer). -/
def tree_update (tree : List ScannedFile) (inum : Nat)
    (g : ScannedFile → ScannedFile) : List ScannedFile :=
  tree.map fun f => if f.inum = inum then g f else f

/-- Name length of the first (and, for a valid xattr file, only) dentry. -/
def xattr_dent_nlen (x : XattrFile) : Nat :=
  (x.dent_nodes.head?.map fun d => d.nlen).getD 0

/-- The xattr loop of `calculate_file_info` (extract_files.c, lines
1307-1321): each xattr sub-file gets `calc_nlink = 1` and
`calc_size = size`, and the host accumulates count, size and name bytes. -/
def calc_xattr_pass (f : ScannedFile) : ScannedFile :=
  { f with
    xattr_files := f.xattr_files.map fun x =>
      { x with calc_nlink := 1, calc_size := x.ino.size }
    calc_xcnt := f.calc_xcnt + f.xattr_files.length
    calc_xsz := f.calc_xsz + (f.xattr_files.map fun x =>
      CALC_DENT_SIZE (xattr_dent_nlen x) + CALC_XATTR_BYTES x.ino.size).sum
    calc_xnms := f.calc_xnms +
      (f.xattr_files.map fun x => xattr_dent_nlen x).sum }

/-- Block end of a scanned data node:
`d_sz = data_node->size + block_no * UBIFS_BLOCK_SIZE`. -/
def data_block_end (d : ScannedData) : Nat :=
  d.size + d.key.idx * UBIFS_BLOCK_SIZE

/-- The data-node loop of `calculate_file_info` (extract_files.c, lines
1382-1401): walk the data nodes; a node invalidated by a newer truncation
or a newer inode size is put on the drop list, the others extend the
data-derived size estimate.  Returns the estimate and the kept nodes. -/
def calc_reg_data_scan (trun_sqnum trun_size ino_sqnum ino_size : Nat) :
    List ScannedData → Nat × List ScannedData
  | [] => (0, [])
  | d :: ds =>
    let d_sz := data_block_end d
    let rest := calc_reg_data_scan trun_sqnum trun_size ino_sqnum ino_size ds
    if (trun_sqnum > d.header.sqnum ∧ trun_size < d_sz) ∨
       (ino_sqnum > d.header.sqnum ∧ ino_size < d_sz) then
      (rest.1, rest.2)
    else
      (max rest.1 d_sz, d :: rest.2)

/-- The regular-file size reconciliation of `calculate_file_info`
(extract_files.c, lines 1365-1461): handle the interleavings of
truncation and writing, never letting a stale data-derived estimate
shrink a user-set inode size, and drop the invalidated data nodes. -/
def calc_reg_size (f : ScannedFile) : ScannedFile :=
  let trun_size := if f.trun.header.exist then f.trun.new_size.toNat else 0
  let trun_sqnum := if f.trun.header.exist then f.trun.header.sqnum else 0
  let ino_sqnum := f.ino.header.sqnum
  let scan := calc_reg_data_scan trun_sqnum trun_size ino_sqnum f.ino.size
    f.data_nodes
  if trun_sqnum > ino_sqnum ∧ trun_size < f.ino.size then
    (if trun_size < scan.1 then
      { f with calc_size := scan.1, data_nodes := scan.2 }
    else
      { f with calc_size := trun_size, data_nodes := scan.2 })
  else
    { f with
      calc_size := if scan.1 > f.ino.size then scan.1 else f.ino.size
      data_nodes := scan.2 }

/-- The `calc_nlink += 2; calc_size += UBIFS_INO_NODE_SZ` update applied
to the root and to directories (extract_files.c, lines 1324-1325 and
1330-1331). -/
def upd_add_nlink2 (g : ScannedFile) : ScannedFile :=
  { g with calc_nlink := g.calc_nlink + 2,
           calc_size := g.calc_size + UBIFS_INO_NODE_SZ }

/-- The parent update for a directory child (extract_files.c, lines
1340-1341): one extra link and one dentry of size. -/
def upd_parent_of_dir (nlen : Nat) (p : ScannedFile) : ScannedFile :=
  { p with calc_nlink := p.calc_nlink + 1,
           calc_size := p.calc_size + CALC_DENT_SIZE nlen }

/-- The parent update for a non-directory child (extract_files.c, line
1355): one dentry of size. -/
def upd_parent_size (nlen : Nat) (p : ScannedFile) : ScannedFile :=
  { p with calc_size := p.calc_size + CALC_DENT_SIZE nlen }

/-- The `file->calc_nlink = nlink` assignment (extract_files.c, line
1357). -/
def upd_set_nlink (n : Nat) (g : ScannedFile) : ScannedFile :=
  { g with calc_nlink := n }

/-- The `file->calc_size = file->ino.size` assignment for
symlink/sock/block/char/fifo files (extract_files.c, line 1361). -/
def upd_size_from_ino (g : ScannedFile) : ScannedFile :=
  { g with calc_size := g.ino.size }

/-- The dentry loop of `calculate_file_info` for non-directory files
(extract_files.c, lines 1345-1356): count the dentries and charge each
dentry's size to its host directory; a missing host aborts the
function (`ubifs_assert(c, 0); return 0;`), signalled by `false`. -/
def calc_dent_loop (tree : List ScannedFile) :
    List ScannedDent → Nat → Bool × Nat × List ScannedFile
  | [], nlink => (true, nlink, tree)
  | d :: ds, nlink =>
    match lookup_file tree d.key.inum with
    | none => (false, nlink + 1, tree)
    | some _ =>
      calc_dent_loop
        (tree_update tree d.key.inum (upd_parent_size d.nlen))
        ds (nlink + 1)

/-- `calculate_file_info` (extract_files.c, lines 1295-1462) for a file
that lives in the file tree, addressed by inode number; all updates are
performed through the tree. -/
def calculate_file_info (tree : List ScannedFile) (inum : Nat) :
    List ScannedFile :=
  match lookup_file tree inum with
  | none => tree
  | some f =>
    let tree1 := tree_update tree inum calc_xattr_pass
    if inum = UBIFS_ROOT_INO then
      tree_update tree1 inum upd_add_nlink2
    else if S_ISDIR f.ino.mode then
      let tree2 := tree_update tree1 inum upd_add_nlink2
      match f.dent_nodes.head? with
      | none => tree2
      | some d =>
        match lookup_file tree2 d.key.inum with
        | none => tree2
        | some _ => tree_update tree2 d.key.inum (upd_parent_of_dir d.nlen)
    else
      let loop := calc_dent_loop tree1 f.dent_nodes 0
      if loop.1 = false then loop.2.2
      else
        let tree2 := tree_update loop.2.2 inum (upd_set_nlink loop.2.1)
        if S_ISREG f.ino.mode = false then
          tree_update tree2 inum upd_size_from_ino
        else
          tree_update tree2 inum calc_reg_size

/-- `calculate_file_info` for a file handed in by pointer that is not a
member of the tree (the disconnected-file pass of
`check_and_correct_files`, extract_files.c lines 1561-1571): the file's
own fields are updated on the value, host lookups go to the tree. -/
def calculate_file_info_listed (tree : List ScannedFile)
    (f : ScannedFile) : ScannedFile × List ScannedFile :=
  let f1 := calc_xattr_pass f
  if f1.inum = UBIFS_ROOT_INO then
    (upd_add_nlink2 f1, tree)
  else if S_ISDIR f1.ino.mode then
    let f2 := upd_add_nlink2 f1
    match f2.dent_nodes.head? with
    | none => (f2, tree)
    | some d =>
      match lookup_file tree d.key.inum with
      | none => (f2, tree)
      | some _ =>
        (f2, tree_update tree d.key.inum (upd_parent_of_dir d.nlen))
  else
    let loop := calc_dent_loop tree f1.dent_nodes 0
    if loop.1 = false then (f1, loop.2.2)
    else
      let f2 := upd_set_nlink loop.2.1 f1
      if S_ISREG f1.ino.mode = false then
        (upd_size_from_ino f2, loop.2.2)
      else
        (calc_reg_size f2, loop.2.2)

/-- The metadata-reconciliation pass of `check_and_correct_files`
(extract_files.c, lines 1541-1547): `calculate_file_info` for every file
of the tree in iteration order. -/
def check_and_correct_files_calc (tree : List ScannedFile) :
    List ScannedFile :=
  (tree.map fun f => f.inum).foldl calculate_file_info tree

/-- The disconnected-file handling of `check_and_correct_files`
(extract_files.c, lines 1561-1571): recompute the file information, then
reset the link count of the relocated file to one. -/
def correct_disconnected_file (tree : List ScannedFile)
    (f : ScannedFile) : ScannedFile × List ScannedFile :=
  let r := calculate_file_info_listed tree f
  ({ r.1 with calc_nlink := 1 }, r.2)

/-- The largest block end among a list of data nodes. -/
def max_block_end (l : List ScannedData) : Nat :=
  (l.map data_block_end).foldr max 0

theorem calc_reg_data_scan_fst (a b c d : Nat) (l : List ScannedData) :
    (calc_reg_data_scan a b c d l).1 =
      max_block_end (calc_reg_data_scan a b c d l).2 := by
  induction l with
  | nil => rfl
  | cons x xs ih =>
    simp only [calc_reg_data_scan]
    by_cases hc : (a > x.header.sqnum ∧ b < data_block_end x) ∨
        (c > x.header.sqnum ∧ d < data_block_end x)
    · rw [if_pos hc]; exact ih
    · rw [if_neg hc]
      have ih' := ih
      simp only [max_block_end] at ih' ⊢
      simp only [List.map_cons, List.foldr_cons]
      rw [← ih']
      exact Nat.max_comm _ _

/-- Claim C7: for a regular file whose truncation record is absent or
older than its inode record, the reconciled size equals the maximum of
the inode-recorded size and the largest block end among the surviving
data nodes; the data-derived estimate only ever extends the
inode-recorded size. -/
theorem C7_size_reconciliation (f : ScannedFile)
    (h : f.trun.header.exist = false ∨
         f.trun.header.sqnum < f.ino.header.sqnum) :
    (calc_reg_size f).calc_size =
      max f.ino.size (max_block_end (calc_reg_size f).data_nodes) := by
  have hcond : ¬((if f.trun.header.exist then f.trun.header.sqnum else 0) >
      f.ino.header.sqnum ∧
      (if f.trun.header.exist then f.trun.new_size.toNat else 0) <
        f.ino.size) := by
    rcases h with h | h
    · rw [h]
      simp
    · intro hc
      by_cases he : f.trun.header.exist = true
      · rw [if_pos he] at hc
        exact absurd hc.1 (not_lt.mpr (le_of_lt h))
      · simp only [Bool.not_eq_true] at he
        rw [he] at hc
        simp at hc
  simp only [calc_reg_size]
  rw [if_neg hcond]
  show (if (calc_reg_data_scan _ _ _ _ f.data_nodes).1 > f.ino.size
        then (calc_reg_data_scan _ _ _ _ f.data_nodes).1
        else f.ino.size) =
    max f.ino.size (max_block_end
      (calc_reg_data_scan _ _ _ _ f.data_nodes).2)
  rw [← calc_reg_data_scan_fst]
  by_cases hgt : (calc_reg_data_scan
      (if f.trun.header.exist then f.trun.header.sqnum else 0)
      (if f.trun.header.exist then f.trun.new_size.toNat else 0)
      f.ino.header.sqnum f.ino.size f.data_nodes).1 > f.ino.size
  · rw [if_pos hgt]
    exact (Nat.max_eq_right (le_of_lt hgt)).symm
  · rw [if_neg hgt]
    exact (Nat.max_eq_left (le_of_not_lt hgt)).symm

/-- Witness for C7 at a concrete input: a regular file with inode size
100, no truncation record and a single 10-byte block-0 data node keeps
size 100 (the data-derived estimate 10 does not shrink it). -/
theorem C7_size_reconciliation_witness :
    (calc_reg_size ⟨0, 0, 0, 0, 0, false, 3,
        ⟨⟨true, 0, 0, 160, 4⟩, ⟨3, UBIFS_INO_KEY, 0⟩, false, false, S_IFREG, 1, 0, 0, 0, 100⟩,
        ⟨⟨false, 0, 0, 0, 0⟩, 0⟩, [],
        [⟨⟨true, 0, 64, 48, 2⟩, ⟨3, UBIFS_DATA_KEY, 0⟩, 10⟩], []⟩).calc_size =
      max 100 (max_block_end (calc_reg_size ⟨0, 0, 0, 0, 0, false, 3,
        ⟨⟨true, 0, 0, 160, 4⟩, ⟨3, UBIFS_INO_KEY, 0⟩, false, false, S_IFREG, 1, 0, 0, 0, 100⟩,
        ⟨⟨false, 0, 0, 0, 0⟩, 0⟩, [],
        [⟨⟨true, 0, 64, 48, 2⟩, ⟨3, UBIFS_DATA_KEY, 0⟩, 10⟩], []⟩).data_nodes) :=
  C7_size_reconciliation _ (Or.inl rfl)

/-- The immutable signature of a file during the reconciliation pass:
inode number, inode node and dentry set are never changed by
`calculate_file_info`. -/
def file_sig (f : ScannedFile) : Nat × ScannedIno × List ScannedDent :=
  (f.inum, f.ino, f.dent_nodes)

/-- Host of a file: the inode number stored in the key of its first
directory entry. -/
def file_host (f : ScannedFile) : Option Nat :=
  f.dent_nodes.head?.map fun d => d.key.inum

/-- Whether `f` is a non-root directory whose single surviving dentry
names `j` as parent. -/
def child_pred (j : Nat) (f : ScannedFile) : Bool :=
  S_ISDIR f.ino.mode && decide (f.inum ≠ UBIFS_ROOT_INO) &&
    decide (file_host f = some j)

/-- Number of surviving child directories of `j` in the tree. -/
def dir_child_count (tree : List ScannedFile) (j : Nat) : Nat :=
  tree.countP (child_pred j)

theorem sig_tree_update (t : List ScannedFile) (i : Nat)
    (g : ScannedFile → ScannedFile)
    (hg : ∀ f, file_sig (g f) = file_sig f) :
    (tree_update t i g).map file_sig = t.map file_sig := by
  unfold tree_update
  rw [List.map_map]
  apply List.map_congr_left
  intro f _
  by_cases hf : f.inum = i
  · simp [hf, hg f]
  · simp [hf]

theorem sig_calc_xattr_pass (f : ScannedFile) :
    file_sig (calc_xattr_pass f) = file_sig f := rfl

theorem sig_calc_reg_size (f : ScannedFile) :
    file_sig (calc_reg_size f) = file_sig f := by
  simp only [calc_reg_size]
  split_ifs <;> rfl

theorem sig_calc_dent_loop (ds : List ScannedDent) :
    ∀ (t : List ScannedFile) (n : Nat),
    ((calc_dent_loop t ds n).2.2).map file_sig = t.map file_sig := by
  induction ds with
  | nil => intro t n; rfl
  | cons d ds' ih =>
    intro t n
    simp only [calc_dent_loop]
    rcases hl : lookup_file t d.key.inum with _ | p
    · rfl
    · rw [ih]
      exact sig_tree_update t d.key.inum _ (fun f => rfl)

theorem sig_calculate_file_info (t : List ScannedFile) (i : Nat) :
    (calculate_file_info t i).map file_sig = t.map file_sig := by
  unfold calculate_file_info
  rcases hl : lookup_file t i with _ | f
  · rfl
  · dsimp only
    by_cases hroot : i = UBIFS_ROOT_INO
    · rw [if_pos hroot]
      refine Eq.trans (sig_tree_update _ _ _ ?_)
        (Eq.trans (sig_tree_update _ _ _ ?_) rfl)
      · intro f; rfl
      · intro f; rfl
    · rw [if_neg hroot]
      by_cases hdir : S_ISDIR f.ino.mode = true
      · rw [if_pos hdir]
        rcases hh : f.dent_nodes.head? with _ | d
        · dsimp only
          refine Eq.trans (sig_tree_update _ _ _ ?_)
            (Eq.trans (sig_tree_update _ _ _ ?_) rfl)
          · intro f; rfl
          · intro f; rfl
        · dsimp only
          rcases hl2 : lookup_file (tree_update
              (tree_update t i calc_xattr_pass) i upd_add_nlink2)
              d.key.inum with _ | p
          · dsimp only
            refine Eq.trans (sig_tree_update _ _ _ ?_)
              (Eq.trans (sig_tree_update _ _ _ ?_) rfl)
            · intro f; rfl
            · intro f; rfl
          · dsimp only
            refine Eq.trans (sig_tree_update _ _ _ ?_)
              (Eq.trans (sig_tree_update _ _ _ ?_)
                (Eq.trans (sig_tree_update _ _ _ ?_) rfl))
            · intro f; rfl
            · intro f; rfl
            · intro f; rfl
      · rw [if_neg hdir]
        by_cases hloop : (calc_dent_loop (tree_update t i calc_xattr_pass)
            f.dent_nodes 0).1 = false
        · rw [if_pos hloop]
          refine Eq.trans (sig_calc_dent_loop _ _ _)
            (Eq.trans (sig_tree_update _ _ _ ?_) rfl)
          intro f; rfl
        · rw [if_neg hloop]
          by_cases hreg : S_ISREG f.ino.mode = false
          · rw [if_pos hreg]
            refine Eq.trans (sig_tree_update _ _ _ ?_)
              (Eq.trans (sig_tree_update _ _ _ ?_)
                (Eq.trans (sig_calc_dent_loop _ _ _)
                  (Eq.trans (sig_tree_update _ _ _ ?_) rfl)))
            · intro f; rfl
            · intro f; rfl
            · intro f; rfl
          · rw [if_neg hreg]
            refine Eq.trans (sig_tree_update _ _ _ ?_)
              (Eq.trans (sig_tree_update _ _ _ ?_)
                (Eq.trans (sig_calc_dent_loop _ _ _)
                  (Eq.trans (sig_tree_update _ _ _ ?_) rfl)))
            · exact sig_calc_reg_size
            · intro f; rfl
            · intro f; rfl

theorem sig_check_and_correct_pass (inums : List Nat) :
    ∀ t : List ScannedFile,
    (inums.foldl calculate_file_info t).map file_sig = t.map file_sig := by
  induction inums with
  | nil => intro t; rfl
  | cons i is ih =>
    intro t
    rw [List.foldl_cons, ih, sig_calculate_file_info]

theorem lookup_file_sig_congr (t1 : List ScannedFile) :
    ∀ t2 : List ScannedFile, t1.map file_sig = t2.map file_sig →
    ∀ j, (lookup_file t1 j).map file_sig =
      (lookup_file t2 j).map file_sig := by
  induction t1 with
  | nil =>
    intro t2 h j
    cases t2 with
    | nil => rfl
    | cons f2 r2 => simp at h
  | cons f1 r1 ih =>
    intro t2 h j
    cases t2 with
    | nil => simp at h
    | cons f2 r2 =>
      simp only [List.map_cons, List.cons.injEq] at h
      have hinum : f1.inum = f2.inum := congrArg Prod.fst h.1
      unfold lookup_file
      by_cases hj : f1.inum = j
      · rw [List.find?_cons_of_pos _ (by simpa using hj),
          List.find?_cons_of_pos _ (by simp [← hinum, hj])]
        simpa using h.1
      · rw [List.find?_cons_of_neg _ (by simpa using hj),
          List.find?_cons_of_neg _ (by simp [← hinum, hj])]
        exact ih r2 h.2 j

theorem lookup_tree_update_ne (t : List ScannedFile) (i : Nat)
    (g : ScannedFile → ScannedFile) (hg : ∀ f, (g f).inum = f.inum)
    (j : Nat) (hne : j ≠ i) :
    lookup_file (tree_update t i g) j = lookup_file t j := by
  induction t with
  | nil => rfl
  | cons f r ih =>
    by_cases hf : f.inum = i
    · have h1 : tree_update (f :: r) i g = g f :: tree_update r i g := by
        unfold tree_update
        simp [hf]
      rw [h1]
      have hgf : ¬ (g f).inum = j := by
        rw [hg f, hf]; exact fun he => hne he.symm
      have hfj : ¬ f.inum = j := by
        rw [hf]; exact fun he => hne he.symm
      unfold lookup_file
      rw [List.find?_cons_of_neg _ (by simpa using hgf),
        List.find?_cons_of_neg _ (by simpa using hfj)]
      exact ih
    · have h1 : tree_update (f :: r) i g = f :: tree_update r i g := by
        unfold tree_update
        simp [hf]
      rw [h1]
      unfold lookup_file
      by_cases hj : f.inum = j
      · rw [List.find?_cons_of_pos _ (by simpa using hj),
          List.find?_cons_of_pos _ (by simpa using hj)]
      · rw [List.find?_cons_of_neg _ (by simpa using hj),
          List.find?_cons_of_neg _ (by simpa using hj)]
        exact ih

theorem lookup_tree_update_self (t : List ScannedFile) (i : Nat)
    (g : ScannedFile → ScannedFile) (hg : ∀ f, (g f).inum = f.inum) :
    lookup_file (tree_update t i g) i = (lookup_file t i).map g := by
  induction t with
  | nil => rfl
  | cons f r ih =>
    by_cases hf : f.inum = i
    · have h1 : tree_update (f :: r) i g = g f :: tree_update r i g := by
        unfold tree_update
        simp [hf]
      rw [h1]
      unfold lookup_file
      rw [List.find?_cons_of_pos _ (by simp [hg f, hf]),
        List.find?_cons_of_pos _ (by simpa using hf)]
      rfl
    · have h1 : tree_update (f :: r) i g = f :: tree_update r i g := by
        unfold tree_update
        simp [hf]
      rw [h1]
      unfold lookup_file
      rw [List.find?_cons_of_neg _ (by simpa using hf),
        List.find?_cons_of_neg _ (by simpa using hf)]
      exact ih

theorem lookup_file_mem (t : List ScannedFile) (j : Nat) (f : ScannedFile)
    (h : lookup_file t j = some f) : f ∈ t ∧ f.inum = j := by
  refine ⟨List.mem_of_find?_eq_some h, ?_⟩
  have := List.find?_some h
  simpa using this

theorem mem_lookup_self (t : List ScannedFile)
    (hnd : (t.map fun f => f.inum).Nodup) (f : ScannedFile) (hf : f ∈ t) :
    lookup_file t f.inum = some f := by
  induction t with
  | nil => simp at hf
  | cons x r ih =>
    simp only [List.map_cons, List.nodup_cons] at hnd
    rcases List.mem_cons.mp hf with he | he
    · subst he
      unfold lookup_file
      rw [List.find?_cons_of_pos _ (by simp)]
    · have hne : x.inum ≠ f.inum := by
        intro heq
        exact hnd.1 (heq ▸ List.mem_map_of_mem (fun f => f.inum) he)
      unfold lookup_file
      rw [List.find?_cons_of_neg _ (by simpa using hne)]
      exact ih hnd.2 he

/-- The link count of the file with inode number `j`. -/
def nlink_of (t : List ScannedFile) (j : Nat) : Option Nat :=
  (lookup_file t j).map fun f => f.calc_nlink

theorem nlink_tree_update_of (t : List ScannedFile) (i : Nat)
    (g : ScannedFile → ScannedFile) (hg : ∀ f, (g f).inum = f.inum)
    (hg2 : ∀ f, (g f).calc_nlink = f.calc_nlink) (j : Nat) :
    nlink_of (tree_update t i g) j = nlink_of t j := by
  unfold nlink_of
  by_cases hj : j = i
  · subst hj
    rw [lookup_tree_update_self t j g hg]
    rcases lookup_file t j with _ | f
    · rfl
    · simp [hg2 f]
  · rw [lookup_tree_update_ne t i g hg j hj]

theorem isSome_tree_update (t : List ScannedFile) (i : Nat)
    (g : ScannedFile → ScannedFile) (hg : ∀ f, (g f).inum = f.inum)
    (j : Nat) :
    (lookup_file (tree_update t i g) j).isSome =
      (lookup_file t j).isSome := by
  by_cases hj : j = i
  · subst hj
    rw [lookup_tree_update_self t j g hg]
    rcases lookup_file t j with _ | f <;> rfl
  · rw [lookup_tree_update_ne t i g hg j hj]

theorem calc_dent_loop_nlink (ds : List ScannedDent) :
    ∀ (t : List ScannedFile) (n j : Nat),
    nlink_of (calc_dent_loop t ds n).2.2 j = nlink_of t j := by
  induction ds with
  | nil => intro t n j; rfl
  | cons d ds' ih =>
    intro t n j
    simp only [calc_dent_loop]
    rcases hl : lookup_file t d.key.inum with _ | p
    · rfl
    · rw [ih]
      exact nlink_tree_update_of t d.key.inum (upd_parent_size d.nlen)
        (fun f => rfl) (fun f => rfl) j

theorem calc_dent_loop_isSome (ds : List ScannedDent) :
    ∀ (t : List ScannedFile) (n j : Nat),
    (lookup_file (calc_dent_loop t ds n).2.2 j).isSome =
      (lookup_file t j).isSome := by
  induction ds with
  | nil => intro t n j; rfl
  | cons d ds' ih =>
    intro t n j
    simp only [calc_dent_loop]
    rcases hl : lookup_file t d.key.inum with _ | p
    · rfl
    · rw [ih]
      exact isSome_tree_update t d.key.inum (upd_parent_size d.nlen)
        (fun f => rfl) j

theorem calc_dent_loop_ok (ds : List ScannedDent) :
    ∀ (t : List ScannedFile) (n : Nat),
    (∀ d ∈ ds, (lookup_file t d.key.inum).isSome = true) →
    (calc_dent_loop t ds n).1 = true ∧
    (calc_dent_loop t ds n).2.1 = n + ds.length := by
  induction ds with
  | nil => intro t n _; exact ⟨rfl, rfl⟩
  | cons d ds' ih =>
    intro t n h
    simp only [calc_dent_loop]
    rcases hl : lookup_file t d.key.inum with _ | p
    · have := h d (List.mem_cons_self _ _)
      rw [hl] at this
      exact absurd this (by decide)
    · have hrest : ∀ d' ∈ ds',
          (lookup_file (tree_update t d.key.inum (upd_parent_size d.nlen))
            d'.key.inum).isSome = true := by
        intro d' hd'
        rw [isSome_tree_update t d.key.inum (upd_parent_size d.nlen)
          (fun f => rfl) d'.key.inum]
        exact h d' (List.mem_cons_of_mem _ hd')
      rcases ih _ (n + 1) hrest with ⟨hok, hcnt⟩
      refine ⟨hok, ?_⟩
      rw [hcnt]
      simp only [List.length_cons]
      omega

theorem calc_reg_size_inum (f : ScannedFile) :
    (calc_reg_size f).inum = f.inum := by
  simp only [calc_reg_size]
  split_ifs <;> rfl

theorem calc_reg_size_nlink (f : ScannedFile) :
    (calc_reg_size f).calc_nlink = f.calc_nlink := by
  simp only [calc_reg_size]
  split_ifs <;> rfl

theorem nlink_tree_update_ne (t : List ScannedFile) (i : Nat)
    (g : ScannedFile → ScannedFile) (hg : ∀ f, (g f).inum = f.inum)
    (j : Nat) (hj : j ≠ i) :
    nlink_of (tree_update t i g) j = nlink_of t j := by
  unfold nlink_of
  rw [lookup_tree_update_ne t i g hg j hj]

theorem nlink_tree_update_add (t : List ScannedFile) (i : Nat)
    (g : ScannedFile → ScannedFile) (c : Nat)
    (hg : ∀ f, (g f).inum = f.inum)
    (hg2 : ∀ f, (g f).calc_nlink = f.calc_nlink + c) (j : Nat) :
    nlink_of (tree_update t i g) j =
      if j = i then (nlink_of t j).map fun v => v + c
      else nlink_of t j := by
  by_cases hj : j = i
  · subst hj
    rw [if_pos rfl]
    unfold nlink_of
    rw [lookup_tree_update_self t j g hg]
    rcases lookup_file t j with _ | f
    · rfl
    · simp [hg2 f]
  · rw [if_neg hj]
    unfold nlink_of
    rw [lookup_tree_update_ne t i g hg j hj]

/-- `calculate_file_info` on the root inode (extract_files.c, lines
1323-1327): the root gains two links and no other link count changes. -/
theorem nlink_cfi_root (t : List ScannedFile) (i : Nat) (fi : ScannedFile)
    (hl : lookup_file t i = some fi) (hroot : i = UBIFS_ROOT_INO) (j : Nat) :
    nlink_of (calculate_file_info t i) j =
      (nlink_of t j).map fun v => v + (if j = i then 2 else 0) := by
  unfold calculate_file_info
  rw [hl]
  dsimp only
  rw [if_pos hroot]
  rw [nlink_tree_update_add _ i upd_add_nlink2 2 (fun f => rfl) (fun f => rfl) j,
    nlink_tree_update_of t i calc_xattr_pass (fun f => rfl) (fun f => rfl) j]
  by_cases hj : j = i
  · rw [if_pos hj, if_pos hj]
  · rw [if_neg hj, if_neg hj]
    cases nlink_of t j <;> simp

/-- `calculate_file_info` on a non-root directory (extract_files.c, lines
1329-1343): the directory gains two links and the host named by its
single dentry gains one. -/
theorem nlink_cfi_dir (t : List ScannedFile) (i : Nat) (fi : ScannedFile)
    (hl : lookup_file t i = some fi) (hroot : ¬ i = UBIFS_ROOT_INO)
    (hdir : S_ISDIR fi.ino.mode = true)
    (hhost : ∀ h, file_host fi = some h → (lookup_file t h).isSome = true)
    (j : Nat) :
    nlink_of (calculate_file_info t i) j =
      (nlink_of t j).map fun v =>
        v + (if j = i then 2 else 0) +
          (if file_host fi = some j then 1 else 0) := by
  unfold calculate_file_info
  rw [hl]
  dsimp only
  rw [if_neg hroot, if_pos hdir]
  rcases hh : fi.dent_nodes.head? with _ | d
  · have hfh : file_host fi = none := by
      unfold file_host
      rw [hh]
      rfl
    dsimp only
    rw [nlink_tree_update_add _ i upd_add_nlink2 2 (fun f => rfl)
        (fun f => rfl) j,
      nlink_tree_update_of t i calc_xattr_pass (fun f => rfl)
        (fun f => rfl) j,
      hfh, if_neg (show ¬ (none : Option Nat) = some j by simp)]
    by_cases hj : j = i
    · rw [if_pos hj, if_pos hj]
    · rw [if_neg hj, if_neg hj]
      cases nlink_of t j <;> simp
  · have hfh : file_host fi = some d.key.inum := by
      unfold file_host
      rw [hh]
      rfl
    dsimp only
    rcases hl2 : lookup_file (tree_update (tree_update t i calc_xattr_pass) i
        upd_add_nlink2) d.key.inum with _ | p
    · exfalso
      have h2 : (lookup_file (tree_update (tree_update t i calc_xattr_pass) i
          upd_add_nlink2) d.key.inum).isSome = true := by
        rw [isSome_tree_update (tree_update t i calc_xattr_pass) i
            upd_add_nlink2 (fun f => rfl) d.key.inum,
          isSome_tree_update t i calc_xattr_pass (fun f => rfl) d.key.inum]
        exact hhost _ hfh
      rw [hl2] at h2
      simp at h2
    · dsimp only
      rw [nlink_tree_update_add _ d.key.inum (upd_parent_of_dir d.nlen) 1
          (fun f => rfl) (fun f => rfl) j,
        nlink_tree_update_add _ i upd_add_nlink2 2 (fun f => rfl)
          (fun f => rfl) j,
        nlink_tree_update_of t i calc_xattr_pass (fun f => rfl)
          (fun f => rfl) j,
        hfh]
      by_cases hj : j = i <;> by_cases hjd : j = d.key.inum
      · rw [if_pos hjd, if_pos hj, if_pos hj,
          if_pos (congrArg some hjd.symm)]
        cases nlink_of t j <;> simp
      · rw [if_neg hjd, if_pos hj, if_pos hj,
          if_neg (fun h => hjd (Option.some.inj h).symm)]
      · rw [if_pos hjd, if_neg hj, if_neg hj,
          if_pos (congrArg some hjd.symm)]
      · rw [if_neg hjd, if_neg hj, if_neg hj,
          if_neg (fun h => hjd (Option.some.inj h).symm)]
        cases nlink_of t j <;> simp

/-- `calculate_file_info` on a non-root non-directory file whose dentry
hosts are all present (extract_files.c, lines 1345-1363): the file's
link count is assigned the number of its dentries and no other link
count changes. -/
theorem nlink_cfi_nondir (t : List ScannedFile) (i : Nat) (fi : ScannedFile)
    (hl : lookup_file t i = some fi) (hroot : ¬ i = UBIFS_ROOT_INO)
    (hdir : ¬ S_ISDIR fi.ino.mode = true)
    (hhosts : ∀ d ∈ fi.dent_nodes, (lookup_file t d.key.inum).isSome = true) :
    nlink_of (calculate_file_info t i) i = some fi.dent_nodes.length ∧
    ∀ j, ¬ j = i → nlink_of (calculate_file_info t i) j = nlink_of t j := by
  have hh1 : ∀ d ∈ fi.dent_nodes,
      (lookup_file (tree_update t i calc_xattr_pass) d.key.inum).isSome =
        true := by
    intro d hd
    rw [isSome_tree_update t i calc_xattr_pass (fun f => rfl) d.key.inum]
    exact hhosts d hd
  rcases calc_dent_loop_ok fi.dent_nodes (tree_update t i calc_xattr_pass) 0
    hh1 with ⟨hok, hcnt⟩
  have hs : (lookup_file (calc_dent_loop (tree_update t i calc_xattr_pass)
      fi.dent_nodes 0).2.2 i).isSome = true := by
    rw [calc_dent_loop_isSome fi.dent_nodes (tree_update t i calc_xattr_pass)
        0 i,
      isSome_tree_update t i calc_xattr_pass (fun f => rfl) i, hl]
    rfl
  constructor
  · unfold calculate_file_info
    rw [hl]
    dsimp only
    rw [if_neg hroot, if_neg hdir, if_neg (by simp [hok])]
    by_cases hreg : S_ISREG fi.ino.mode = false
    · rw [if_pos hreg]
      rw [nlink_tree_update_of _ i upd_size_from_ino (fun f => rfl)
        (fun f => rfl) i]
      unfold nlink_of
      rw [lookup_tree_update_self _ i
        (upd_set_nlink (calc_dent_loop (tree_update t i calc_xattr_pass)
          fi.dent_nodes 0).2.1) (fun f => rfl)]
      rcases hx : lookup_file (calc_dent_loop (tree_update t i
          calc_xattr_pass) fi.dent_nodes 0).2.2 i with _ | g
      · rw [hx] at hs
        simp at hs
      · simp [upd_set_nlink, hcnt]
    · rw [if_neg hreg]
      rw [nlink_tree_update_of _ i calc_reg_size
        (fun f => calc_reg_size_inum f) (fun f => calc_reg_size_nlink f) i]
      unfold nlink_of
      rw [lookup_tree_update_self _ i
        (upd_set_nlink (calc_dent_loop (tree_update t i calc_xattr_pass)
          fi.dent_nodes 0).2.1) (fun f => rfl)]
      rcases hx : lookup_file (calc_dent_loop (tree_update t i
          calc_xattr_pass) fi.dent_nodes 0).2.2 i with _ | g
      · rw [hx] at hs
        simp at hs
      · simp [upd_set_nlink, hcnt]
  · intro j hj
    unfold calculate_file_info
    rw [hl]
    dsimp only
    rw [if_neg hroot, if_neg hdir, if_neg (by simp [hok])]
    by_cases hreg : S_ISREG fi.ino.mode = false
    · rw [if_pos hreg]
      rw [nlink_tree_update_ne _ i upd_size_from_ino (fun f => rfl) j hj,
        nlink_tree_update_ne _ i
          (upd_set_nlink (calc_dent_loop (tree_update t i calc_xattr_pass)
            fi.dent_nodes 0).2.1) (fun f => rfl) j hj,
        calc_dent_loop_nlink fi.dent_nodes (tree_update t i calc_xattr_pass)
          0 j,
        nlink_tree_update_of t i calc_xattr_pass (fun f => rfl)
          (fun f => rfl) j]
    · rw [if_neg hreg]
      rw [nlink_tree_update_ne _ i calc_reg_size
          (fun f => calc_reg_size_inum f) j hj,
        nlink_tree_update_ne _ i
          (upd_set_nlink (calc_dent_loop (tree_update t i calc_xattr_pass)
            fi.dent_nodes 0).2.1) (fun f => rfl) j hj,
        calc_dent_loop_nlink fi.dent_nodes (tree_update t i calc_xattr_pass)
          0 j,
        nlink_tree_update_of t i calc_xattr_pass (fun f => rfl)
          (fun f => rfl) j]

theorem sig_eq_fields {g f : ScannedFile} (h : file_sig g = file_sig f) :
    g.inum = f.inum ∧ g.ino = f.ino ∧ g.dent_nodes = f.dent_nodes := by
  unfold file_sig at h
  exact ⟨congrArg (fun p => p.1) h, congrArg (fun p => p.2.1) h,
    congrArg (fun p => p.2.2) h⟩

theorem lookup_sig_exists (t tree0 : List ScannedFile)
    (ha : t.map file_sig = tree0.map file_sig) (j : Nat) (fj : ScannedFile)
    (hl : lookup_file tree0 j = some fj) :
    ∃ g, lookup_file t j = some g ∧ file_sig g = file_sig fj := by
  have hc := lookup_file_sig_congr t tree0 ha j
  rw [hl] at hc
  rcases hg : lookup_file t j with _ | g
  · rw [hg] at hc
    simp at hc
  · rw [hg] at hc
    simp at hc
    exact ⟨g, rfl, hc⟩

theorem lookup_isSome_congr (t tree0 : List ScannedFile)
    (ha : t.map file_sig = tree0.map file_sig) (j : Nat) :
    (lookup_file t j).isSome = (lookup_file tree0 j).isSome := by
  have hc := congrArg Option.isSome (lookup_file_sig_congr t tree0 ha j)
  simpa using hc

/-- Whether processing inode number `i` bumps the link count of inode
number `j`: `i` names a non-root directory whose single dentry lives in
directory `j` (extract_files.c, lines 1329-1341). -/
def bump (tree0 : List ScannedFile) (j i : Nat) : Bool :=
  match lookup_file tree0 i with
  | none => false
  | some fi =>
    S_ISDIR fi.ino.mode && decide (i ≠ UBIFS_ROOT_INO) &&
      decide (file_host fi = some j)

/-- Link count of the file at inode number `j` after the `done` prefix of
the inode list has been processed by `calculate_file_info`. -/
def inv_val (tree0 : List ScannedFile) (done : List Nat) (j : Nat)
    (fj : ScannedFile) : Nat :=
  if S_ISDIR fj.ino.mode then
    (if j ∈ done then 2 else 0) + done.countP (bump tree0 j)
  else
    (if j ∈ done then fj.dent_nodes.length else 0)

theorem inv_step (tree0 : List ScannedFile)
    (h2 : ∀ f ∈ tree0, f.inum = UBIFS_ROOT_INO → S_ISDIR f.ino.mode = true)
    (h3 : ∀ f ∈ tree0, ∀ d ∈ f.dent_nodes,
      (lookup_file tree0 d.key.inum).isSome = true)
    (h4 : ∀ f ∈ tree0, S_ISDIR f.ino.mode = true →
      Option.all (fun p => S_ISDIR p.ino.mode)
        ((file_host f).bind (lookup_file tree0)) = true)
    (done : List Nat) (i : Nat) (hnotdone : i ∉ done)
    (hisome : (lookup_file tree0 i).isSome = true)
    (t : List ScannedFile)
    (ha : t.map file_sig = tree0.map file_sig)
    (hb : ∀ j fj, lookup_file tree0 j = some fj →
      nlink_of t j = some (inv_val tree0 done j fj)) :
    ∀ j fj, lookup_file tree0 j = some fj →
      nlink_of (calculate_file_info t i) j =
        some (inv_val tree0 (done ++ [i]) j fj) := by
  rcases hoi : lookup_file tree0 i with _ | fi
  · rw [hoi] at hisome
    simp at hisome
  obtain ⟨gi, hgi, hsig⟩ := lookup_sig_exists t tree0 ha i fi hoi
  obtain ⟨he1, he2, he3⟩ := sig_eq_fields hsig
  have hosteq : file_host gi = file_host fi := by
    unfold file_host
    rw [he3]
  by_cases hiroot : i = UBIFS_ROOT_INO
  · intro j fj hl'
    rw [nlink_cfi_root t i gi hgi hiroot j, hb j fj hl', Option.map_some']
    congr 1
    unfold inv_val
    have hbz : bump tree0 j i = false := by
      unfold bump
      rw [hoi]
      simp [hiroot]
    have hc1 : List.countP (bump tree0 j) [i] = 0 := by
      simp [List.countP_cons, hbz]
    by_cases hji : j = i
    · have hl0 : lookup_file tree0 i = some fj := by
        rw [← hji]
        exact hl'
      have hdj : S_ISDIR fj.ino.mode = true := by
        refine h2 fj (lookup_file_mem tree0 i fj hl0).1 ?_
        rw [(lookup_file_mem tree0 i fj hl0).2]
        exact hiroot
      have hmem : j ∈ done ++ [i] := by simp [hji]
      rw [if_pos hdj, if_pos hdj, if_pos hji, if_neg (hji ▸ hnotdone),
        if_pos hmem, List.countP_append, hc1]
      omega
    · rw [if_neg hji]
      have hmemiff : j ∈ done ++ [i] ↔ j ∈ done := by simp [hji]
      by_cases hdj : S_ISDIR fj.ino.mode = true
      · rw [if_pos hdj, if_pos hdj, List.countP_append, hc1]
        by_cases hjm : j ∈ done
        · rw [if_pos hjm, if_pos (hmemiff.mpr hjm)]
          omega
        · rw [if_neg hjm, if_neg (fun hc => hjm (hmemiff.mp hc))]
          omega
      · rw [if_neg hdj, if_neg hdj]
        by_cases hjm : j ∈ done
        · rw [if_pos hjm, if_pos (hmemiff.mpr hjm)]
          omega
        · rw [if_neg hjm, if_neg (fun hc => hjm (hmemiff.mp hc))]
  · by_cases hdgi : S_ISDIR gi.ino.mode = true
    · have hfid : S_ISDIR fi.ino.mode = true := by
        rw [← he2]
        exact hdgi
      have hfhost : ∀ h, file_host gi = some h →
          (lookup_file t h).isSome = true := by
        intro h hfh
        rw [hosteq] at hfh
        obtain ⟨d, hh, hdk⟩ : ∃ d, fi.dent_nodes.head? = some d ∧
            d.key.inum = h := by
          unfold file_host at hfh
          rcases hh : fi.dent_nodes.head? with _ | d
          · rw [hh] at hfh
            simp at hfh
          · rw [hh] at hfh
            simp at hfh
            exact ⟨d, rfl, hfh⟩
        have hdm : d ∈ fi.dent_nodes := List.mem_of_mem_head? (by rw [hh]; rfl)
        rw [lookup_isSome_congr t tree0 ha h, ← hdk]
        exact h3 fi (lookup_file_mem tree0 i fi hoi).1 d hdm
      intro j fj hl'
      rw [nlink_cfi_dir t i gi hgi hiroot hdgi hfhost j, hb j fj hl',
        Option.map_some']
      congr 1
      rw [hosteq]
      unfold inv_val
      have hbv : bump tree0 j i = decide (file_host fi = some j) := by
        unfold bump
        rw [hoi]
        simp [hfid, hiroot]
      by_cases hdj : S_ISDIR fj.ino.mode = true
      · rw [if_pos hdj, if_pos hdj, List.countP_append]
        by_cases hhj : file_host fi = some j
        · have hc1 : List.countP (bump tree0 j) [i] = 1 := by
            simp [List.countP_cons, hbv, hhj]
          rw [hc1, if_pos hhj]
          by_cases hji : j = i
          · rw [if_pos hji, if_neg (hji ▸ hnotdone),
              if_pos (by simp [hji] : j ∈ done ++ [i])]
            omega
          · rw [if_neg hji]
            by_cases hjm : j ∈ done
            · rw [if_pos hjm, if_pos (List.mem_append_left _ hjm)]
              omega
            · rw [if_neg hjm, if_neg (by simp [hjm, hji])]
              omega
        · have hc1 : List.countP (bump tree0 j) [i] = 0 := by
            simp [List.countP_cons, hbv, hhj]
          rw [hc1, if_neg hhj]
          by_cases hji : j = i
          · rw [if_pos hji, if_neg (hji ▸ hnotdone),
              if_pos (by simp [hji] : j ∈ done ++ [i])]
            omega
          · rw [if_neg hji]
            by_cases hjm : j ∈ done
            · rw [if_pos hjm, if_pos (List.mem_append_left _ hjm)]
              omega
            · rw [if_neg hjm, if_neg (by simp [hjm, hji])]
              omega
      · have hhj : ¬ file_host fi = some j := by
          intro hcontra
          have h4' := h4 fi (lookup_file_mem tree0 i fi hoi).1 hfid
          rw [hcontra] at h4'
          simp [hl'] at h4'
          exact hdj h4'
        have hji : ¬ j = i := by
          intro hcontra
          rw [hcontra, hoi] at hl'
          apply hdj
          rw [← Option.some.inj hl']
          exact hfid
        rw [if_neg hdj, if_neg hdj, if_neg hhj, if_neg hji]
        by_cases hjm : j ∈ done
        · rw [if_pos hjm, if_pos (List.mem_append_left _ hjm)]
          omega
        · rw [if_neg hjm, if_neg (by simp [hjm, hji])]
    · have hhosts : ∀ d ∈ gi.dent_nodes,
          (lookup_file t d.key.inum).isSome = true := by
        intro d hd
        rw [he3] at hd
        rw [lookup_isSome_congr t tree0 ha d.key.inum]
        exact h3 fi (lookup_file_mem tree0 i fi hoi).1 d hd
      have hstep := nlink_cfi_nondir t i gi hgi hiroot hdgi hhosts
      intro j fj hl'
      by_cases hji : j = i
      · rw [hji, hstep.1]
        rw [hji, hoi] at hl'
        have hfij : fi = fj := Option.some.inj hl'
        congr 1
        unfold inv_val
        rw [if_neg (show ¬ S_ISDIR fj.ino.mode = true by
            rw [← hfij, ← he2]; exact hdgi),
          if_pos (by simp : i ∈ done ++ [i]), ← hfij, ← he3]
      · rw [hstep.2 j hji, hb j fj hl']
        congr 1
        unfold inv_val
        have hbz : bump tree0 j i = false := by
          unfold bump
          rw [hoi]
          have hnd : ¬ S_ISDIR fi.ino.mode = true := by
            rw [← he2]
            exact hdgi
          simp [hnd]
        have hc1 : List.countP (bump tree0 j) [i] = 0 := by
          simp [List.countP_cons, hbz]
        by_cases hdj : S_ISDIR fj.ino.mode = true
        · rw [if_pos hdj, if_pos hdj, List.countP_append, hc1]
          by_cases hjm : j ∈ done
          · rw [if_pos hjm, if_pos (List.mem_append_left _ hjm)]
            omega
          · rw [if_neg hjm, if_neg (by simp [hjm, hji])]
            omega
        · rw [if_neg hdj, if_neg hdj]
          by_cases hjm : j ∈ done
          · rw [if_pos hjm, if_pos (List.mem_append_left _ hjm)]
          · rw [if_neg hjm, if_neg (by simp [hjm, hji])]

theorem fold_invariant (tree0 : List ScannedFile)
    (h2 : ∀ f ∈ tree0, f.inum = UBIFS_ROOT_INO → S_ISDIR f.ino.mode = true)
    (h3 : ∀ f ∈ tree0, ∀ d ∈ f.dent_nodes,
      (lookup_file tree0 d.key.inum).isSome = true)
    (h4 : ∀ f ∈ tree0, S_ISDIR f.ino.mode = true →
      Option.all (fun p => S_ISDIR p.ino.mode)
        ((file_host f).bind (lookup_file tree0)) = true) :
    ∀ (is done : List Nat) (t : List ScannedFile),
    (done ++ is).Nodup →
    (∀ i ∈ is, (lookup_file tree0 i).isSome = true) →
    t.map file_sig = tree0.map file_sig →
    (∀ j fj, lookup_file tree0 j = some fj →
      nlink_of t j = some (inv_val tree0 done j fj)) →
    ∀ j fj, lookup_file tree0 j = some fj →
      nlink_of (is.foldl calculate_file_info t) j =
        some (inv_val tree0 (done ++ is) j fj) := by
  intro is
  induction is with
  | nil =>
    intro done t hnd hmem ha hb j fj hl
    rw [List.append_nil]
    exact hb j fj hl
  | cons i is' ih =>
    intro done t hnd hmem ha hb j fj hl
    rw [List.foldl_cons]
    have hnotdone : i ∉ done := by
      intro hcontra
      exact (List.nodup_append.mp hnd).2.2 hcontra (List.mem_cons_self i is')
    have key := inv_step tree0 h2 h3 h4 done i hnotdone
      (hmem i (List.mem_cons_self i is')) t ha hb
    have hnd' : ((done ++ [i]) ++ is').Nodup := by
      rw [List.append_assoc, List.singleton_append]
      exact hnd
    have hres := ih (done ++ [i]) (calculate_file_info t i) hnd'
      (fun i' hi' => hmem i' (List.mem_cons_of_mem _ hi'))
      (by rw [sig_calculate_file_info, ha])
      key j fj hl
    rw [← List.singleton_append, ← List.append_assoc]
    exact hres

theorem countP_bump (tree : List ScannedFile)
    (hnd : (tree.map fun f => f.inum).Nodup) (j : Nat) :
    (tree.map fun f => f.inum).countP (bump tree j) =
      dir_child_count tree j := by
  unfold dir_child_count
  rw [List.countP_map]
  apply List.countP_congr
  intro g hg
  have hv : bump tree j g.inum = child_pred j g := by
    unfold bump child_pred
    rw [mem_lookup_self tree hnd g hg]
  show (bump tree j ∘ fun f => f.inum) g = true ↔ child_pred j g = true
  simp only [Function.comp_apply, hv]

/-- Root directory of the two-file example: inode 1, a directory, no
dentry of its own. -/
def C4root : ScannedFile :=
  { inum := 1, ino := { mode := S_IFDIR } }

/-- Subdirectory of the two-file example: inode 2, a directory, one
dentry living in the root directory. -/
def C4child : ScannedFile :=
  { inum := 2, ino := { mode := S_IFDIR }, dent_nodes := [{ key := ⟨1, UBIFS_DENT_KEY, 0⟩, inum := 2 }] }

/-- C4: the stated link-count law fails for directories: on a tree with
a root directory and one subdirectory, `check_and_correct_files` gives
the root directory link count 3, while the number of directory entries
naming it plus 2 is 2 — the extra link comes from the child directory,
not from a dentry (extract_files.c, lines 1329-1341). -/
theorem C4_link_count_law_counterexample :
    ∃ f, (check_and_correct_files_calc [C4root, C4child]).head? = some f ∧
      S_ISDIR f.ino.mode = true ∧
      f.calc_nlink = 3 ∧ f.dent_nodes.length + 2 = 2 := by
  refine ⟨_, rfl, rfl, rfl, rfl⟩

/-- C4: link-count law, amended. Starting from a file tree whose
calculated link counts are zero, whose inode numbers are distinct, whose
root (if present) is a directory, whose dentry hosts are all present,
and whose directory dentry hosts are directories, the
metadata-reconciliation pass gives every directory the link count
2 plus the number of surviving child directories naming it as parent,
and every non-directory the number of its own surviving dentries; a file
relocated into the disconnected set always gets link count 1
(extract_files.c, lines 1295-1462 and 1534-1574). -/
theorem C4_link_count_law (tree : List ScannedFile)
    (h0 : ∀ f ∈ tree, f.calc_nlink = 0)
    (h1 : (tree.map fun f => f.inum).Nodup)
    (h2 : ∀ f ∈ tree, f.inum = UBIFS_ROOT_INO → S_ISDIR f.ino.mode = true)
    (h3 : ∀ f ∈ tree, ∀ d ∈ f.dent_nodes,
      (lookup_file tree d.key.inum).isSome = true)
    (h4 : ∀ f ∈ tree, S_ISDIR f.ino.mode = true →
      Option.all (fun p => S_ISDIR p.ino.mode)
        ((file_host f).bind (lookup_file tree)) = true) :
    (∀ f ∈ check_and_correct_files_calc tree,
      (S_ISDIR f.ino.mode = true →
        f.calc_nlink = 2 + dir_child_count tree f.inum) ∧
      (S_ISDIR f.ino.mode = false →
        f.calc_nlink = f.dent_nodes.length)) ∧
    (∀ (t : List ScannedFile) (g : ScannedFile),
      (correct_disconnected_file t g).1.calc_nlink = 1) := by
  constructor
  · intro f hf
    have hsig : (check_and_correct_files_calc tree).map file_sig =
        tree.map file_sig := sig_check_and_correct_pass _ tree
    have hinum : (check_and_correct_files_calc tree).map (fun f => f.inum) =
        tree.map fun f => f.inum := by
      have hm := congrArg (List.map fun p => p.1) hsig
      rw [List.map_map, List.map_map] at hm
      exact hm
    have hnd' :
        ((check_and_correct_files_calc tree).map fun f => f.inum).Nodup := by
      rw [hinum]
      exact h1
    have hself := mem_lookup_self _ hnd' f hf
    have hcong := lookup_file_sig_congr (check_and_correct_files_calc tree)
      tree hsig f.inum
    rw [hself] at hcong
    rcases hl0 : lookup_file tree f.inum with _ | fj
    · rw [hl0] at hcong
      simp at hcong
    · rw [hl0] at hcong
      simp at hcong
      obtain ⟨e1, e2, e3⟩ := sig_eq_fields hcong
      have hbase : ∀ j gj, lookup_file tree j = some gj →
          nlink_of tree j = some (inv_val tree [] j gj) := by
        intro j gj hl
        unfold nlink_of
        rw [hl]
        have h0' : gj.calc_nlink = 0 := h0 gj (lookup_file_mem tree j gj hl).1
        unfold inv_val
        simp [h0']
      have hmem0 : ∀ i ∈ (tree.map fun f => f.inum),
          (lookup_file tree i).isSome = true := by
        intro i hi
        obtain ⟨g, hg, rfl⟩ := List.mem_map.mp hi
        rw [mem_lookup_self tree h1 g hg]
        rfl
      have hmain := fold_invariant tree h2 h3 h4 (tree.map fun f => f.inum)
        [] tree (by simpa using h1) hmem0 rfl hbase f.inum fj hl0
      rw [List.nil_append] at hmain
      have hval : nlink_of (check_and_correct_files_calc tree) f.inum =
          some f.calc_nlink := by
        unfold nlink_of
        rw [hself]
        rfl
      have hmain' : some f.calc_nlink =
          some (inv_val tree (tree.map fun f => f.inum) f.inum fj) := by
        rw [← hval]
        exact hmain
      have hveq : f.calc_nlink =
          inv_val tree (tree.map fun f => f.inum) f.inum fj :=
        Option.some.inj hmain'
      have hfin : f.inum ∈ tree.map fun f => f.inum := by
        rw [← (lookup_file_mem tree f.inum fj hl0).2]
        exact List.mem_map_of_mem _ (lookup_file_mem tree f.inum fj hl0).1
      constructor
      · intro hdir
        rw [hveq]
        unfold inv_val
        rw [if_pos (show S_ISDIR fj.ino.mode = true by
            rw [← e2]; exact hdir),
          if_pos hfin, countP_bump tree h1 f.inum]
      · intro hndir
        rw [hveq]
        unfold inv_val
        rw [if_neg (show ¬ S_ISDIR fj.ino.mode = true by
            rw [← e2]; simp [hndir]),
          if_pos hfin, ← e3]
  · intro t g
    rfl

/-- C4 witness: the amended law evaluated on the two-file example. -/
theorem C4_link_count_law_witness :
    (∀ f ∈ check_and_correct_files_calc [C4root, C4child],
      (S_ISDIR f.ino.mode = true →
        f.calc_nlink = 2 + dir_child_count [C4root, C4child] f.inum) ∧
      (S_ISDIR f.ino.mode = false →
        f.calc_nlink = f.dent_nodes.length)) ∧
    (∀ (t : List ScannedFile) (g : ScannedFile),
      (correct_disconnected_file t g).1.calc_nlink = 1) :=
  C4_link_count_law [C4root, C4child] (by decide) (by decide) (by decide)
    (by decide) (by decide)

/-- A scanned dentry as seen by the reachability pass: its node identity
(the C pointer), the inode number of the directory holding it
(`key_inum(c, &dent_node->key)`), and the memoization flag. -/
structure RDent where
  did : Nat
  parent : Nat
  can_be_found : Bool := false
deriving DecidableEq, Repr

/-- A scanned file as seen by the reachability pass. -/
structure RFile where
  inum : Nat
  is_reg : Bool := false
  dent_nodes : List RDent := []
deriving DecidableEq, Repr

/-- `lookup_file` on the reachability view of the file tree. -/
def lookup_rfile (tree : List RFile) (inum : Nat) : Option RFile :=
  tree.find? fun f => f.inum = inum

/-- All dentries of the tree, in file order. -/
def all_dents (tree : List RFile) : List RDent :=
  tree.flatMap fun f => f.dent_nodes

/-- Find a dentry anywhere in the tree by node identity. -/
def find_dent (tree : List RFile) (did : Nat) : Option RDent :=
  (all_dents tree).find? fun d => d.did = did

/-- Identity of the first dentry of a file (`rb_first(&file->dent_nodes)`). -/
def head_did (f : RFile) : Option Nat :=
  f.dent_nodes.head?.map fun d => d.did

/-- Parent inode number recorded in a dentry, looked up by identity. -/
def dent_parent (tree : List RFile) (did : Nat) : Option Nat :=
  (find_dent tree did).map fun d => d.parent

/-- Whether the dentry with the given identity is currently marked
`can_be_found`. -/
def marked (tree : List RFile) (did : Nat) : Bool :=
  match find_dent tree did with
  | none => false
  | some d => d.can_be_found

/-- Whether a parent inode number resolves to a file, and if so whether
that file is the root and what its first dentry is. -/
def parent_status (tree : List RFile) (pinum : Nat) :
    Option (Bool × Option Nat) :=
  (lookup_rfile tree pinum).map fun pf =>
    (decide (pf.inum = UBIFS_ROOT_INO), head_did pf)

/-- Identities of the dentries of the file with the given inode number. -/
def dids_of (tree : List RFile) (inum : Nat) : List Nat :=
  match lookup_rfile tree inum with
  | none => []
  | some f => f.dent_nodes.map fun d => d.did

/-- The per-file data untouched by the reachability pass. -/
def files_sig (tree : List RFile) : List (Nat × Bool) :=
  tree.map fun f => (f.inum, f.is_reg)

/-- Set the memoization flag of one dentry (`dent_node->can_be_found =
true` acts through the shared pointer). -/
def mark_one (i : Nat) (d : RDent) : RDent :=
  if d.did = i then { d with can_be_found := true } else d

/-- Mark the dentry with identity `i` wherever it lives in the tree. -/
def mark_dent (tree : List RFile) (i : Nat) : List RFile :=
  tree.map fun f => { f with dent_nodes := f.dent_nodes.map (mark_one i) }

/-- Remove the dentries whose identities are listed in `dids` from every
file (`rb_erase(&dent_node->rb, &dent_node->file->dent_nodes)`). -/
def delete_dents (tree : List RFile) (dids : List Nat) : List RFile :=
  tree.map fun f =>
    { f with dent_nodes := f.dent_nodes.filter fun d => decide (d.did ∉ dids) }

/-- Result of one `dentry_is_reachable` walk: the verdict, the path list,
the updated tree, and whether the structural recursion had enough fuel to
mirror the C recursion. -/
structure WalkResult where
  reachable : Bool
  path : List Nat
  tree : List RFile
  ok : Bool
deriving DecidableEq, Repr

/-- `dentry_is_reachable` (extract_files.c, lines 1179-1216): walk from a
dentry towards '/', marking every visited dentry and recording it on the
path list; a dentry already on the path means a cycle (unreachable), a
marked dentry off the path is known reachable, a missing parent or a
parent without dentries is unreachable, the root is reachable. -/
def dentry_is_reachable :
    Nat → RDent → List Nat → List RFile → WalkResult
  | 0, _, path, tree => ⟨false, path, tree, false⟩
  | fuel+1, dent, path, tree =>
    if dent.did ∈ path then ⟨false, path, tree, true⟩
    else if dent.can_be_found then ⟨true, path, tree, true⟩
    else
      match lookup_rfile (mark_dent tree dent.did) dent.parent with
      | none => ⟨false, dent.did :: path, mark_dent tree dent.did, true⟩
      | some pf =>
        if pf.inum = UBIFS_ROOT_INO then
          ⟨true, dent.did :: path, mark_dent tree dent.did, true⟩
        else
          match pf.dent_nodes.head? with
          | none => ⟨false, dent.did :: path, mark_dent tree dent.did, true⟩
          | some pd =>
            dentry_is_reachable fuel pd (dent.did :: path)
              (mark_dent tree dent.did)

/-- `file_is_reachable`'s inner for-loop (extract_files.c, lines
1238-1245): check each dentry of the file in order; stop at the first
unreachable dentry, returning its path list for removal. -/
def fir_pass (fuelW : Nat) :
    List Nat → List RFile → Option (List Nat) × List RFile × Bool
  | [], tree => (none, tree, true)
  | did :: rest, tree =>
    match find_dent tree did with
    | none => fir_pass fuelW rest tree
    | some d =>
      match dentry_is_reachable fuelW d [] tree with
      | ⟨true, _, tree1, ok1⟩ =>
        if ok1 then fir_pass fuelW rest tree1 else (none, tree1, false)
      | ⟨false, path1, tree1, ok1⟩ => (some path1, tree1, ok1)

/-- `file_is_reachable` (extract_files.c, lines 1228-1283): the root is
reachable; otherwise walk every dentry, and whenever one is unreachable
remove the dentries collected on its path and rescan; a file ending up
with no dentries is unreachable. -/
def file_is_reachable :
    Nat → Nat → Nat → List RFile → Bool × List RFile × Bool
  | 0, _, _, tree => (false, tree, false)
  | fuelR+1, fuelW, finum, tree =>
    match lookup_rfile tree finum with
    | none => (true, tree, true)
    | some f =>
      if f.inum = UBIFS_ROOT_INO then (true, tree, true)
      else
        match fir_pass fuelW (f.dent_nodes.map fun d => d.did) tree with
        | (none, tree1, ok1) =>
          match lookup_rfile tree1 finum with
          | none => (true, tree1, ok1)
          | some f1 =>
            if f1.dent_nodes = [] then (false, tree1, ok1)
            else (true, tree1, ok1)
        | (some path1, tree1, ok1) =>
          if ok1 then
            file_is_reachable fuelR fuelW finum (delete_dents tree1 path1)
          else (false, tree1, false)

/-- The first loop of `handle_dentry_tree` (check_files.c, lines
467-477): run `file_is_reachable` over every file, collecting the
unreachable ones. -/
def hdt_loop1 (fuelR fuelW : Nat) :
    List Nat → List RFile → List Nat → List RFile × List Nat × Bool
  | [], tree, unr => (tree, unr, true)
  | i :: rest, tree, unr =>
    match file_is_reachable fuelR fuelW i tree with
    | (b, tree1, ok1) =>
      if ok1 then
        hdt_loop1 fuelR fuelW rest tree1 (if b then unr else unr ++ [i])
      else (tree1, unr, false)

/-- Result of `handle_dentry_tree`: the surviving tree, the disconnected
regular files, the deleted files, and the fuel flag. -/
structure HdtResult where
  tree : List RFile
  disconnected : List RFile
  deleted : List RFile
  ok : Bool
deriving DecidableEq, Repr

/-- `handle_dentry_tree` (check_files.c, lines 460-501): find the
unreachable files, then move regular unreachable files to the
disconnected list and delete the others. -/
def handle_dentry_tree (fuelR fuelW : Nat) (tree : List RFile) : HdtResult :=
  match hdt_loop1 fuelR fuelW (tree.map fun f => f.inum) tree [] with
  | (tree1, unr, ok) =>
    ⟨tree1.filter fun f => decide (f.inum ∉ unr),
     tree1.filter fun f => decide (f.inum ∈ unr) && f.is_reg,
     tree1.filter fun f => decide (f.inum ∈ unr) && ! f.is_reg,
     ok⟩

/-- A marked ascent: the dentry is marked, and following its parent
directory's first dentry repeatedly (the exact walk of
`dentry_is_reachable`) reaches '/' in finitely many steps. -/
inductive MarkedUp (tree : List RFile) : Nat → Prop
  | toRoot (did pinum : Nat) (h : Option Nat)
      (hm : marked tree did = true)
      (hp : dent_parent tree did = some pinum)
      (hs : parent_status tree pinum = some (true, h)) : MarkedUp tree did
  | step (did pinum hd : Nat)
      (hm : marked tree did = true)
      (hp : dent_parent tree did = some pinum)
      (hs : parent_status tree pinum = some (false, some hd))
      (hup : MarkedUp tree hd) : MarkedUp tree did

/-- A finite ascent of surviving dentries ending at the root. -/
inductive DidAscends (tree : List RFile) : Nat → Prop
  | toRoot (did pinum : Nat) (h : Option Nat)
      (hp : dent_parent tree did = some pinum)
      (hs : parent_status tree pinum = some (true, h)) : DidAscends tree did
  | step (did pinum hd : Nat)
      (hp : dent_parent tree did = some pinum)
      (hs : parent_status tree pinum = some (false, some hd))
      (hup : DidAscends tree hd) : DidAscends tree did

/-- Linkage of the walk's path list: each recorded dentry's parent
directory exists, is not the root, and has the next walk target as its
first dentry. -/
def path_link (tree : List RFile) : Nat → List Nat → Prop
  | _, [] => True
  | cur, q :: rest =>
    (∃ pinum, dent_parent tree q = some pinum ∧
      parent_status tree pinum = some (false, some cur)) ∧
    path_link tree q rest

theorem mark_one_did (i : Nat) (d : RDent) : (mark_one i d).did = d.did := by
  unfold mark_one
  split <;> rfl

theorem mark_one_parent (i : Nat) (d : RDent) :
    (mark_one i d).parent = d.parent := by
  unfold mark_one
  split <;> rfl

theorem all_dents_mark (tree : List RFile) (i : Nat) :
    all_dents (mark_dent tree i) = (all_dents tree).map (mark_one i) := by
  induction tree with
  | nil => rfl
  | cons f rest ih =>
    simp only [all_dents, mark_dent, List.map_cons, List.flatMap_cons,
      List.map_append] at ih ⊢
    rw [ih]

theorem find_dent_mark (tree : List RFile) (i x : Nat) :
    find_dent (mark_dent tree i) x = (find_dent tree x).map (mark_one i) := by
  unfold find_dent
  rw [all_dents_mark, List.find?_map]
  have hp : ((fun d => decide (d.did = x)) ∘ mark_one i) =
      fun d : RDent => decide (d.did = x) := by
    funext d
    simp [Function.comp, mark_one_did]
  rw [hp]

theorem dent_parent_mark (tree : List RFile) (i x : Nat) :
    dent_parent (mark_dent tree i) x = dent_parent tree x := by
  unfold dent_parent
  rw [find_dent_mark, Option.map_map]
  rcases find_dent tree x with _ | d
  · rfl
  · simp [Function.comp, mark_one_parent]

theorem marked_mark_mono (tree : List RFile) (i x : Nat)
    (h : marked tree x = true) : marked (mark_dent tree i) x = true := by
  unfold marked at h ⊢
  rw [find_dent_mark]
  rcases hf : find_dent tree x with _ | d
  · rw [hf] at h
    simp at h
  · rw [hf] at h
    have h' : d.can_be_found = true := h
    simp only [Option.map_some']
    show (mark_one i d).can_be_found = true
    unfold mark_one
    split
    · rfl
    · exact h'

theorem marked_mark_self (tree : List RFile) (i : Nat) (d : RDent)
    (h : find_dent tree i = some d) (hd : d.did = i) :
    marked (mark_dent tree i) i = true := by
  unfold marked
  rw [find_dent_mark, h]
  simp [mark_one, hd]

theorem marked_mark_rev (tree : List RFile) (i x : Nat)
    (h : marked (mark_dent tree i) x = true) :
    marked tree x = true ∨ x = i := by
  unfold marked at h
  rw [find_dent_mark] at h
  rcases hf : find_dent tree x with _ | d
  · rw [hf] at h
    simp at h
  · rw [hf] at h
    simp only [Option.map_some'] at h
    unfold mark_one at h
    by_cases hdi : d.did = i
    · right
      have := List.find?_some hf
      simp at this
      rw [← this, hdi]
    · left
      rw [if_neg hdi] at h
      unfold marked
      rw [hf]
      exact h

theorem lookup_rfile_mark (tree : List RFile) (i n : Nat) :
    lookup_rfile (mark_dent tree i) n = (lookup_rfile tree n).map fun f =>
      { f with dent_nodes := f.dent_nodes.map (mark_one i) } := by
  unfold lookup_rfile mark_dent
  rw [List.find?_map]
  have hp : ((fun f => decide (f.inum = n)) ∘ fun f : RFile =>
      { f with dent_nodes := f.dent_nodes.map (mark_one i) }) =
      fun f : RFile => decide (f.inum = n) := by
    funext f
    rfl
  rw [hp]

theorem head_did_mark (f : RFile) (i : Nat) :
    head_did { f with dent_nodes := f.dent_nodes.map (mark_one i) } =
      head_did f := by
  unfold head_did
  rcases hh : f.dent_nodes with _ | ⟨d, rest⟩
  · rfl
  · simp [mark_one_did]

theorem parent_status_mark (tree : List RFile) (i p : Nat) :
    parent_status (mark_dent tree i) p = parent_status tree p := by
  unfold parent_status
  rw [lookup_rfile_mark, Option.map_map]
  rcases lookup_rfile tree p with _ | pf
  · rfl
  · simp [Function.comp, head_did_mark]

theorem dids_of_mark (tree : List RFile) (i n : Nat) :
    dids_of (mark_dent tree i) n = dids_of tree n := by
  unfold dids_of
  rw [lookup_rfile_mark]
  rcases lookup_rfile tree n with _ | f
  · rfl
  · simp [mark_one_did]

theorem files_sig_mark (tree : List RFile) (i : Nat) :
    files_sig (mark_dent tree i) = files_sig tree := by
  unfold files_sig mark_dent
  rw [List.map_map]
  rfl

theorem all_dents_delete (tree : List RFile) (S : List Nat) :
    all_dents (delete_dents tree S) =
      (all_dents tree).filter fun d => decide (d.did ∉ S) := by
  induction tree with
  | nil => rfl
  | cons f rest ih =>
    simp only [all_dents, delete_dents, List.map_cons, List.flatMap_cons,
      List.filter_append] at ih ⊢
    rw [ih]

theorem find?_filter_did (l : List RDent) (S : List Nat) (x : Nat)
    (hx : x ∉ S) :
    (l.filter fun d => decide (d.did ∉ S)).find? (fun d =>
      decide (d.did = x)) = l.find? fun d => decide (d.did = x) := by
  induction l with
  | nil => rfl
  | cons d0 rest ih =>
    by_cases hd0 : d0.did = x
    · have hk : d0.did ∉ S := by
        rw [hd0]
        exact hx
      rw [List.filter_cons_of_pos (by simpa using hk),
        List.find?_cons_of_pos _ (by simpa using hd0),
        List.find?_cons_of_pos _ (by simpa using hd0)]
    · by_cases hk : d0.did ∈ S
      · rw [List.filter_cons_of_neg (by simpa using hk),
          List.find?_cons_of_neg _ (by simpa using hd0)]
        exact ih
      · rw [List.filter_cons_of_pos (by simpa using hk),
          List.find?_cons_of_neg _ (by simpa using hd0),
          List.find?_cons_of_neg _ (by simpa using hd0)]
        exact ih

theorem find_dent_delete_not_mem (tree : List RFile) (S : List Nat)
    (x : Nat) (hx : x ∉ S) :
    find_dent (delete_dents tree S) x = find_dent tree x := by
  unfold find_dent
  rw [all_dents_delete]
  exact find?_filter_did (all_dents tree) S x hx

theorem find_dent_delete_mem (tree : List RFile) (S : List Nat) (x : Nat)
    (hx : x ∈ S) : find_dent (delete_dents tree S) x = none := by
  unfold find_dent
  rw [all_dents_delete]
  apply List.find?_eq_none.mpr
  intro d hd
  have := List.of_mem_filter hd
  simp at this
  intro hc
  have hcx : d.did = x := by simpa using hc
  exact this (hcx ▸ hx)

theorem marked_delete_not_mem (tree : List RFile) (S : List Nat) (x : Nat)
    (hx : x ∉ S) : marked (delete_dents tree S) x = marked tree x := by
  unfold marked
  rw [find_dent_delete_not_mem tree S x hx]

theorem dent_parent_delete_not_mem (tree : List RFile) (S : List Nat)
    (x : Nat) (hx : x ∉ S) :
    dent_parent (delete_dents tree S) x = dent_parent tree x := by
  unfold dent_parent
  rw [find_dent_delete_not_mem tree S x hx]

/-- The effect of `delete_dents` on a single file. -/
def delf (S : List Nat) (f : RFile) : RFile :=
  { f with dent_nodes := f.dent_nodes.filter fun d => decide (d.did ∉ S) }

theorem lookup_rfile_delete (tree : List RFile) (S : List Nat) (n : Nat) :
    lookup_rfile (delete_dents tree S) n =
      (lookup_rfile tree n).map (delf S) := by
  have hds : delete_dents tree S = tree.map (delf S) := rfl
  unfold lookup_rfile
  rw [hds, List.find?_map]
  have hp : ((fun f => decide (f.inum = n)) ∘ delf S) =
      fun f : RFile => decide (f.inum = n) := by
    funext f
    rfl
  rw [hp]

theorem head_did_delete (f : RFile) (S : List Nat) (hd : Nat)
    (hh : head_did f = some hd) (hS : hd ∉ S) :
    head_did (delf S f) = some hd := by
  unfold head_did at hh ⊢
  unfold delf
  rcases hl : f.dent_nodes with _ | ⟨d0, rest⟩
  · rw [hl] at hh
    simp at hh
  · rw [hl] at hh
    simp at hh
    rw [List.filter_cons_of_pos (by simpa [hh] using hS)]
    simp [hh]

theorem files_sig_delete (tree : List RFile) (S : List Nat) :
    files_sig (delete_dents tree S) = files_sig tree := by
  unfold files_sig delete_dents
  rw [List.map_map]
  rfl

theorem parent_status_inv (tree : List RFile) (p : Nat) (b : Bool)
    (h : Option Nat) (hs : parent_status tree p = some (b, h)) :
    ∃ pf, lookup_rfile tree p = some pf ∧
      decide (pf.inum = UBIFS_ROOT_INO) = b ∧ head_did pf = h := by
  unfold parent_status at hs
  rcases hl : lookup_rfile tree p with _ | pf
  · rw [hl] at hs
    simp at hs
  · rw [hl] at hs
    simp at hs
    exact ⟨pf, rfl, hs.1, hs.2⟩

theorem MarkedUp_marked (tree : List RFile) (x : Nat)
    (h : MarkedUp tree x) : marked tree x = true := by
  cases h with
  | toRoot _ _ _ hm _ _ => exact hm
  | step _ _ _ hm _ _ _ => exact hm

theorem MarkedUp_mark (tree : List RFile) (i x : Nat)
    (h : MarkedUp tree x) : MarkedUp (mark_dent tree i) x := by
  induction h with
  | toRoot did pinum ho hm hp hs =>
    exact MarkedUp.toRoot did pinum ho (marked_mark_mono tree i did hm)
      (by rw [dent_parent_mark]; exact hp)
      (by rw [parent_status_mark]; exact hs)
  | step did pinum hd hm hp hs _ ih =>
    exact MarkedUp.step did pinum hd (marked_mark_mono tree i did hm)
      (by rw [dent_parent_mark]; exact hp)
      (by rw [parent_status_mark]; exact hs) ih

theorem MarkedUp_delete (tree : List RFile) (S : List Nat)
    (hS : ∀ s ∈ S, marked tree s = false) (x : Nat)
    (h : MarkedUp tree x) : MarkedUp (delete_dents tree S) x := by
  induction h with
  | toRoot did pinum ho hm hp hs =>
    have hx : did ∉ S := by
      intro hc
      rw [hS did hc] at hm
      exact Bool.false_ne_true hm
    obtain ⟨pf, hl, hb, hh⟩ := parent_status_inv tree pinum true ho hs
    refine MarkedUp.toRoot did pinum (head_did (delf S pf)) ?_ ?_ ?_
    · rw [marked_delete_not_mem tree S did hx]
      exact hm
    · rw [dent_parent_delete_not_mem tree S did hx]
      exact hp
    · unfold parent_status
      rw [lookup_rfile_delete, hl]
      simp only [Option.map_some']
      have : (delf S pf).inum = pf.inum := rfl
      rw [this, hb]
  | step did pinum hd hm hp hs hup ih =>
    have hx : did ∉ S := by
      intro hc
      rw [hS did hc] at hm
      exact Bool.false_ne_true hm
    have hhd : hd ∉ S := by
      intro hc
      have hmk := MarkedUp_marked tree hd hup
      rw [hS hd hc] at hmk
      exact Bool.false_ne_true hmk
    obtain ⟨pf, hl, hb, hh⟩ := parent_status_inv tree pinum false (some hd) hs
    refine MarkedUp.step did pinum hd ?_ ?_ ?_ ih
    · rw [marked_delete_not_mem tree S did hx]
      exact hm
    · rw [dent_parent_delete_not_mem tree S did hx]
      exact hp
    · unfold parent_status
      rw [lookup_rfile_delete, hl]
      simp only [Option.map_some']
      have hi : (delf S pf).inum = pf.inum := rfl
      rw [hi, hb, head_did_delete pf S hd hh hhd]

theorem MarkedUp_ascends (tree : List RFile) (x : Nat)
    (h : MarkedUp tree x) : DidAscends tree x := by
  induction h with
  | toRoot did pinum ho _ hp hs => exact DidAscends.toRoot did pinum ho hp hs
  | step did pinum hd _ hp hs _ ih => exact DidAscends.step did pinum hd hp hs ih

theorem path_link_mark (tree : List RFile) (i : Nat) :
    ∀ (path : List Nat) (cur : Nat), path_link tree cur path →
      path_link (mark_dent tree i) cur path := by
  intro path
  induction path with
  | nil => intro cur _; trivial
  | cons q rest ih =>
    intro cur h
    obtain ⟨⟨pinum, hp, hs⟩, hrest⟩ := h
    exact ⟨⟨pinum, by rw [dent_parent_mark]; exact hp,
      by rw [parent_status_mark]; exact hs⟩, ih q hrest⟩

theorem path_unwind (tree : List RFile) :
    ∀ (path : List Nat) (cur : Nat), path_link tree cur path →
      (∀ p ∈ path, marked tree p = true) → MarkedUp tree cur →
      ∀ p ∈ path, MarkedUp tree p := by
  intro path
  induction path with
  | nil =>
    intro cur _ _ _ p hp
    simp at hp
  | cons q rest ih =>
    intro cur hl hm hcur p hp
    obtain ⟨⟨pinum, hpq, hsq⟩, hrest⟩ := hl
    have hq : MarkedUp tree q :=
      MarkedUp.step q pinum cur (hm q (List.mem_cons_self q rest)) hpq hsq hcur
    rcases List.mem_cons.mp hp with he | he
    · rw [he]
      exact hq
    · exact ih q hrest (fun p' hp' => hm p' (List.mem_cons_of_mem _ hp'))
        hq p he

theorem marked_eq_flag (tree : List RFile) (x : Nat) (d : RDent)
    (h : find_dent tree x = some d) : marked tree x = d.can_be_found := by
  unfold marked
  rw [h]

theorem dent_parent_eq (tree : List RFile) (x : Nat) (d : RDent)
    (h : find_dent tree x = some d) : dent_parent tree x = some d.parent := by
  unfold dent_parent
  rw [h]
  rfl

theorem all_dents_dids_mark (tree : List RFile) (i : Nat) :
    ((all_dents (mark_dent tree i)).map fun d => d.did) =
      (all_dents tree).map fun d => d.did := by
  rw [all_dents_mark, List.map_map]
  apply List.map_congr_left
  intro d _
  exact mark_one_did i d

theorem find?_id_nodup (l : List RDent)
    (hnd : (l.map fun d => d.did).Nodup) (d : RDent) (hd : d ∈ l) :
    l.find? (fun e => decide (e.did = d.did)) = some d := by
  induction l with
  | nil => simp at hd
  | cons e rest ih =>
    simp only [List.map_cons, List.nodup_cons] at hnd
    rcases List.mem_cons.mp hd with he | he
    · rw [he]
      rw [List.find?_cons_of_pos _ (by simp)]
    · have hne : ¬ e.did = d.did := by
        intro hc
        exact hnd.1 (hc ▸ List.mem_map_of_mem (fun d => d.did) he)
      rw [List.find?_cons_of_neg _ (by simpa using hne)]
      exact ih hnd.2 he

theorem find_by_id (tree : List RFile)
    (hnd : ((all_dents tree).map fun d => d.did).Nodup) (d : RDent)
    (hd : d ∈ all_dents tree) : find_dent tree d.did = some d :=
  find?_id_nodup (all_dents tree) hnd d hd

theorem mem_all_dents (tree : List RFile) (f : RFile) (d : RDent)
    (hf : f ∈ tree) (hd : d ∈ f.dent_nodes) : d ∈ all_dents tree := by
  unfold all_dents
  exact List.mem_flatMap.mpr ⟨f, hf, hd⟩

theorem walk_lemma : ∀ (fuel : Nat) (dent : RDent) (path : List Nat)
    (tree : List RFile) (r : WalkResult),
    dentry_is_reachable fuel dent path tree = r →
    ((all_dents tree).map fun d => d.did).Nodup →
    find_dent tree dent.did = some dent →
    (∀ x, marked tree x = true → MarkedUp tree x ∨ x ∈ path) →
    (∀ p ∈ path, marked tree p = true) →
    path_link tree dent.did path →
    r.ok = true →
    files_sig r.tree = files_sig tree ∧
    ((all_dents r.tree).map fun d => d.did) =
      ((all_dents tree).map fun d => d.did) ∧
    (∀ n, dids_of r.tree n = dids_of tree n) ∧
    (∀ x, marked tree x = true → marked r.tree x = true) ∧
    (∀ x, marked r.tree x = true → marked tree x = true ∨ x ∈ r.path) ∧
    (∀ p ∈ path, p ∈ r.path) ∧
    (∀ p ∈ r.path, marked r.tree p = true) ∧
    (∀ p ∈ r.path, p ∈ path ∨ marked tree p = false) ∧
    (r.reachable = true →
      (∀ x, marked r.tree x = true → MarkedUp r.tree x) ∧
      marked r.tree dent.did = true) ∧
    (r.reachable = false →
      ∀ x, marked r.tree x = true → MarkedUp r.tree x ∨ x ∈ r.path) := by
  intro fuel
  induction fuel with
  | zero =>
    intro dent path tree r hr hnd hfind hinv hpath hchain hok
    rw [← hr] at hok
    simp [dentry_is_reachable] at hok
  | succ fuel ih =>
    intro dent path tree r hr hnd hfind hinv hpath hchain hok
    simp only [dentry_is_reachable] at hr
    by_cases hcyc : dent.did ∈ path
    · rw [if_pos hcyc] at hr
      subst hr
      exact ⟨rfl, rfl, fun n => rfl, fun x h => h, fun x h => Or.inl h,
        fun p hp => hp, hpath, fun p hp => Or.inl hp,
        fun htrue => absurd htrue (by simp), fun _ => hinv⟩
    · rw [if_neg hcyc] at hr
      by_cases hqk : dent.can_be_found = true
      · rw [if_pos hqk] at hr
        subst hr
        have hmdent : marked tree dent.did = true := by
          rw [marked_eq_flag tree dent.did dent hfind]
          exact hqk
        have hup : MarkedUp tree dent.did := by
          rcases hinv dent.did hmdent with h | h
          · exact h
          · exact absurd h hcyc
        have hallup : ∀ p ∈ path, MarkedUp tree p :=
          path_unwind tree path dent.did hchain hpath hup
        refine ⟨rfl, rfl, fun n => rfl, fun x h => h, fun x h => Or.inl h,
          fun p hp => hp, hpath, fun p hp => Or.inl hp, ?_, ?_⟩
        · intro _
          refine ⟨?_, hmdent⟩
          intro x hx
          rcases hinv x hx with h | h
          · exact h
          · exact hallup x h
        · intro hfalse
          exact absurd hfalse (by simp)
      · rw [if_neg hqk] at hr
        have hm1 : marked tree dent.did = false := by
          rw [marked_eq_flag tree dent.did dent hfind]
          simpa using hqk
        have hmark1self : marked (mark_dent tree dent.did) dent.did = true :=
          marked_mark_self tree dent.did dent hfind rfl
        have hparent1 : dent_parent (mark_dent tree dent.did) dent.did =
            some dent.parent := by
          rw [dent_parent_mark]
          exact dent_parent_eq tree dent.did dent hfind
        have hinv1 : ∀ x, marked (mark_dent tree dent.did) x = true →
            MarkedUp (mark_dent tree dent.did) x ∨ x ∈ dent.did :: path := by
          intro x hx
          rcases marked_mark_rev tree dent.did x hx with h | h
          · rcases hinv x h with h2 | h2
            · exact Or.inl (MarkedUp_mark tree dent.did x h2)
            · exact Or.inr (List.mem_cons_of_mem _ h2)
          · exact Or.inr (h ▸ List.mem_cons_self _ _)
        have hpath1 : ∀ p ∈ dent.did :: path,
            marked (mark_dent tree dent.did) p = true := by
          intro p hp
          rcases List.mem_cons.mp hp with he | he
          · rw [he]
            exact hmark1self
          · exact marked_mark_mono tree dent.did p (hpath p he)
        rcases hpl : lookup_rfile (mark_dent tree dent.did) dent.parent
          with _ | pf
        · rw [hpl] at hr
          subst hr
          refine ⟨files_sig_mark tree dent.did, all_dents_dids_mark tree
              dent.did, fun n => dids_of_mark tree dent.did n,
            fun x h => marked_mark_mono tree dent.did x h, ?_,
            fun p hp => List.mem_cons_of_mem _ hp, hpath1, ?_, ?_, ?_⟩
          · intro x hx
            rcases marked_mark_rev tree dent.did x hx with h | h
            · exact Or.inl h
            · exact Or.inr (h ▸ List.mem_cons_self _ _)
          · intro p hp
            rcases List.mem_cons.mp hp with he | he
            · exact Or.inr (he ▸ hm1)
            · exact Or.inl he
          · intro htrue
            exact absurd htrue (by simp)
          · intro _
            exact hinv1
        · simp only [hpl] at hr
          by_cases hroot : pf.inum = UBIFS_ROOT_INO
          · rw [if_pos hroot] at hr
            subst hr
            have hps : parent_status (mark_dent tree dent.did) dent.parent =
                some (true, head_did pf) := by
              unfold parent_status
              rw [hpl]
              simp [hroot]
            have hupd : MarkedUp (mark_dent tree dent.did) dent.did :=
              MarkedUp.toRoot dent.did dent.parent (head_did pf) hmark1self
                hparent1 hps
            have hchain1 : path_link (mark_dent tree dent.did) dent.did
                path := path_link_mark tree dent.did path dent.did hchain
            have hall : ∀ p ∈ path, MarkedUp (mark_dent tree dent.did) p :=
              path_unwind (mark_dent tree dent.did) path dent.did hchain1
                (fun p hp => marked_mark_mono tree dent.did p (hpath p hp))
                hupd
            refine ⟨files_sig_mark tree dent.did, all_dents_dids_mark tree
                dent.did, fun n => dids_of_mark tree dent.did n,
              fun x h => marked_mark_mono tree dent.did x h, ?_,
              fun p hp => List.mem_cons_of_mem _ hp, hpath1, ?_, ?_, ?_⟩
            · intro x hx
              rcases marked_mark_rev tree dent.did x hx with h | h
              · exact Or.inl h
              · exact Or.inr (h ▸ List.mem_cons_self _ _)
            · intro p hp
              rcases List.mem_cons.mp hp with he | he
              · exact Or.inr (he ▸ hm1)
              · exact Or.inl he
            · intro _
              refine ⟨?_, hmark1self⟩
              intro x hx
              rcases marked_mark_rev tree dent.did x hx with h | h
              · rcases hinv x h with h2 | h2
                · exact MarkedUp_mark tree dent.did x h2
                · exact hall x h2
              · exact h ▸ hupd
            · intro hfalse
              exact absurd hfalse (by simp)
          · rw [if_neg hroot] at hr
            rcases hph : pf.dent_nodes.head? with _ | pd
            · simp only [hph] at hr
              subst hr
              refine ⟨files_sig_mark tree dent.did, all_dents_dids_mark tree
                  dent.did, fun n => dids_of_mark tree dent.did n,
                fun x h => marked_mark_mono tree dent.did x h, ?_,
                fun p hp => List.mem_cons_of_mem _ hp, hpath1, ?_, ?_, ?_⟩
              · intro x hx
                rcases marked_mark_rev tree dent.did x hx with h | h
                · exact Or.inl h
                · exact Or.inr (h ▸ List.mem_cons_self _ _)
              · intro p hp
                rcases List.mem_cons.mp hp with he | he
                · exact Or.inr (he ▸ hm1)
                · exact Or.inl he
              · intro htrue
                exact absurd htrue (by simp)
              · intro _
                exact hinv1
            · simp only [hph] at hr
              have hnd1 : ((all_dents (mark_dent tree dent.did)).map fun d =>
                  d.did).Nodup := by
                rw [all_dents_dids_mark]
                exact hnd
              have hfindpd : find_dent (mark_dent tree dent.did) pd.did =
                  some pd :=
                find_by_id (mark_dent tree dent.did) hnd1 pd
                  (mem_all_dents (mark_dent tree dent.did) pf pd
                    (List.mem_of_find?_eq_some hpl)
                    (List.mem_of_mem_head? (by rw [hph]; rfl)))
              have hps : parent_status (mark_dent tree dent.did)
                  dent.parent = some (false, some pd.did) := by
                unfold parent_status head_did
                rw [hpl]
                simp only [Option.map_some']
                rw [hph]
                simp [hroot]
              have hchain2 : path_link (mark_dent tree dent.did) pd.did
                  (dent.did :: path) :=
                ⟨⟨dent.parent, hparent1, hps⟩,
                  path_link_mark tree dent.did path dent.did hchain⟩
              obtain ⟨c1, c2, c3, c4, c5, c6, c7, c8, c9, c10⟩ :=
                ih pd (dent.did :: path) (mark_dent tree dent.did) r hr hnd1
                  hfindpd hinv1 hpath1 hchain2 hok
              refine ⟨c1.trans (files_sig_mark tree dent.did),
                c2.trans (all_dents_dids_mark tree dent.did),
                fun n => (c3 n).trans (dids_of_mark tree dent.did n),
                fun x h => c4 x (marked_mark_mono tree dent.did x h), ?_,
                fun p hp => c6 p (List.mem_cons_of_mem _ hp), c7, ?_, ?_,
                c10⟩
              · intro x hx
                rcases c5 x hx with h | h
                · rcases marked_mark_rev tree dent.did x h with h2 | h2
                  · exact Or.inl h2
                  · exact Or.inr (h2 ▸ c6 dent.did (List.mem_cons_self _ _))
                · exact Or.inr h
              · intro p hp
                rcases c8 p hp with h | h
                · rcases List.mem_cons.mp h with he | he
                  · exact Or.inr (he ▸ hm1)
                  · exact Or.inl he
                · right
                  cases hb : marked tree p with
                  | false => rfl
                  | true =>
                    rw [marked_mark_mono tree dent.did p hb] at h
                    simp at h
              · intro ht
                obtain ⟨ha, _⟩ := c9 ht
                exact ⟨ha, c4 dent.did hmark1self⟩

theorem filter_map_mark (i : Nat) (S : List Nat) (hi : i ∈ S) :
    ∀ l : List RDent,
    (l.map (mark_one i)).filter (fun d => decide (d.did ∉ S)) =
      l.filter fun d => decide (d.did ∉ S) := by
  intro l
  induction l with
  | nil => rfl
  | cons d rest ih =>
    by_cases hd : d.did = i
    · have hm : d.did ∈ S := hd ▸ hi
      have hc1 : decide ((mark_one i d).did ∉ S) = false := by
        rw [mark_one_did]
        simp [hm]
      have hc2 : decide (d.did ∉ S) = false := by simp [hm]
      rw [List.map_cons]
      simp only [List.filter_cons]
      rw [hc1, hc2]
      simp only [Bool.false_eq_true, if_false]
      exact ih
    · have hmk : mark_one i d = d := by
        unfold mark_one
        rw [if_neg hd]
      rw [List.map_cons, hmk]
      by_cases hm : d.did ∈ S
      · rw [List.filter_cons_of_neg (by simpa using hm),
          List.filter_cons_of_neg (by simpa using hm)]
        exact ih
      · rw [List.filter_cons_of_pos (by simpa using hm),
          List.filter_cons_of_pos (by simpa using hm), ih]

theorem delete_mark_cancel (tree : List RFile) (i : Nat) (S : List Nat)
    (hi : i ∈ S) :
    delete_dents (mark_dent tree i) S = delete_dents tree S := by
  unfold delete_dents mark_dent
  rw [List.map_map]
  apply List.map_congr_left
  intro f _
  dsimp only [Function.comp]
  congr 1
  exact filter_map_mark i S hi f.dent_nodes

theorem walk_plumb : ∀ (fuel : Nat) (dent : RDent) (path : List Nat)
    (tree : List RFile) (r : WalkResult),
    dentry_is_reachable fuel dent path tree = r →
    (∀ p ∈ path, p ∈ r.path) ∧
    (∀ x, dent_parent r.tree x = dent_parent tree x) ∧
    (∀ p, parent_status r.tree p = parent_status tree p) ∧
    (∀ S, (∀ p ∈ r.path, p ∈ S) →
      delete_dents r.tree S = delete_dents tree S) := by
  intro fuel
  induction fuel with
  | zero =>
    intro dent path tree r hr
    rw [← hr]
    exact ⟨fun p hp => hp, fun x => rfl, fun p => rfl, fun S _ => rfl⟩
  | succ fuel ih =>
    intro dent path tree r hr
    simp only [dentry_is_reachable] at hr
    by_cases hcyc : dent.did ∈ path
    · rw [if_pos hcyc] at hr
      subst hr
      exact ⟨fun p hp => hp, fun x => rfl, fun p => rfl, fun S _ => rfl⟩
    · rw [if_neg hcyc] at hr
      by_cases hqk : dent.can_be_found = true
      · rw [if_pos hqk] at hr
        subst hr
        exact ⟨fun p hp => hp, fun x => rfl, fun p => rfl, fun S _ => rfl⟩
      · rw [if_neg hqk] at hr
        rcases hpl : lookup_rfile (mark_dent tree dent.did) dent.parent
          with _ | pf
        · rw [hpl] at hr
          subst hr
          refine ⟨fun p hp => List.mem_cons_of_mem _ hp,
            fun x => dent_parent_mark tree dent.did x,
            fun p => parent_status_mark tree dent.did p, ?_⟩
          intro S hS
          exact delete_mark_cancel tree dent.did S
            (hS dent.did (List.mem_cons_self _ _))
        · simp only [hpl] at hr
          by_cases hroot : pf.inum = UBIFS_ROOT_INO
          · rw [if_pos hroot] at hr
            subst hr
            refine ⟨fun p hp => List.mem_cons_of_mem _ hp,
              fun x => dent_parent_mark tree dent.did x,
              fun p => parent_status_mark tree dent.did p, ?_⟩
            intro S hS
            exact delete_mark_cancel tree dent.did S
              (hS dent.did (List.mem_cons_self _ _))
          · rw [if_neg hroot] at hr
            rcases hph : pf.dent_nodes.head? with _ | pd
            · simp only [hph] at hr
              subst hr
              refine ⟨fun p hp => List.mem_cons_of_mem _ hp,
                fun x => dent_parent_mark tree dent.did x,
                fun p => parent_status_mark tree dent.did p, ?_⟩
              intro S hS
              exact delete_mark_cancel tree dent.did S
                (hS dent.did (List.mem_cons_self _ _))
            · simp only [hph] at hr
              obtain ⟨p1, p2, p3, p4⟩ :=
                ih pd (dent.did :: path) (mark_dent tree dent.did) r hr
              refine ⟨fun p hp => p1 p (List.mem_cons_of_mem _ hp),
                fun x => (p2 x).trans (dent_parent_mark tree dent.did x),
                fun p => (p3 p).trans (parent_status_mark tree dent.did p),
                ?_⟩
              intro S hS
              rw [p4 S hS]
              exact delete_mark_cancel tree dent.did S
                (hS dent.did (p1 dent.did (List.mem_cons_self _ _)))

theorem MarkedUp_transport (t t' : List RFile)
    (hpar : ∀ x, dent_parent t' x = dent_parent t x)
    (hst : ∀ p, parent_status t' p = parent_status t p)
    (hmono : ∀ x, marked t x = true → marked t' x = true) (x : Nat)
    (h : MarkedUp t x) : MarkedUp t' x := by
  induction h with
  | toRoot did pinum ho hm hp hs =>
    exact MarkedUp.toRoot did pinum ho (hmono did hm)
      (by rw [hpar]; exact hp) (by rw [hst]; exact hs)
  | step did pinum hd hm hp hs _ ihh =>
    exact MarkedUp.step did pinum hd (hmono did hm)
      (by rw [hpar]; exact hp) (by rw [hst]; exact hs) ihh

theorem find_dent_eq_none_iff (tree : List RFile) (x : Nat) :
    find_dent tree x = none ↔
      x ∉ ((all_dents tree).map fun d => d.did) := by
  unfold find_dent
  rw [List.find?_eq_none]
  constructor
  · intro h hc
    obtain ⟨d, hd, hdx⟩ := List.mem_map.mp hc
    exact h d hd (by simpa using hdx)
  · intro h d hd hc
    exact h (List.mem_map.mpr ⟨d, hd, by simpa using hc⟩)

theorem fir_pass_lemma (fuelW : Nat) : ∀ (dids : List Nat)
    (tree : List RFile) (res : Option (List Nat) × List RFile × Bool),
    fir_pass fuelW dids tree = res →
    ((all_dents tree).map fun d => d.did).Nodup →
    (∀ x, marked tree x = true → MarkedUp tree x) →
    res.2.2 = true →
    files_sig res.2.1 = files_sig tree ∧
    ((all_dents res.2.1).map fun d => d.did) =
      ((all_dents tree).map fun d => d.did) ∧
    (∀ n, dids_of res.2.1 n = dids_of tree n) ∧
    (∀ x, marked tree x = true → marked res.2.1 x = true) ∧
    (res.1 = none →
      (∀ x, marked res.2.1 x = true → MarkedUp res.2.1 x) ∧
      (∀ di ∈ dids, marked res.2.1 di = true ∨ find_dent tree di = none)) ∧
    (∀ path1, res.1 = some path1 →
      (∀ x, marked tree x = true → x ∉ path1) ∧
      (∀ x, marked (delete_dents res.2.1 path1) x = true →
        MarkedUp (delete_dents res.2.1 path1) x) ∧
      (∀ x, marked tree x = true →
        marked (delete_dents res.2.1 path1) x = true)) := by
  intro dids
  induction dids with
  | nil =>
    intro tree res hres hnd hinv hok
    rw [← hres]
    refine ⟨rfl, rfl, fun n => rfl, fun x h => h, ?_, ?_⟩
    · intro _
      refine ⟨hinv, ?_⟩
      intro di hdi
      simp at hdi
    · intro path1 hp1
      exact absurd hp1 (by simp [fir_pass])
  | cons did rest ih =>
    intro tree res hres hnd hinv hok
    simp only [fir_pass] at hres
    rcases hfd : find_dent tree did with _ | d
    · simp only [hfd] at hres
      obtain ⟨c1, c2, c3, c4, c5, c6⟩ := ih tree res hres hnd hinv hok
      refine ⟨c1, c2, c3, c4, ?_, c6⟩
      intro hnone
      obtain ⟨ha, hb⟩ := c5 hnone
      refine ⟨ha, ?_⟩
      intro di hdi
      rcases List.mem_cons.mp hdi with he | he
      · exact Or.inr (he ▸ hfd)
      · exact hb di he
    · simp only [hfd] at hres
      have hdid : d.did = did := by
        have := List.find?_some hfd
        simpa using this
      have hfind' : find_dent tree d.did = some d := by
        rw [hdid]
        exact hfd
      rcases hw : dentry_is_reachable fuelW d [] tree with ⟨b, pth, t1, ok1⟩
      rw [hw] at hres
      cases b with
      | false =>
        dsimp only at hres
        rw [← hres] at hok
        have hok1 : ok1 = true := hok
        obtain ⟨c1, c2, c3, c4, c5, c6, c7, c8, c9, c10⟩ :=
          walk_lemma fuelW d [] tree ⟨false, pth, t1, ok1⟩ hw hnd hfind'
            (fun x h => Or.inl (hinv x h)) (fun p hp => by simp at hp)
            trivial hok1
        obtain ⟨p1, p2, p3, p4⟩ :=
          walk_plumb fuelW d [] tree ⟨false, pth, t1, ok1⟩ hw
        rw [← hres]
        refine ⟨c1, c2, c3, c4, ?_, ?_⟩
        · intro hnone
          simp at hnone
        · intro path1 hp1
          have hpe : pth = path1 := by
            simpa using hp1
          subst hpe
          have hunm : ∀ s ∈ pth, marked tree s = false := by
            intro s hs
            rcases c8 s hs with h | h
            · simp at h
            · exact h
          refine ⟨?_, ?_, ?_⟩
          · intro x hx hmem
            have := hunm x hmem
            rw [hx] at this
            simp at this
          · intro x hx
            by_cases hc : x ∈ pth
            · exfalso
              unfold marked at hx
              rw [find_dent_delete_mem t1 pth x hc] at hx
              simp at hx
            · have hx1 : marked t1 x = true := by
                rw [← marked_delete_not_mem t1 pth x hc]
                exact hx
              rcases c5 x hx1 with h | h
              · have hdel : MarkedUp (delete_dents tree pth) x :=
                  MarkedUp_delete tree pth hunm x (hinv x h)
                rw [show (⟨false, pth, t1, ok1⟩ : WalkResult).tree = t1
                  from rfl] at p4
                rw [p4 pth (fun p hp => hp)]
                exact hdel
              · exact absurd h hc
          · intro x hx
            have hnm : x ∉ pth := by
              intro hc
              have := hunm x hc
              rw [hx] at this
              simp at this
            rw [marked_delete_not_mem t1 pth x hnm]
            exact c4 x hx
      | true =>
        dsimp only at hres
        by_cases hok1 : ok1 = true
        · rw [if_pos hok1] at hres
          obtain ⟨c1, c2, c3, c4, c5, c6, c7, c8, c9, c10⟩ :=
            walk_lemma fuelW d [] tree ⟨true, pth, t1, ok1⟩ hw hnd hfind'
              (fun x h => Or.inl (hinv x h)) (fun p hp => by simp at hp)
              trivial hok1
          have hinv1 : ∀ x, marked t1 x = true → MarkedUp t1 x :=
            (c9 rfl).1
          have hnd1 : ((all_dents t1).map fun d => d.did).Nodup := by
            have : ((all_dents t1).map fun d => d.did) =
                ((all_dents tree).map fun d => d.did) := c2
            rw [this]
            exact hnd
          obtain ⟨d1, d2, d3, d4, d5, d6⟩ := ih t1 res hres hnd1 hinv1 hok
          refine ⟨d1.trans c1, d2.trans c2, fun n => (d3 n).trans (c3 n),
            fun x h => d4 x (c4 x h), ?_, ?_⟩
          · intro hnone
            obtain ⟨ha, hb⟩ := d5 hnone
            refine ⟨ha, ?_⟩
            intro di hdi
            rcases List.mem_cons.mp hdi with he | he
            · left
              have hm1 : marked t1 d.did = true := (c9 rfl).2
              rw [hdid] at hm1
              exact he ▸ d4 di (he ▸ hm1)
            · rcases hb di he with h | h
              · exact Or.inl h
              · right
                rw [find_dent_eq_none_iff] at h ⊢
                rw [← c2]
                exact h
          · intro path1 hp1
            obtain ⟨ha, hb, hc⟩ := d6 path1 hp1
            refine ⟨?_, hb, ?_⟩
            · intro x hx
              exact ha x (c4 x hx)
            · intro x hx
              exact hc x (c4 x hx)
        · rw [if_neg hok1] at hres
          rw [← hres] at hok
          simp at hok

theorem dids_of_delete_sublist (tree : List RFile) (S : List Nat) (n : Nat) :
    List.Sublist (dids_of (delete_dents tree S) n) (dids_of tree n) := by
  unfold dids_of
  rw [lookup_rfile_delete]
  rcases lookup_rfile tree n with _ | f
  · simp
  · simp only [Option.map_some']
    exact (List.filter_sublist _).map _

theorem all_dents_dids_delete_sublist (tree : List RFile) (S : List Nat) :
    List.Sublist ((all_dents (delete_dents tree S)).map fun d => d.did)
      ((all_dents tree).map fun d => d.did) := by
  rw [all_dents_delete]
  exact (List.filter_sublist _).map _

theorem fir_lemma : ∀ (fuelR fuelW finum : Nat) (tree : List RFile)
    (res : Bool × List RFile × Bool),
    file_is_reachable fuelR fuelW finum tree = res →
    ((all_dents tree).map fun d => d.did).Nodup →
    (∀ x, marked tree x = true → MarkedUp tree x) →
    res.2.2 = true →
    files_sig res.2.1 = files_sig tree ∧
    List.Sublist ((all_dents res.2.1).map fun d => d.did)
      ((all_dents tree).map fun d => d.did) ∧
    (∀ n, List.Sublist (dids_of res.2.1 n) (dids_of tree n)) ∧
    (∀ x, marked tree x = true → marked res.2.1 x = true) ∧
    (∀ x, marked res.2.1 x = true → MarkedUp res.2.1 x) ∧
    (res.1 = true → ∀ f, lookup_rfile res.2.1 finum = some f →
      ¬ f.inum = UBIFS_ROOT_INO → ∀ d ∈ f.dent_nodes,
        marked res.2.1 d.did = true) ∧
    (res.1 = false → ¬ finum = UBIFS_ROOT_INO ∧
      ∀ f, lookup_rfile res.2.1 finum = some f → f.dent_nodes = []) ∧
    (res.1 = true → ¬ finum = UBIFS_ROOT_INO →
      ∀ f, lookup_rfile res.2.1 finum = some f → ¬ f.dent_nodes = []) := by
  intro fuelR
  induction fuelR with
  | zero =>
    intro fuelW finum tree res hres hnd hinv hok
    rw [← hres] at hok
    simp [file_is_reachable] at hok
  | succ fuelR ih =>
    intro fuelW finum tree res hres hnd hinv hok
    simp only [file_is_reachable] at hres
    rcases hlf : lookup_rfile tree finum with _ | f
    · rw [hlf] at hres
      rw [← hres]
      refine ⟨rfl, List.Sublist.refl _, fun n => List.Sublist.refl _,
        fun x h => h, hinv, ?_, ?_, ?_⟩
      · intro _ f' hf'
        rw [hlf] at hf'
        simp at hf'
      · intro hfalse
        simp at hfalse
      · intro _ _ f' hf'
        rw [hlf] at hf'
        simp at hf'
    · simp only [hlf] at hres
      have hfin : f.inum = finum := by
        have := List.find?_some hlf
        simpa using this
      by_cases hroot : f.inum = UBIFS_ROOT_INO
      · rw [if_pos hroot] at hres
        rw [← hres]
        refine ⟨rfl, List.Sublist.refl _, fun n => List.Sublist.refl _,
          fun x h => h, hinv, ?_, ?_, ?_⟩
        · intro _ f' hf' hne
          rw [hlf] at hf'
          have : f' = f := by
            injection hf'.symm
          exact absurd (this ▸ hroot) hne
        · intro hfalse
          simp at hfalse
        · intro _ hne
          exact absurd (hfin ▸ hroot) hne
      · rw [if_neg hroot] at hres
        rcases hps : fir_pass fuelW (f.dent_nodes.map fun d => d.did) tree
          with ⟨op, t1, ok1⟩
        simp only [hps] at hres
        rcases op with _ | path1
        · dsimp only at hres
          have hok1 : ok1 = true := by
            rw [← hres] at hok
            rcases hlk : lookup_rfile t1 finum with _ | f1
            · simp only [hlk] at hok
              exact hok
            · simp only [hlk] at hok
              by_cases he : f1.dent_nodes = []
              · rw [if_pos he] at hok
                exact hok
              · rw [if_neg he] at hok
                exact hok
          obtain ⟨c1, c2, c3, c4, c5, c6⟩ := fir_pass_lemma fuelW
            (f.dent_nodes.map fun d => d.did) tree (none, t1, ok1) hps hnd
            hinv hok1
          obtain ⟨ha, hb⟩ := c5 rfl
          have hmarkedall : ∀ f1, lookup_rfile t1 finum = some f1 →
              ∀ d ∈ f1.dent_nodes, marked t1 d.did = true := by
            intro f1 hf1 d hd
            have hdm : d.did ∈ dids_of t1 finum := by
              unfold dids_of
              rw [hf1]
              exact List.mem_map_of_mem _ hd
            rw [c3 finum] at hdm
            have hdm0 : d.did ∈ f.dent_nodes.map fun d => d.did := by
              unfold dids_of at hdm
              rw [hlf] at hdm
              exact hdm
            rcases hb d.did hdm0 with h | h
            · exact h
            · exfalso
              rw [find_dent_eq_none_iff] at h
              apply h
              obtain ⟨d0, hd0, hd0e⟩ := List.mem_map.mp hdm0
              exact List.mem_map.mpr ⟨d0, mem_all_dents tree f d0
                (List.mem_of_find?_eq_some hlf) hd0, hd0e⟩
          rcases hlf1 : lookup_rfile t1 finum with _ | f1
          · simp only [hlf1] at hres
            rw [← hres]
            refine ⟨c1, by rw [c2], fun n => by rw [c3 n], c4, ha, ?_, ?_,
              ?_⟩
            · intro _ f' hf'
              rw [hlf1] at hf'
              simp at hf'
            · intro hfalse
              simp at hfalse
            · intro _ _ f' hf'
              rw [hlf1] at hf'
              simp at hf'
          · simp only [hlf1] at hres
            by_cases hempty : f1.dent_nodes = []
            · rw [if_pos hempty] at hres
              rw [← hres]
              refine ⟨c1, by rw [c2], fun n => by rw [c3 n], c4, ha, ?_, ?_,
                ?_⟩
              · intro htrue
                simp at htrue
              · intro _
                refine ⟨fun hc => hroot (hfin.trans hc), ?_⟩
                intro f' hf'
                rw [hlf1] at hf'
                have : f' = f1 := by injection hf'.symm
                rw [this]
                exact hempty
              · intro htrue
                simp at htrue
            · rw [if_neg hempty] at hres
              rw [← hres]
              refine ⟨c1, by rw [c2], fun n => by rw [c3 n], c4, ha, ?_, ?_,
                ?_⟩
              · intro _ f' hf' _
                rw [hlf1] at hf'
                have : f' = f1 := by injection hf'.symm
                rw [this]
                intro d hd
                exact hmarkedall f1 hlf1 d hd
              · intro hfalse
                simp at hfalse
              · intro _ _ f' hf'
                rw [hlf1] at hf'
                have : f' = f1 := by injection hf'.symm
                rw [this]
                exact hempty
        · dsimp only at hres
          by_cases hok1 : ok1 = true
          · rw [if_pos hok1] at hres
            obtain ⟨c1, c2, c3, c4, c5, c6⟩ := fir_pass_lemma fuelW
              (f.dent_nodes.map fun d => d.did) tree (some path1, t1, ok1)
              hps hnd hinv hok1
            obtain ⟨e1, e2, e3⟩ := c6 path1 rfl
            have hnd2 : ((all_dents (delete_dents t1 path1)).map fun d =>
                d.did).Nodup := by
              have hsub := all_dents_dids_delete_sublist t1 path1
              rw [c2] at hsub
              exact List.Nodup.sublist hsub hnd
            obtain ⟨g1, g2, g3, g4, g5, g6, g7, g8⟩ := ih fuelW finum
              (delete_dents t1 path1) res hres hnd2 e2 hok
            refine ⟨g1.trans ((files_sig_delete t1 path1).trans c1), ?_,
              ?_, ?_, g5, g6, g7, g8⟩
            · refine g2.trans ?_
              have hsub := all_dents_dids_delete_sublist t1 path1
              rw [c2] at hsub
              exact hsub
            · intro n
              refine (g3 n).trans ?_
              refine (dids_of_delete_sublist t1 path1 n).trans ?_
              rw [c3 n]
            · intro x hx
              exact g4 x (e3 x hx)
          · rw [if_neg hok1] at hres
            rw [← hres] at hok
            simp at hok


theorem marked_mem_global (t : List RFile) (di : Nat)
    (h : marked t di = true) :
    di ∈ (all_dents t).map fun d => d.did := by
  unfold marked at h
  rcases hf : find_dent t di with _ | d
  · rw [hf] at h
    simp at h
  · have hmem := List.mem_of_find?_eq_some hf
    have hdid : d.did = di := by
      have := List.find?_some hf
      simpa using this
    exact hdid ▸ List.mem_map_of_mem _ hmem

theorem global_split (t : List RFile) (di : Nat)
    (h : di ∈ (all_dents t).map fun d => d.did) :
    ∃ f ∈ t, di ∈ f.dent_nodes.map fun d => d.did := by
  obtain ⟨d, hd, hdi⟩ := List.mem_map.mp h
  obtain ⟨f, hf, hdf⟩ := List.mem_flatMap.mp hd
  exact ⟨f, hf, hdi ▸ List.mem_map_of_mem _ hdf⟩

theorem rfile_lookup_self (t : List RFile)
    (hnd : (t.map fun f => f.inum).Nodup) (f : RFile) (hf : f ∈ t) :
    lookup_rfile t f.inum = some f := by
  induction t with
  | nil => simp at hf
  | cons x r ihx =>
    simp only [List.map_cons, List.nodup_cons] at hnd
    rcases List.mem_cons.mp hf with he | he
    · subst he
      unfold lookup_rfile
      rw [List.find?_cons_of_pos _ (by simp)]
    · have hne : x.inum ≠ f.inum := by
        intro heq
        exact hnd.1 (heq ▸ List.mem_map_of_mem (fun f => f.inum) he)
      unfold lookup_rfile
      rw [List.find?_cons_of_neg _ (by simpa using hne)]
      exact ihx hnd.2 he

theorem files_sig_inum (t t' : List RFile)
    (h : files_sig t' = files_sig t) :
    t'.map (fun f => f.inum) = t.map fun f => f.inum := by
  have h2 := congrArg (List.map Prod.fst) h
  unfold files_sig at h2
  rw [List.map_map, List.map_map] at h2
  exact h2

theorem lookup_rfile_isSome_iff (t : List RFile) (n : Nat) :
    (lookup_rfile t n).isSome = true ↔ n ∈ t.map fun f => f.inum := by
  unfold lookup_rfile
  constructor
  · intro h
    obtain ⟨f, hf⟩ := Option.isSome_iff_exists.mp h
    have hm := List.mem_of_find?_eq_some hf
    have hp := List.find?_some hf
    exact (by simpa using hp : f.inum = n) ▸
      List.mem_map_of_mem (fun f => f.inum) hm
  · intro h
    obtain ⟨f, hf, hfe⟩ := List.mem_map.mp h
    rcases hfind : t.find? (fun f => decide (f.inum = n)) with _ | g
    · exfalso
      rw [List.find?_eq_none] at hfind
      exact hfind f hf (by simpa using hfe)
    · rw [hfind]
      rfl

theorem dids_disjoint : ∀ (tree : List RFile) (n m : Nat) (fn fm : RFile)
    (di : Nat), ((all_dents tree).map fun d => d.did).Nodup →
    lookup_rfile tree n = some fn → lookup_rfile tree m = some fm →
    ¬ n = m → di ∈ fn.dent_nodes.map (fun d => d.did) →
    di ∈ fm.dent_nodes.map (fun d => d.did) → False := by
  intro tree
  induction tree with
  | nil =>
    intro n m fn fm di hnd hn hm hne hdn hdm
    simp [lookup_rfile] at hn
  | cons f rest ihx =>
    intro n m fn fm di hnd hn hm hne hdn hdm
    have hsplit : ((all_dents (f :: rest)).map fun d => d.did) =
        (f.dent_nodes.map fun d => d.did) ++
          ((all_dents rest).map fun d => d.did) := by
      unfold all_dents
      rw [List.flatMap_cons, List.map_append]
    rw [hsplit] at hnd
    have hdisj := List.disjoint_of_nodup_append hnd
    by_cases hfn : f.inum = n
    · have hfneq : fn = f := by
        unfold lookup_rfile at hn
        rw [List.find?_cons_of_pos _ (by simpa using hfn)] at hn
        injection hn.symm
      have hfm : ¬ f.inum = m := by
        rw [hfn]
        exact hne
      have hm' : lookup_rfile rest m = some fm := by
        unfold lookup_rfile at hm ⊢
        rw [List.find?_cons_of_neg _ (by simpa using hfm)] at hm
        exact hm
      have hfmem : fm ∈ rest := List.mem_of_find?_eq_some hm'
      have hdm' : di ∈ (all_dents rest).map fun d => d.did := by
        obtain ⟨d, hd, hde⟩ := List.mem_map.mp hdm
        exact hde ▸ List.mem_map_of_mem _ (mem_all_dents rest fm d hfmem hd)
      exact hdisj (hfneq ▸ hdn) hdm'
    · by_cases hfm : f.inum = m
      · have hfmeq : fm = f := by
          unfold lookup_rfile at hm
          rw [List.find?_cons_of_pos _ (by simpa using hfm)] at hm
          injection hm.symm
        have hn' : lookup_rfile rest n = some fn := by
          unfold lookup_rfile at hn ⊢
          rw [List.find?_cons_of_neg _ (by simpa using hfn)] at hn
          exact hn
        have hfnmem : fn ∈ rest := List.mem_of_find?_eq_some hn'
        have hdn' : di ∈ (all_dents rest).map fun d => d.did := by
          obtain ⟨d, hd, hde⟩ := List.mem_map.mp hdn
          exact hde ▸ List.mem_map_of_mem _
            (mem_all_dents rest fn d hfnmem hd)
        exact hdisj (hfmeq ▸ hdm) hdn'
      · have hn' : lookup_rfile rest n = some fn := by
          unfold lookup_rfile at hn ⊢
          rw [List.find?_cons_of_neg _ (by simpa using hfn)] at hn
          exact hn
        have hm' : lookup_rfile rest m = some fm := by
          unfold lookup_rfile at hm ⊢
          rw [List.find?_cons_of_neg _ (by simpa using hfm)] at hm
          exact hm
        exact ihx n m fn fm di (List.Nodup.of_append_right hnd) hn' hm' hne
          hdn hdm

theorem marked_stays (tree t' : List RFile)
    (hnd : ((all_dents tree).map fun d => d.did).Nodup)
    (hinum : (tree.map fun f => f.inum).Nodup)
    (hsig : files_sig t' = files_sig tree)
    (hsub : ∀ n, List.Sublist (dids_of t' n) (dids_of tree n))
    (di n : Nat) (hmem : di ∈ dids_of tree n) (hm : marked t' di = true) :
    di ∈ dids_of t' n := by
  obtain ⟨f', hf', hdi'⟩ := global_split t' di (marked_mem_global t' di hm)
  have hinum' : (t'.map fun f => f.inum).Nodup := by
    rw [files_sig_inum tree t' hsig]
    exact hinum
  have hlk' : lookup_rfile t' f'.inum = some f' :=
    rfile_lookup_self t' hinum' f' hf'
  have hmem' : di ∈ dids_of t' f'.inum := by
    unfold dids_of
    rw [hlk']
    exact hdi'
  by_cases he : f'.inum = n
  · rw [← he]
    exact hmem'
  · exfalso
    have hmem0 : di ∈ dids_of tree f'.inum := (hsub f'.inum).subset hmem'
    unfold dids_of at hmem0 hmem
    rcases hl1 : lookup_rfile tree f'.inum with _ | g1
    · rw [hl1] at hmem0
      simp at hmem0
    · rcases hl2 : lookup_rfile tree n with _ | g2
      · rw [hl2] at hmem
        simp at hmem
      · rw [hl1] at hmem0
        rw [hl2] at hmem
        exact dids_disjoint tree f'.inum n g1 g2 di hnd hl1 hl2 he hmem0 hmem

theorem loop1_lemma (fuelR fuelW : Nat) : ∀ (is : List Nat)
    (tree : List RFile) (unr : List Nat)
    (out : List RFile × List Nat × Bool),
    hdt_loop1 fuelR fuelW is tree unr = out →
    ((all_dents tree).map fun d => d.did).Nodup →
    (tree.map fun f => f.inum).Nodup →
    (∀ x, marked tree x = true → MarkedUp tree x) →
    (∀ i ∈ unr, ¬ i = UBIFS_ROOT_INO ∧ dids_of tree i = []) →
    is.Nodup →
    (∀ i ∈ is, i ∉ unr) →
    (∀ i ∈ is, (lookup_rfile tree i).isSome = true) →
    out.2.2 = true →
    files_sig out.1 = files_sig tree ∧
    List.Sublist ((all_dents out.1).map fun d => d.did)
      ((all_dents tree).map fun d => d.did) ∧
    (∀ n, List.Sublist (dids_of out.1 n) (dids_of tree n)) ∧
    (∀ x, marked tree x = true → marked out.1 x = true) ∧
    (∀ x, marked out.1 x = true → MarkedUp out.1 x) ∧
    (∀ i ∈ out.2.1, ¬ i = UBIFS_ROOT_INO ∧ dids_of out.1 i = []) ∧
    (∀ i ∈ is, i ∉ out.2.1 → ¬ i = UBIFS_ROOT_INO →
      ∀ di ∈ dids_of out.1 i, marked out.1 di = true) ∧
    (∀ i ∈ unr, i ∈ out.2.1) ∧
    (∀ i ∈ out.2.1, i ∈ unr ∨ i ∈ is) ∧
    (∀ n di, di ∈ dids_of tree n → marked tree di = true →
      di ∈ dids_of out.1 n) ∧
    (∀ i ∈ is, i ∉ out.2.1 → ¬ i = UBIFS_ROOT_INO →
      ¬ dids_of out.1 i = []) := by
  intro is
  induction is with
  | nil =>
    intro tree unr out hout hnd hinum hinv hunr hnis hdisj hpres hok
    rw [← hout]
    refine ⟨rfl, List.Sublist.refl _, fun n => List.Sublist.refl _,
      fun x h => h, hinv, hunr, ?_, fun i hi => hi, fun i hi => Or.inl hi,
      fun n di h _ => h, ?_⟩
    · intro i hi
      simp at hi
    · intro i hi
      simp at hi
  | cons i rest ih =>
    intro tree unr out hout hnd hinum hinv hunr hnis hdisj hpres hok
    simp only [hdt_loop1] at hout
    rcases hfr : file_is_reachable fuelR fuelW i tree with ⟨b, t1, ok1⟩
    simp only [hfr] at hout
    by_cases hok1 : ok1 = true
    · rw [if_pos hok1] at hout
      obtain ⟨f1, f2, f3, f4, f5, f6, f7, f8⟩ := fir_lemma fuelR fuelW i
        tree (b, t1, ok1) hfr hnd hinv hok1
      have hnd1 : ((all_dents t1).map fun d => d.did).Nodup :=
        List.Nodup.sublist f2 hnd
      have hinum1 : (t1.map fun f => f.inum).Nodup := by
        rw [files_sig_inum tree t1 f1]
        exact hinum
      have hpres1 : ∀ j ∈ rest, (lookup_rfile t1 j).isSome = true := by
        intro j hj
        rw [lookup_rfile_isSome_iff, files_sig_inum tree t1 f1,
          ← lookup_rfile_isSome_iff]
        exact hpres j (List.mem_cons_of_mem _ hj)
      have hunr1 : ∀ j ∈ unr, ¬ j = UBIFS_ROOT_INO ∧ dids_of t1 j = [] := by
        intro j hj
        refine ⟨(hunr j hj).1, ?_⟩
        have hsb := f3 j
        rw [(hunr j hj).2] at hsb
        exact List.sublist_nil.mp hsb
      have hstays1 : ∀ n di, di ∈ dids_of tree n → marked tree di = true →
          di ∈ dids_of t1 n := by
        intro n di hm0 hmk
        exact marked_stays tree t1 hnd hinum f1 f3 di n hm0 (f4 di hmk)
      cases b with
      | true =>
        simp only [if_pos rfl] at hout
        obtain ⟨g1, g2, g3, g4, g5, g6, g7, g8, g9, g10, g11⟩ :=
          ih t1 unr out hout hnd1 hinum1 f5 hunr1
            (List.Nodup.of_cons hnis)
            (fun j hj => hdisj j (List.mem_cons_of_mem _ hj)) hpres1 hok
        have hmarked_t1 : ¬ i = UBIFS_ROOT_INO →
            ∀ di ∈ dids_of t1 i, marked t1 di = true := by
          intro hir di hdi
          unfold dids_of at hdi
          rcases hlk : lookup_rfile t1 i with _ | fi1
          · rw [hlk] at hdi
            simp at hdi
          · rw [hlk] at hdi
            obtain ⟨d0, hd0, hd0e⟩ := List.mem_map.mp hdi
            have hroot0 : ¬ fi1.inum = UBIFS_ROOT_INO := by
              have : fi1.inum = i := by
                have := List.find?_some hlk
                simpa using this
              rw [this]
              exact hir
            exact hd0e ▸ f6 rfl fi1 hlk hroot0 d0 hd0
        refine ⟨g1.trans f1, g2.trans f2, fun n => (g3 n).trans (f3 n),
          fun x h => g4 x (f4 x h), g5, g6, ?_, g8, ?_,
          fun n di h hm => g10 n di (hstays1 n di h hm) (f4 di hm), ?_⟩
        · intro j hj hjout hjr
          rcases List.mem_cons.mp hj with he | he
          · subst he
            intro di hdi
            have hdi1 : di ∈ dids_of t1 j := (g3 j).subset hdi
            exact g4 di (hmarked_t1 hjr di hdi1)
          · exact g7 j he hjout hjr
        · intro j hj
          rcases g9 j hj with h | h
          · exact Or.inl h
          · exact Or.inr (List.mem_cons_of_mem _ h)
        · intro j hj hjout hjr
          rcases List.mem_cons.mp hj with he | he
          · subst he
            have hsome1 : (lookup_rfile t1 j).isSome = true := by
              rw [lookup_rfile_isSome_iff, files_sig_inum tree t1 f1,
                ← lookup_rfile_isSome_iff]
              exact hpres j (List.mem_cons_self _ _)
            rcases hlk : lookup_rfile t1 j with _ | fj1
            · rw [hlk] at hsome1
              simp at hsome1
            · have hroot0 : ¬ fj1.inum = UBIFS_ROOT_INO := by
                have : fj1.inum = j := by
                  have := List.find?_some hlk
                  simpa using this
                rw [this]
                exact hjr
              have hne := f8 rfl hjr fj1 hlk
              have hne1 : ¬ dids_of t1 j = [] := by
                unfold dids_of
                rw [hlk]
                simpa using hne
              obtain ⟨di0, hdi0⟩ := List.exists_mem_of_ne_nil _ hne1
              have hm0 : marked t1 di0 = true := hmarked_t1 hjr di0 hdi0
              have : di0 ∈ dids_of out.1 j := g10 j di0 hdi0 hm0
              exact List.ne_nil_of_mem this
          · exact g11 j he hjout hjr
      | false =>
        simp only [Bool.false_eq_true, if_false] at hout
        obtain ⟨hiroot, hidentless⟩ := f7 rfl
        have hunr1' : ∀ j ∈ unr ++ [i], ¬ j = UBIFS_ROOT_INO ∧
            dids_of t1 j = [] := by
          intro j hj
          rcases List.mem_append.mp hj with hje | hje
          · exact hunr1 j hje
          · have hji : j = i := by simpa using hje
            subst hji
            refine ⟨hiroot, ?_⟩
            unfold dids_of
            rcases hlk : lookup_rfile t1 j with _ | fj
            · rfl
            · show fj.dent_nodes.map (fun d => d.did) = []
              rw [hidentless fj hlk]
              rfl
        obtain ⟨g1, g2, g3, g4, g5, g6, g7, g8, g9, g10, g11⟩ :=
          ih t1 (unr ++ [i]) out hout hnd1 hinum1 f5 hunr1'
            (List.Nodup.of_cons hnis)
            (fun j hj hc => by
              rcases List.mem_append.mp hc with hje | hje
              · exact hdisj j (List.mem_cons_of_mem _ hj) hje
              · have : j = i := by simpa using hje
                rw [this] at hj
                exact (List.nodup_cons.mp hnis).1 hj) hpres1 hok
        refine ⟨g1.trans f1, g2.trans f2, fun n => (g3 n).trans (f3 n),
          fun x h => g4 x (f4 x h), g5, g6, ?_, ?_, ?_,
          fun n di h hm => g10 n di (hstays1 n di h hm) (f4 di hm), ?_⟩
        · intro j hj hjout hjr
          rcases List.mem_cons.mp hj with he | he
          · subst he
            exact absurd (g8 j (List.mem_append_right _ (by simp))) hjout
          · exact g7 j he hjout hjr
        · intro j hj
          exact g8 j (List.mem_append_left _ hj)
        · intro j hj
          rcases g9 j hj with h | h
          · rcases List.mem_append.mp h with hje | hje
            · exact Or.inl hje
            · have : j = i := by simpa using hje
              exact Or.inr (this ▸ List.mem_cons_self _ _)
          · exact Or.inr (List.mem_cons_of_mem _ h)
        · intro j hj hjout hjr
          rcases List.mem_cons.mp hj with he | he
          · subst he
            exact absurd (g8 j (List.mem_append_right _ (by simp))) hjout
          · exact g11 j he hjout hjr
    · rw [if_neg hok1] at hout
      rw [← hout] at hok
      simp at hok

theorem all_dents_filter_dentless (unr : List Nat) :
    ∀ tree : List RFile, (∀ f ∈ tree, f.inum ∈ unr → f.dent_nodes = []) →
    all_dents (tree.filter fun f => decide (f.inum ∉ unr)) =
      all_dents tree := by
  intro tree
  induction tree with
  | nil => intro _; rfl
  | cons f rest ihx =>
    intro h
    by_cases hk : f.inum ∈ unr
    · rw [List.filter_cons_of_neg (by simpa using hk)]
      have hnil : f.dent_nodes = [] := h f (List.mem_cons_self _ _) hk
      show all_dents (rest.filter _) = f.dent_nodes ++ all_dents rest
      rw [hnil, List.nil_append]
      exact ihx fun g hg => h g (List.mem_cons_of_mem _ hg)
    · rw [List.filter_cons_of_pos (by simpa using hk)]
      show f.dent_nodes ++ all_dents (rest.filter _) =
        f.dent_nodes ++ all_dents rest
      rw [ihx fun g hg => h g (List.mem_cons_of_mem _ hg)]

theorem lookup_rfile_filter (unr : List Nat) :
    ∀ (tree : List RFile) (p : Nat) (pf : RFile),
    lookup_rfile tree p = some pf → pf.inum ∉ unr →
    lookup_rfile (tree.filter fun f => decide (f.inum ∉ unr)) p =
      some pf := by
  intro tree
  induction tree with
  | nil =>
    intro p pf h _
    simp [lookup_rfile] at h
  | cons f rest ihx =>
    intro p pf h hkeep
    by_cases hp : f.inum = p
    · have hfe : pf = f := by
        unfold lookup_rfile at h
        rw [List.find?_cons_of_pos _ (by simpa using hp)] at h
        injection h.symm
      have hkf : f.inum ∉ unr := hfe ▸ hkeep
      rw [List.filter_cons_of_pos (by simpa using hkf)]
      unfold lookup_rfile
      rw [List.find?_cons_of_pos _ (by simpa using hp)]
      rw [hfe]
    · have h' : lookup_rfile rest p = some pf := by
        unfold lookup_rfile at h ⊢
        rw [List.find?_cons_of_neg _ (by simpa using hp)] at h
        exact h
      by_cases hk : f.inum ∈ unr
      · rw [List.filter_cons_of_neg (by simpa using hk)]
        exact ihx p pf h' hkeep
      · rw [List.filter_cons_of_pos (by simpa using hk)]
        unfold lookup_rfile
        rw [List.find?_cons_of_neg _ (by simpa using hp)]
        exact ihx p pf h' hkeep

theorem MarkedUp_filter (t : List RFile) (unr : List Nat)
    (hdentless : ∀ f ∈ t, f.inum ∈ unr → f.dent_nodes = [])
    (hrootunr : UBIFS_ROOT_INO ∉ unr) (x : Nat) (h : MarkedUp t x) :
    MarkedUp (t.filter fun f => decide (f.inum ∉ unr)) x := by
  have hall : all_dents (t.filter fun f => decide (f.inum ∉ unr)) =
      all_dents t := all_dents_filter_dentless unr t hdentless
  have hfind : ∀ y, find_dent (t.filter fun f => decide (f.inum ∉ unr)) y =
      find_dent t y := by
    intro y
    unfold find_dent
    rw [hall]
  induction h with
  | toRoot did pinum ho hm hp hs =>
    obtain ⟨pf, hlk, hb, hh⟩ := parent_status_inv t pinum true ho hs
    have hpfroot : pf.inum = UBIFS_ROOT_INO := by simpa using hb
    have hkeep : pf.inum ∉ unr := hpfroot ▸ hrootunr
    refine MarkedUp.toRoot did pinum ho ?_ ?_ ?_
    · unfold marked
      rw [hfind]
      unfold marked at hm
      exact hm
    · unfold dent_parent
      rw [hfind]
      unfold dent_parent at hp
      exact hp
    · unfold parent_status
      rw [lookup_rfile_filter unr t pinum pf hlk hkeep]
      rw [← hh, ← hb]
      rfl
  | step did pinum hd hm hp hs _ ihh =>
    obtain ⟨pf, hlk, hb, hh⟩ := parent_status_inv t pinum false (some hd) hs
    have hne : ¬ pf.dent_nodes = [] := by
      intro hc
      unfold head_did at hh
      rw [hc] at hh
      simp at hh
    have hkeep : pf.inum ∉ unr := by
      intro hc
      exact hne (hdentless pf (List.mem_of_find?_eq_some hlk) hc)
    refine MarkedUp.step did pinum hd ?_ ?_ ?_ ihh
    · unfold marked
      rw [hfind]
      unfold marked at hm
      exact hm
    · unfold dent_parent
      rw [hfind]
      unfold dent_parent at hp
      exact hp
    · unfold parent_status
      rw [lookup_rfile_filter unr t pinum pf hlk hkeep]
      rw [← hh, ← hb]
      rfl

/-- C3: reachability closure. After `handle_dentry_tree` (with enough
fuel to mirror the C recursion, and starting from a tree with distinct
dentry identities, distinct inode numbers and cleared memoization
flags): every remaining non-root file still has dentries and each of its
dentries has a finite ascent of surviving parent dentries ending at the
root, so no cycles remain; a dentry already on the walk's path makes
`dentry_is_reachable` return unreachable immediately instead of looping;
every removed file has no surviving dentry and is moved to the
disconnected set when regular and deleted otherwise; and every original
file is accounted for as retained, disconnected, or deleted. -/
theorem C3_reachability_closure (fuelR fuelW : Nat) (tree : List RFile)
    (hnd : ((all_dents tree).map fun d => d.did).Nodup)
    (hinum : (tree.map fun f => f.inum).Nodup)
    (hclean : ∀ d ∈ all_dents tree, d.can_be_found = false)
    (hok : (handle_dentry_tree fuelR fuelW tree).ok = true) :
    (∀ f ∈ (handle_dentry_tree fuelR fuelW tree).tree,
      ¬ f.inum = UBIFS_ROOT_INO →
      ¬ f.dent_nodes = [] ∧ ∀ d ∈ f.dent_nodes,
        DidAscends (handle_dentry_tree fuelR fuelW tree).tree d.did) ∧
    (∀ (fuel : Nat) (dent : RDent) (path : List Nat) (t : List RFile),
      dent.did ∈ path →
      dentry_is_reachable (fuel + 1) dent path t = ⟨false, path, t, true⟩) ∧
    (∀ f ∈ (handle_dentry_tree fuelR fuelW tree).disconnected,
      f.is_reg = true ∧ f.dent_nodes = []) ∧
    (∀ f ∈ (handle_dentry_tree fuelR fuelW tree).deleted,
      f.is_reg = false ∧ f.dent_nodes = []) ∧
    (∀ f0 ∈ tree, ∃ g,
      (g ∈ (handle_dentry_tree fuelR fuelW tree).tree ∨
        g ∈ (handle_dentry_tree fuelR fuelW tree).disconnected ∨
        g ∈ (handle_dentry_tree fuelR fuelW tree).deleted) ∧
      g.inum = f0.inum ∧ g.is_reg = f0.is_reg) := by
  rcases hl : hdt_loop1 fuelR fuelW (tree.map fun f => f.inum) tree []
    with ⟨tree1, unr, okk⟩
  have hres : handle_dentry_tree fuelR fuelW tree =
      ⟨tree1.filter fun f => decide (f.inum ∉ unr),
       tree1.filter fun f => decide (f.inum ∈ unr) && f.is_reg,
       tree1.filter fun f => decide (f.inum ∈ unr) && ! f.is_reg, okk⟩ := by
    unfold handle_dentry_tree
    rw [hl]
  rw [hres] at hok ⊢
  have hinv0 : ∀ x, marked tree x = true → MarkedUp tree x := by
    intro x hx
    exfalso
    unfold marked at hx
    rcases hf : find_dent tree x with _ | d
    · rw [hf] at hx
      simp at hx
    · rw [hf] at hx
      have hx' : d.can_be_found = true := hx
      rw [hclean d (List.mem_of_find?_eq_some hf)] at hx'
      simp at hx'
  obtain ⟨L1, L2, L3, L4, L5, L6, L7, L8, L9, L10, L11⟩ :=
    loop1_lemma fuelR fuelW (tree.map fun f => f.inum) tree []
      (tree1, unr, okk) hl hnd hinum hinv0 (fun i hi => by simp at hi)
      hinum (fun i hi hc => by simp at hc)
      (fun i hi => (lookup_rfile_isSome_iff tree i).mpr hi) hok
  have hinum1 : (tree1.map fun f => f.inum).Nodup := by
    rw [files_sig_inum tree tree1 L1]
    exact hinum
  have hdentless1 : ∀ f ∈ tree1, f.inum ∈ unr → f.dent_nodes = [] := by
    intro f hf hU
    have hdd := (L6 f.inum hU).2
    have hlkf := rfile_lookup_self tree1 hinum1 f hf
    unfold dids_of at hdd
    rw [hlkf] at hdd
    have hdd' : f.dent_nodes.map (fun d => d.did) = [] := hdd
    exact List.map_eq_nil_iff.mp hdd'
  have hrootunr : UBIFS_ROOT_INO ∉ unr := fun hc => (L6 _ hc).1 rfl
  have hdids : ∀ f ∈ tree1, dids_of tree1 f.inum =
      f.dent_nodes.map fun d => d.did := by
    intro f hf
    unfold dids_of
    rw [rfile_lookup_self tree1 hinum1 f hf]
  refine ⟨?_, ?_, ?_, ?_, ?_⟩
  · intro f hf hfroot
    have hf1 : f ∈ tree1 := List.mem_of_mem_filter hf
    have hkeep : f.inum ∉ unr := by
      have := List.of_mem_filter hf
      simpa using this
    have hfin : f.inum ∈ tree.map fun g => g.inum := by
      rw [← files_sig_inum tree tree1 L1]
      exact List.mem_map_of_mem _ hf1
    constructor
    · have hne := L11 f.inum hfin hkeep hfroot
      intro hc
      apply hne
      rw [hdids f hf1, hc]
      rfl
    · intro d hd
      have hdm : d.did ∈ dids_of tree1 f.inum := by
        rw [hdids f hf1]
        exact List.mem_map_of_mem _ hd
      have hmk : marked tree1 d.did = true :=
        L7 f.inum hfin hkeep hfroot d.did hdm
      exact MarkedUp_ascends _ _
        (MarkedUp_filter tree1 unr hdentless1 hrootunr d.did (L5 d.did hmk))
  · intro fuel dent path t hmem
    simp [dentry_is_reachable, hmem]
  · intro f hf
    have hf1 : f ∈ tree1 := List.mem_of_mem_filter hf
    have hcond := List.of_mem_filter hf
    simp at hcond
    exact ⟨hcond.2, hdentless1 f hf1 hcond.1⟩
  · intro f hf
    have hf1 : f ∈ tree1 := List.mem_of_mem_filter hf
    have hcond := List.of_mem_filter hf
    simp at hcond
    exact ⟨hcond.2, hdentless1 f hf1 hcond.1⟩
  · intro f0 hf0
    have hsig0 : (f0.inum, f0.is_reg) ∈ files_sig tree1 := by
      rw [L1]
      exact List.mem_map_of_mem _ hf0
    obtain ⟨g, hg, hge⟩ := List.mem_map.mp hsig0
    have hge1 : g.inum = f0.inum := congrArg Prod.fst hge
    have hge2 : g.is_reg = f0.is_reg := congrArg Prod.snd hge
    by_cases hU : g.inum ∈ unr
    · by_cases hReg : g.is_reg = true
      · exact ⟨g, Or.inr (Or.inl (List.mem_filter_of_mem hg
          (by simp [hU, hReg]))), hge1, hge2⟩
      · exact ⟨g, Or.inr (Or.inr (List.mem_filter_of_mem hg
          (by simp [hU, hReg]))), hge1, hge2⟩
    · exact ⟨g, Or.inl (List.mem_filter_of_mem hg (by simpa using hU)),
        hge1, hge2⟩

/-- Example tree for the reachability pass: the root, a directory (inode
2) under the root, a regular file (inode 3) under that directory, a
two-directory cycle (inodes 4 and 5), and a regular file (inode 6) whose
parent directory is missing. -/
def C3tree : List RFile :=
  [⟨1, false, []⟩,
   ⟨2, false, [⟨10, 1, false⟩]⟩,
   ⟨3, true, [⟨11, 2, false⟩]⟩,
   ⟨4, false, [⟨12, 5, false⟩]⟩,
   ⟨5, false, [⟨13, 4, false⟩]⟩,
   ⟨6, true, [⟨14, 7, false⟩]⟩]

/-- C3 witness: the reachability closure evaluated on the example tree. -/
theorem C3_reachability_closure_witness :
    (∀ f ∈ (handle_dentry_tree 10 10 C3tree).tree,
      ¬ f.inum = UBIFS_ROOT_INO →
      ¬ f.dent_nodes = [] ∧ ∀ d ∈ f.dent_nodes,
        DidAscends (handle_dentry_tree 10 10 C3tree).tree d.did) ∧
    (∀ (fuel : Nat) (dent : RDent) (path : List Nat) (t : List RFile),
      dent.did ∈ path →
      dentry_is_reachable (fuel + 1) dent path t = ⟨false, path, t, true⟩) ∧
    (∀ f ∈ (handle_dentry_tree 10 10 C3tree).disconnected,
      f.is_reg = true ∧ f.dent_nodes = []) ∧
    (∀ f ∈ (handle_dentry_tree 10 10 C3tree).deleted,
      f.is_reg = false ∧ f.dent_nodes = []) ∧
    (∀ f0 ∈ C3tree, ∃ g,
      (g ∈ (handle_dentry_tree 10 10 C3tree).tree ∨
        g ∈ (handle_dentry_tree 10 10 C3tree).disconnected ∨
        g ∈ (handle_dentry_tree 10 10 C3tree).deleted) ∧
      g.inum = f0.inum ∧ g.is_reg = f0.is_reg) :=
  C3_reachability_closure 10 10 C3tree (by decide) (by decide) (by decide)
    (by decide)

end Fsck
